import Mathlib

/-!
# Page-fault handler of xv6-riscv (kernel/pfault.c): demand paging, bounded resident heap, swap

Shallow embedding of `kernel/pfault.c`.

* Arrays are lists: `psa_tracker` has `PSASIZE = psa_tracker.length` entries and
  `p->heap_tracker` has `MAXHEAP = heap_tracker.length` entries.
* `uint64` values are natural numbers; where the C arithmetic can wrap, the reduction modulo
  `2^64` (or `2^32`) is written out.
* `int` values (`idx`, `blockno`, `startblock`, `page_idx`, `resident_heap_pages`) are integers,
  with `-1` as the sentinel the source uses.
* User memory is page granular: `pagetable a` is the page mapped at the page-aligned virtual
  address `a`, a page being the byte stored at each offset. The disk is the content of each block.
* A run ends normally, in a kernel `panic`, or by indexing an array outside its bounds.
-/

namespace Pfault

/-! ## Constants and types declared outside `pfault.c` -/

/-- Modelled from the spec: the page size `PGSIZE` of `riscv.h` (not among the sources); the
pages of this kernel have 4096 bytes and "a page spans exactly 4 blocks". -/
def PGSIZE : Nat := 4096

/-- Modelled from the spec: the block size `BSIZE` of `fs.h` (not among the sources): "block size
is fixed; a page spans exactly 4 blocks", so a block has 1024 bytes. -/
def BSIZE : Nat := 1024

/-- Modelled from the spec: the macro `PGROUNDDOWN` of `riscv.h` (not among the sources), which
yields the "page-aligned" address of the page containing `a`. -/
def PGROUNDDOWN (a : Nat) : Nat := a - a % PGSIZE

/-- Modelled from the spec: the program-header type `ELF_PROG_LOAD` of `elf.h` (not among the
sources) that marks a "loadable segment". -/
def ELF_PROG_LOAD : Nat := 1

/-- The contents of a page, of a disk block or of a kernel buffer: the byte at each offset. -/
abbrev Page := Nat → Nat

/-- One entry of `p->heap_tracker` (declared in `proc.h`), with the four fields `pfault.c`
reads and writes. -/
structure heap_tracker_t where
  addr : Nat
  last_load_time : Nat
  startblock : Int
  loaded : Bool
deriving DecidableEq, Repr, Inhabited

/-- The fields of `struct elfhdr` that `page_fault_handler` uses. -/
structure elfhdr where
  phoff : Nat
  phnum : Nat
deriving DecidableEq, Repr, Inhabited

/-- The fields of `struct proghdr` that `page_fault_handler` uses. -/
structure proghdr where
  type : Nat
  flags : Nat
  off : Nat
  vaddr : Nat
  filesz : Nat
  memsz : Nat
deriving DecidableEq, Repr, Inhabited

/-- The executable image as `readi` presents it: the ELF header (`none` when the read is short),
the program header obtained in iteration `i` of the scan (`none` when that read is short), and
the bytes of the file. -/
structure Inode where
  elf : Option elfhdr
  ph : Nat → Option proghdr
  size : Nat
  data : Nat → Nat

/-- The state `pfault.c` works on: the global swap bitmap, the fields of the faulting process,
its user memory and the disk. -/
structure State where
  psa_tracker : List Bool
  heap_tracker : List heap_tracker_t
  resident_heap_pages : Int
  cow_enabled : Bool
  pagetable : Nat → Option Page
  disk : Nat → Page

/-- The constants of `param.h` (not among the sources) that are not array sizes. -/
structure Params where
  PSASTART : Nat
  MAXRESHEAP : Int

/-- What one invocation of the handler receives from outside `pfault.c`: the trap registers
`stval` and `scause`; `ticks i`, the clock read while the eviction scan examines entry `i`, and
`ticks_load`, the clock read at line 279; whether `uvmalloc` obtains memory; the contents of a
page fresh from `kalloc`; the copy-on-write resolver `copy_on_write` of the spec
(`resolveCowFault()`, "opaque, assumed total"), which works on the page table; the result of
`namei`; and the uninitialised `ph` on the stack. -/
structure Oracle where
  stval : Nat
  scause : Nat
  ticks : Nat → Nat
  ticks_load : Nat
  uvmalloc_ok : Bool
  junk : Page
  copy_on_write : (Nat → Option Page) → (Nat → Option Page)
  namei : Option Inode
  ph_stack : proghdr

/-- The three `panic` calls of `pfault.c`. -/
inductive Fatal where
  | no_psa_block_available
  | issue_retrieving_page
  | uvmalloc_error
deriving DecidableEq, Repr

/-- How a run ends: normally, in a `panic`, or by indexing `psa_tracker` or `heap_tracker`
outside its bounds; each with the state reached. -/
inductive Outcome where
  | ok (s : State)
  | panic (m : Fatal) (s : State)
  | out_of_bounds (s : State)

/-- Sequencing: the continuation runs only after a normal end. -/
def Outcome.andThen (r : Outcome) (k : State → Outcome) : Outcome :=
  match r with
  | .ok s => k s
  | .panic m s => .panic m s
  | .out_of_bounds s => .out_of_bounds s

/-- Subtraction of `uint64` values. -/
def sub64 (a b : Nat) : Nat := (a + 2 ^ 64 - b) % 2 ^ 64

/-- Addition of `uint64` values. -/
def add64 (a b : Nat) : Nat := (a + b) % 2 ^ 64

/-! ## Collaborators of `pfault.c` -/

/-- Modelled from the spec: `uvmalloc` of `vm.c` (not among the sources), the primitive
`mapRange(pagetable, vaddrStart, vaddrEnd, permissions) -> result`. When memory is available
every page-aligned address of the range is mapped to a fresh zero page and the new size is
returned; otherwise nothing is mapped and the result is 0. Permissions (the last argument, for
the program image `flags2perm(ph.flags)`) are not part of this page-table model. -/
def uvmalloc (pt : Nat → Option Page) (oldsz newsz : Nat) (ok : Bool) :
    (Nat → Option Page) × Nat :=
  if ok then
    (fun a => if oldsz ≤ a ∧ a < newsz ∧ a % PGSIZE = 0 then some (fun _ => 0) else pt a, newsz)
  else (pt, 0)

/-- Modelled from the spec: `uvmunmap` of `vm.c` (not among the sources), the primitive
`unmap(pagetable, vaddr, pageCount, freePhysical)` for one page. -/
def uvmunmap (pt : Nat → Option Page) (va : Nat) : Nat → Option Page :=
  fun a => if a = va then none else pt a

/-- Modelled from the spec: `copyin` of `vm.c` (not among the sources), the primitive
`copyIn(pagetable, dest, srcUserAddr, length)` for one page: the first `PGSIZE` bytes of the
buffer receive the page mapped at `srcva`; the buffer is left as it is when nothing is mapped. -/
def copyin (pt : Nat → Option Page) (dst : Page) (srcva : Nat) : Page :=
  match pt srcva with
  | some pg => fun j => if j < PGSIZE then pg j else dst j
  | none => dst

/-- Modelled from the spec: `copyout` of `vm.c` (not among the sources), the primitive
`copyOut(pagetable, destUserAddr, src, length)` for one page: the page mapped at `dstva`
receives the first `PGSIZE` bytes of the buffer; nothing changes when nothing is mapped. -/
def copyout (pt : Nat → Option Page) (dstva : Nat) (src : Page) : Nat → Option Page :=
  match pt dstva with
  | some pg => fun a => if a = dstva then some (fun j => if j < PGSIZE then src j else pg j) else pt a
  | none => pt

/-- Modelled from the spec: `loadseg` of `exec.c` (not among the sources), which populates
mapped pages "from the image file": the `sz` bytes at file offset `offset` go to the addresses
from `va` on, as far as the file reaches; unmapped pages stay unmapped. -/
def loadseg (pt : Nat → Option Page) (va : Nat) (ip : Inode) (offset sz : Nat) :
    Nat → Option Page :=
  fun a =>
    match pt a with
    | none => none
    | some pg =>
      if va ≤ a ∧ (a - va) % PGSIZE = 0 then
        some (fun j =>
          if j < PGSIZE ∧ (a - va) + j < sz ∧ offset + (a - va) + j < ip.size then
            ip.data (offset + (a - va) + j)
          else pg j)
      else some pg

/-! ## `init_psa_regions` -/

/-- The function `init_psa_regions`: every block of the swap area becomes free. -/
def init_psa_regions (psa_tracker : List Bool) : List Bool :=
  psa_tracker.map (fun _ => false)

/-! ## `evict_page_to_disk` -/

/-- The outer loop of lines 42-51, `for (i = 0; i < PSASIZE; i += 4)`, up to the `break`: the
first `i` with `psa_tracker[i] == false`, or `-1`. The first argument bounds the number of
iterations. -/
def find_free_block (psa : List Bool) : Nat → Nat → Int
  | 0, _ => -1
  | fuel + 1, i =>
    if i < psa.length then
      if psa.getD i true = false then (i : Int) else find_free_block psa fuel (i + 4)
    else -1

/-- The inner loop of lines 45-48 (and the assignments of line 131):
`psa_tracker[k] = true` for `k = blockno .. blockno+3`. -/
def mark_used (psa : List Bool) (blockno : Nat) : List Bool :=
  (((psa.set blockno true).set (blockno + 1) true).set (blockno + 2) true).set (blockno + 3) true

/-- The constant `WORKING_SET_WINDOW` of line 83. -/
def WORKING_SET_WINDOW : Nat := 50

/-- The loop of lines 85-97 from index `i` on; the accumulator is `(idx, least_recent_time)` and
`ticks i` is what `read_current_timestamp()` returns while entry `i` is examined. -/
def working_set_scan (ticks : Nat → Nat) : List heap_tracker_t → Nat → Int × Nat → Int × Nat
  | [], _, acc => acc
  | e :: es, i, acc =>
    working_set_scan ticks es (i + 1)
      (if e.loaded then
        let last_used := e.last_load_time
        let current_time := ticks i
        if sub64 current_time last_used > WORKING_SET_WINDOW then
          if last_used < acc.2 then ((i : Int), last_used) else acc
        else acc
      else acc)

/-- The loop of lines 101-108 from index `i` on; `ht` is the whole tracker, which the body
indexes at `idx`. -/
def fifo_scan (ht : List heap_tracker_t) : List heap_tracker_t → Nat → Int → Int
  | [], _, idx => idx
  | e :: es, i, idx =>
    fifo_scan ht es (i + 1)
      (if e.loaded then
        if idx = -1 ∨ e.last_load_time < (ht.getD idx.toNat default).last_load_time then (i : Int)
        else idx
      else idx)

/-- Lines 81-109: the index of the victim, or `-1` when no entry is loaded. -/
def select_victim (ticks : Nat → Nat) (ht : List heap_tracker_t) : Int :=
  let idx := (working_set_scan ticks ht 0 (-1, 2 ^ 64 - 1)).1
  if idx = -1 then fifo_scan ht ht 0 idx else idx

/-- One iteration of the loop of lines 125-132 on the disk: block `PSASTART + (blockno + i)`
receives the `BSIZE` bytes of the buffer from offset `i * BSIZE` on. -/
def write_block (c : Params) (kernel_copy_page : Page) (blockno : Nat) (disk : Nat → Page)
    (i : Nat) : Nat → Page :=
  fun n =>
    if n = c.PSASTART + (blockno + i) then
      fun k => if k < BSIZE then kernel_copy_page (i * BSIZE + k) else disk n k
    else disk n

/-- The function `evict_page_to_disk`. The run ends in the `panic` of line 54 when the scan finds
no free block (the bitmap is then unchanged), and out of bounds when the group `blockno ..
blockno+3` leaves the bitmap or when `idx` is still `-1` at line 113, where the tracker is
indexed at `idx`. The staging page obtained from `kalloc` has the contents `o.junk` before
`copyin`. -/
def evict_page_to_disk (c : Params) (o : Oracle) (s : State) : Outcome :=
  let blockno := find_free_block s.psa_tracker s.psa_tracker.length 0
  if blockno = -1 then .panic .no_psa_block_available s
  else if ¬ blockno.toNat + 3 < s.psa_tracker.length then .out_of_bounds s
  else
    let psa1 := mark_used s.psa_tracker blockno.toNat
    let idx := select_victim o.ticks s.heap_tracker
    if ¬ (0 ≤ idx ∧ idx.toNat < s.heap_tracker.length) then
      .out_of_bounds { s with psa_tracker := psa1 }
    else
      let e := s.heap_tracker.getD idx.toNat default
      let ht1 := s.heap_tracker.set idx.toNat { e with startblock := blockno, loaded := false }
      let kernel_copy_page := copyin s.pagetable o.junk e.addr
      let disk1 := (List.range 4).foldl (write_block c kernel_copy_page blockno.toNat) s.disk
      let psa2 := mark_used psa1 blockno.toNat
      .ok { s with
        psa_tracker := psa2
        heap_tracker := ht1
        disk := disk1
        pagetable := uvmunmap s.pagetable e.addr
        resident_heap_pages := s.resident_heap_pages - 1 }

/-! ## `retrieve_page_from_disk` -/

/-- The loop of lines 147-152 from index `i` on: the first entry with `addr == uvaddr` and
`startblock != -1`, or `-1`. -/
def find_swapped (uvaddr : Nat) : List heap_tracker_t → Nat → Int
  | [], _ => -1
  | e :: es, i =>
    if e.addr = uvaddr ∧ e.startblock ≠ -1 then (i : Int) else find_swapped uvaddr es (i + 1)

/-- One iteration of the loop of lines 166-172 on the buffer: the `BSIZE` bytes from offset
`i * BSIZE` on receive block `PSASTART + (blockno + i)`. -/
def read_block (c : Params) (disk : Nat → Page) (blockno : Nat) (kernel_copy_page : Page)
    (i : Nat) : Page :=
  fun j =>
    if i * BSIZE ≤ j ∧ j < i * BSIZE + BSIZE then disk (c.PSASTART + (blockno + i)) (j - i * BSIZE)
    else kernel_copy_page j

/-- The assignments of line 171: `psa_tracker[blockno + i] = false` for `i = 0 .. 3`. -/
def mark_free (psa : List Bool) (blockno : Nat) : List Bool :=
  (((psa.set blockno false).set (blockno + 1) false).set (blockno + 2) false).set
    (blockno + 3) false

/-- The function `retrieve_page_from_disk`. Line 153 indexes the tracker at `page_idx` before
line 155 compares `page_idx` with `-1`. -/
def retrieve_page_from_disk (c : Params) (o : Oracle) (s : State) (uvaddr : Nat) : Outcome :=
  let page_idx := find_swapped uvaddr s.heap_tracker 0
  if ¬ (0 ≤ page_idx ∧ page_idx.toNat < s.heap_tracker.length) then .out_of_bounds s
  else
    let blockno := (s.heap_tracker.getD page_idx.toNat default).startblock
    if page_idx = -1 then .panic .issue_retrieving_page s
    else if ¬ (0 ≤ blockno ∧ blockno.toNat + 3 < s.psa_tracker.length) then .out_of_bounds s
    else
      let kernel_copy_page := (List.range 4).foldl (read_block c s.disk blockno.toNat) o.junk
      .ok { s with
        psa_tracker := mark_free s.psa_tracker blockno.toNat
        pagetable := copyout s.pagetable uvaddr kernel_copy_page }

/-! ## `page_fault_handler` -/

/-- The loop of lines 204-209: whether some entry has `addr == faulting_addr` and
`startblock != -1`. -/
def load_from_disk (faulting_addr : Nat) (ht : List heap_tracker_t) : Bool :=
  ht.any (fun e => decide (e.addr = faulting_addr ∧ e.startblock ≠ -1))

/-- The loop of lines 214-224 from index `i` on: the first entry with `addr == faulting_addr`,
or `-1` (then `isHeapPage` stays false). -/
def find_heap_page (faulting_addr : Nat) : List heap_tracker_t → Nat → Int
  | [], _ => -1
  | e :: es, i => if e.addr = faulting_addr then (i : Int) else find_heap_page faulting_addr es (i + 1)

/-- The code after the label `heap_handle` (lines 261-283). The test `r.2 < 0` is the one of
line 270: `uvmalloc(...) < 0` compares the `uint64` result with 0 (and `sz_heap` receives the
outcome of the comparison). -/
def heap_handle (c : Params) (o : Oracle) (s : State) (faulting_addr : Nat) (from_disk : Bool)
    (index : Int) : Outcome :=
  (if s.resident_heap_pages = c.MAXRESHEAP then evict_page_to_disk c o s else .ok s).andThen
    fun s1 =>
      let r := uvmalloc s1.pagetable faulting_addr (add64 faulting_addr PGSIZE) o.uvmalloc_ok
      let s2 := { s1 with pagetable := r.1 }
      if r.2 < 0 then .panic .uvmalloc_error s2
      else
        (if from_disk then retrieve_page_from_disk c o s2 faulting_addr else .ok s2).andThen
          fun s3 =>
            if ¬ (0 ≤ index ∧ index.toNat < s3.heap_tracker.length) then .out_of_bounds s3
            else
              let e := s3.heap_tracker.getD index.toNat default
              .ok { s3 with
                heap_tracker := s3.heap_tracker.set index.toNat
                  { e with last_load_time := o.ticks_load, loaded := true }
                resident_heap_pages := s3.resident_heap_pages + 1 }

/-- How the scan of the program headers ends: by a `return`, or at line 253 with the `ph` last
read. -/
inductive Scan where
  | returned
  | reached_uvmalloc (ph : proghdr)
deriving DecidableEq, Repr

/-- The loop of lines 238-252 from iteration `i` on, with `n` iterations left before
`i < elf.phnum` fails; `ph` is the current content of the variable `ph`. -/
def scan_headers (ip : Inode) (faulting_addr : Nat) : Nat → Nat → proghdr → Scan
  | 0, _, ph => .reached_uvmalloc ph
  | n + 1, i, _ =>
    match ip.ph i with
    | none => .returned
    | some ph =>
      if ph.type ≠ ELF_PROG_LOAD then scan_headers ip faulting_addr n (i + 1) ph
      else if ph.memsz < ph.filesz then .returned
      else if add64 ph.vaddr ph.memsz < ph.vaddr then .returned
      else if ph.vaddr % PGSIZE ≠ 0 then .returned
      else if ph.vaddr ≤ faulting_addr ∧ faulting_addr < add64 ph.vaddr ph.memsz then
        .reached_uvmalloc ph
      else scan_headers ip faulting_addr n (i + 1) ph

/-- Lines 229-259: the fault is resolved from the program binary. The parameters `offset` and
`sz` of `loadseg` (line 15) are `uint`, so `ph.off` and `ph.filesz` are reduced modulo `2^32`. -/
def load_program_page (o : Oracle) (s : State) (faulting_addr : Nat) : Outcome :=
  match o.namei with
  | none => .ok s
  | some ip =>
    match ip.elf with
    | none => .ok s
    | some elf =>
      match scan_headers ip faulting_addr elf.phnum 0 o.ph_stack with
      | .returned => .ok s
      | .reached_uvmalloc ph =>
        let r := uvmalloc s.pagetable faulting_addr (add64 faulting_addr ph.memsz) o.uvmalloc_ok
        .ok { s with
          pagetable := loadseg r.1 faulting_addr ip (ph.off % 2 ^ 32) (ph.filesz % 2 ^ 32) }

/-- The function `page_fault_handler`: the copy-on-write branch (lines 196-199), then the two
tracker lookups (lines 204-224), then the heap branch when an entry has the faulting address
and the program-image branch otherwise. -/
def page_fault_handler (c : Params) (o : Oracle) (s : State) : Outcome :=
  let faulting_addr := PGROUNDDOWN o.stval
  if s.cow_enabled ∧ o.scause = 15 then .ok { s with pagetable := o.copy_on_write s.pagetable }
  else
    let from_disk := load_from_disk faulting_addr s.heap_tracker
    let index := find_heap_page faulting_addr s.heap_tracker 0
    if index ≠ -1 then heap_handle c o s faulting_addr from_disk index
    else load_program_page o s faulting_addr

/-! ## Predicates used in the statements -/

/-- The invariant of the fallback scan over the entries `pre` already examined: `idx` is `-1`
and none of them is loaded, or `idx` is the position of a loaded one with the least load time. -/
def fifo_inv (pre : List heap_tracker_t) (idx : Int) : Prop :=
  (idx = -1 ∧ ∀ e ∈ pre, e.loaded = false) ∨
  (∃ (k : Nat) (e : heap_tracker_t), idx = (k : Int) ∧ pre[k]? = some e ∧ e.loaded = true ∧
    ∀ e' ∈ pre, e'.loaded = true → e.last_load_time ≤ e'.last_load_time)


/-- The four blocks `g .. g+3` of the bitmap exist and are free. -/
def group_free (psa : List Bool) (g : Nat) : Prop :=
  ∀ k < 4, psa[g + k]? = some false

/-- The four blocks `g .. g+3` of the bitmap exist and are used. -/
def group_used (psa : List Bool) (g : Nat) : Prop :=
  ∀ k < 4, psa[g + k]? = some true

/-- The slot invariant of the bitmap: each aligned 4-block group is entirely free or entirely
used. -/
def groups_uniform (psa : List Bool) : Prop :=
  ∀ g < psa.length, g % 4 = 0 → g + 3 < psa.length → group_free psa g ∨ group_used psa g

instance (psa : List Bool) (g : Nat) : Decidable (group_free psa g) := by
  unfold group_free; infer_instance

instance (psa : List Bool) (g : Nat) : Decidable (group_used psa g) := by
  unfold group_used; infer_instance

instance (psa : List Bool) : Decidable (groups_uniform psa) := by
  unfold groups_uniform; infer_instance

/-- The state in which a run ended. -/
def Outcome.state : Outcome → State
  | .ok s => s
  | .panic _ s => s
  | .out_of_bounds s => s

/-! ### A small configuration used to instantiate the theorems -/

/-- Swap area starting at block 1000, resident budget of 2 pages. -/
def demo_params : Params := ⟨1000, 2⟩

/-- A fault at address 8200 (page 8192) at time 100, with memory available. -/
def demo_oracle : Oracle :=
  { stval := 8200, scause := 13, ticks := fun _ => 100, ticks_load := 100, uvmalloc_ok := true,
    junk := fun _ => 5, copy_on_write := id, namei := none, ph_stack := default }

/-- Three tracked pages and a bitmap of three slots: page 0 loaded at time 10 and page 4096
loaded at time 20 are resident, page 8192 is evicted to the slot of blocks 0..3. -/
def demo_state : State :=
  { psa_tracker := [true, true, true, true, false, false, false, false, false, false, false, false]
    heap_tracker := [⟨0, 10, -1, true⟩, ⟨4096, 20, -1, true⟩, ⟨8192, 5, 0, false⟩]
    resident_heap_pages := 2
    cow_enabled := false
    pagetable := fun a =>
      if a = 0 then some (fun j => j % 256) else if a = 4096 then some (fun _ => 7) else none
    disk := fun _ j => j % 3 }

/-- The state after `evict_page_to_disk` in `demo_state`. -/
def demo_evicted : State := (evict_page_to_disk demo_params demo_oracle demo_state).state

/-- The evicted state with page 0 mapped again by `uvmalloc`. -/
def demo_remapped : State :=
  { demo_evicted with pagetable := (uvmalloc demo_evicted.pagetable 0 (add64 0 PGSIZE) true).1 }

/-! ### Program headers -/

/-- A program header fails one of the three checks of lines 243-248: `memsz < filesz`,
`vaddr + memsz` wraps below `vaddr`, or `vaddr` is not a multiple of `PGSIZE`. -/
def ph_invalid (ph : proghdr) : Prop :=
  ph.memsz < ph.filesz ∨ add64 ph.vaddr ph.memsz < ph.vaddr ∨ ph.vaddr % PGSIZE ≠ 0

/-- The segment `[vaddr, vaddr + memsz)` of a program header contains the address. -/
def ph_covers (ph : proghdr) (a : Nat) : Prop :=
  ph.vaddr ≤ a ∧ a < ph.vaddr + ph.memsz

/-- The scan goes on to the next program header: this one is not loadable, or it passes the
three checks and its segment does not contain the faulting address. -/
def scan_continues (ph : proghdr) (a : Nat) : Prop :=
  ph.type ≠ ELF_PROG_LOAD ∨ (¬ ph_invalid ph ∧ ¬ ph_covers ph a)

instance (ph : proghdr) : Decidable (ph_invalid ph) := by
  unfold ph_invalid; infer_instance

instance (ph : proghdr) (a : Nat) : Decidable (ph_covers ph a) := by
  unfold ph_covers; infer_instance

instance (ph : proghdr) (a : Nat) : Decidable (scan_continues ph a) := by
  unfold scan_continues; infer_instance

/-- An executable with a single loadable segment: addresses 0..4095, file offset 4096. -/
def demo_inode : Inode :=
  { elf := some ⟨64, 1⟩
    ph := fun i => if i = 0 then some ⟨1, 7, 4096, 0, 4096, 4096⟩ else none
    size := 8192
    data := fun j => j % 256 }

/-- An executable whose second program header is loadable with `memsz < filesz`. -/
def demo_bad_inode : Inode :=
  { elf := some ⟨64, 2⟩
    ph := fun i =>
      if i = 0 then some ⟨1, 7, 4096, 0, 4096, 4096⟩
      else if i = 1 then some ⟨1, 7, 8192, 4096, 4096, 100⟩ else none
    size := 16384
    data := fun j => j % 256 }

/-- A fault at address 20500 (page 20480) of a process running `demo_inode`. -/
def demo_image_oracle : Oracle :=
  { demo_oracle with stval := 20500, namei := some demo_inode }

/-- A fault at address 20500 (page 20480) of a process running `demo_bad_inode`. -/
def demo_bad_oracle : Oracle :=
  { demo_oracle with stval := 20500, namei := some demo_bad_inode }

/-! ### Sequences of faults -/

/-- The handler run on a sequence of faults, as long as each run ends normally. -/
def handle_faults (c : Params) : State → List Oracle → Outcome
  | s, [] => .ok s
  | s, o :: os => (page_fault_handler c o s).andThen (fun s1 => handle_faults c s1 os)

/-! ### Tracker invariants and reachable states -/

/-- An entry is evicted: not loaded, with a swap slot recorded. -/
def evicted (e : heap_tracker_t) : Prop := e.loaded = false ∧ e.startblock ≠ -1

instance (e : heap_tracker_t) : Decidable (evicted e) := by
  unfold evicted; infer_instance

/-- The slots of the evicted entries: each records a block that is a multiple of 4 and whose
group is marked used, and no two of them record the same block. -/
def slot_inv (s : State) : Prop :=
  (∀ (i : Nat) (e : heap_tracker_t), s.heap_tracker[i]? = some e → evicted e →
    ∃ b : Nat, e.startblock = (b : Int) ∧ b % 4 = 0 ∧ group_used s.psa_tracker b) ∧
  (∀ (i j : Nat) (ei ej : heap_tracker_t), i ≠ j → s.heap_tracker[i]? = some ei →
    s.heap_tracker[j]? = some ej → evicted ei → evicted ej → ei.startblock ≠ ej.startblock)

/-- The state after boot: `init_psa_regions` has run and no tracker entry is loaded or has a
swap slot. -/
def fresh (s : State) : Prop :=
  s.psa_tracker = init_psa_regions s.psa_tracker ∧
  ∀ e ∈ s.heap_tracker, e.loaded = false ∧ e.startblock = -1

instance (s : State) : Decidable (fresh s) := by
  unfold fresh; infer_instance

/-- The address is tracked by exactly one entry, at position `i`, and that entry is not
loaded. -/
def tracked_at (ht : List heap_tracker_t) (f : Nat) (i : Nat) (e : heap_tracker_t) : Prop :=
  ht[i]? = some e ∧ e.addr = f ∧ e.loaded = false ∧
  ∀ (j : Nat) (e' : heap_tracker_t), ht[j]? = some e' → e'.addr = f → j = i

/-- The faults considered: copy-on-write faults, faults on addresses outside the tracker, and
heap faults on an address that is tracked by exactly one entry, which is not loaded. -/
def admissible (s : State) (o : Oracle) : Prop :=
  (s.cow_enabled = true ∧ o.scause = 15) ∨
  (∀ e ∈ s.heap_tracker, e.addr ≠ PGROUNDDOWN o.stval) ∨
  ∃ i e, tracked_at s.heap_tracker (PGROUNDDOWN o.stval) i e

/-- The states reachable from boot through `evict_page_to_disk` and `page_fault_handler`. -/
inductive Reachable (c : Params) : State → Prop where
  | init (s : State) : fresh s → Reachable c s
  | evict (o : Oracle) (s s' : State) :
      Reachable c s → evict_page_to_disk c o s = .ok s' → Reachable c s'
  | fault (o : Oracle) (s s' : State) :
      Reachable c s → admissible s o → page_fault_handler c o s = .ok s' → Reachable c s'

/-! ### A run from boot used to instantiate the theorems -/

/-- Swap area starting at block 1000, resident budget of a single page. -/
def boot_params : Params := ⟨1000, 1⟩

/-- The state after boot with three tracked heap pages and a swap area of four slots. -/
def boot_state : State :=
  { psa_tracker := List.replicate 16 false
    heap_tracker := [⟨0, 0, -1, false⟩, ⟨4096, 0, -1, false⟩, ⟨8192, 0, -1, false⟩]
    resident_heap_pages := 0
    cow_enabled := false
    pagetable := fun _ => none
    disk := fun _ _ => 0 }

/-- A fault at address `a` at time `t`, with memory available. -/
def fault_at (a t : Nat) : Oracle :=
  { demo_oracle with stval := a, ticks := fun _ => t, ticks_load := t }

/-- The state after the faults `os` have been handled from boot. -/
def boot_run (os : List Oracle) : State := (handle_faults boot_params boot_state os).state

/-- A fault at address 0 at time 1 during which `uvmalloc` finds no memory. -/
def fault_without_memory : Oracle := { fault_at 0 1 with uvmalloc_ok := false }

/-! ### Logical contents of tracked pages -/

/-- The page held by the swap slot that starts at block `b`. -/
def swap_content (c : Params) (disk : Nat → Page) (b : Nat) : Page :=
  fun j => disk (c.PSASTART + (b + j / BSIZE)) (j % BSIZE)

/-- The logical content of a tracked page: the page mapped at its address when the entry is
loaded, the content of its swap slot when the entry is evicted, and none otherwise. -/
def logical_content (c : Params) (s : State) (e : heap_tracker_t) : Option Page :=
  if e.loaded = true then s.pagetable e.addr
  else if e.startblock ≠ -1 then some (swap_content c s.disk e.startblock.toNat)
  else none

/-- Two pages have the same `PGSIZE` bytes. -/
def same_page (P Q : Page) : Prop := ∀ j < PGSIZE, P j = Q j

/-- Loaded entries track pairwise different addresses. -/
def loaded_distinct (s : State) : Prop :=
  ∀ (i j : Nat) (ei ej : heap_tracker_t), i ≠ j → s.heap_tracker[i]? = some ei →
    s.heap_tracker[j]? = some ej → ei.loaded = true → ej.loaded = true → ei.addr ≠ ej.addr

/-- Every tracked page that has a logical content in `s` has the same address and the same
logical content in `s'`. -/
def content_kept (c : Params) (s s' : State) : Prop :=
  ∀ (k : Nat) (e : heap_tracker_t) (P : Page), s.heap_tracker[k]? = some e →
    logical_content c s e = some P →
    ∃ (e' : heap_tracker_t) (P' : Page), s'.heap_tracker[k]? = some e' ∧ e'.addr = e.addr ∧
      logical_content c s' e' = some P' ∧ same_page P' P

/-- Residency matches the page table: a tracker entry is loaded exactly when a page is mapped
at its address. -/
def resident_iff_mapped (s : State) : Prop :=
  ∀ e ∈ s.heap_tracker, (e.loaded = true ↔ ∃ P, s.pagetable e.addr = some P)

/-- The tracker/bitmap invariants: the slot invariant, different addresses for loaded
entries, and residency matching the page table. -/
def mem_inv (s : State) : Prop :=
  slot_inv s ∧ loaded_distinct s ∧ resident_iff_mapped s

/-- The address is tracked by exactly one entry. -/
def tracked_once (ht : List heap_tracker_t) (a : Nat) : Prop :=
  ∃ (i : Nat) (e : heap_tracker_t), ht[i]? = some e ∧ e.addr = a ∧
    ∀ (j : Nat) (e' : heap_tracker_t), ht[j]? = some e' → e'.addr = a → j = i

/-! ### Memory accesses of the user program -/

/-- One memory access of the user program: `o.stval` is the address accessed, `store` the byte
stored (`none` for a load), and `o` is what the handler receives if the access faults. -/
structure Access where
  o : Oracle
  store : Option Nat

/-- The access itself, when the page is mapped: a load returns the byte at the address, a store
replaces it (and returns the byte stored). -/
def access_mem (s : State) (va : Nat) (store : Option Nat) : Option (State × Nat) :=
  match s.pagetable (PGROUNDDOWN va) with
  | none => none
  | some pg =>
    match store with
    | none => some (s, pg (va % PGSIZE))
    | some v =>
      some ({ s with
        pagetable := fun a =>
          if a = PGROUNDDOWN va then some (fun j => if j = va % PGSIZE then v else pg j)
          else s.pagetable a }, v)

/-- Modelled from the spec: the trap path around the handler (`trap.c`, not among the sources),
"hardware/kernel fault trap → Fault Dispatcher": an access to a mapped page is performed; an
access to an unmapped page traps, `page_fault_handler` runs, and the access is repeated. The
result is `none` when the handler does not end normally or leaves the page unmapped. -/
def user_access (c : Params) (s : State) (x : Access) : Option (State × Nat) :=
  match access_mem s x.o.stval x.store with
  | some r => some r
  | none =>
    match page_fault_handler c x.o s with
    | .ok s1 => access_mem s1 x.o.stval x.store
    | _ => none

/-- A sequence of accesses; the result lists the byte returned by each access. -/
def user_run (c : Params) : State → List Access → Option (State × List Nat)
  | s, [] => some (s, [])
  | s, x :: xs =>
    match user_access c s x with
    | none => none
    | some (s1, v) =>
      match user_run c s1 xs with
      | none => none
      | some (s2, vs) => some (s2, v :: vs)

/-- A flat memory after an access: a store is remembered at its address. -/
def remember (m : Nat → Option Nat) (va : Nat) (store : Option Nat) : Nat → Option Nat :=
  match store with
  | some w => fun a => if a = va then some w else m a
  | none => m

/-- The byte an access should return according to a flat memory: the byte it stores, or for a
load the byte stored last at the address, if any. -/
def expected (m : Nat → Option Nat) (va : Nat) (store : Option Nat) : Option Nat :=
  match store with
  | some u => some u
  | none => m va

/-- The same accesses on a flat memory that remembers the last byte stored at each address:
for each access, the byte it should return, if known. -/
def last_stored : (Nat → Option Nat) → List Access → List (Option Nat)
  | _, [] => []
  | m, x :: xs => expected m x.o.stval x.store :: last_stored (remember m x.o.stval x.store) xs

/-- The flat memory `m` agrees with the state: every byte it remembers is the byte at that
offset of the logical content of the tracked page. -/
def agrees (c : Params) (s : State) (m : Nat → Option Nat) : Prop :=
  ∀ (va v : Nat), m va = some v →
    ∃ (k : Nat) (e : heap_tracker_t) (P : Page), s.heap_tracker[k]? = some e ∧
      e.addr = PGROUNDDOWN va ∧ logical_content c s e = some P ∧ P (va % PGSIZE) = v

/-- The accesses considered: the process does not use copy-on-write faults for them, the page
lies below `2^64 - PGSIZE`, and `uvmalloc` finds memory. -/
def heap_access (ht : List heap_tracker_t) (x : Access) : Prop :=
  tracked_once ht (PGROUNDDOWN x.o.stval) ∧ PGROUNDDOWN x.o.stval + PGSIZE < 2 ^ 64 ∧
  x.o.uvmalloc_ok = true

/-- A decidable form of the tracker/bitmap invariants, quantified over the positions of the
tracker. -/
def mem_inv_check (s : State) : Prop :=
  (∀ i < s.heap_tracker.length, evicted (s.heap_tracker.getD i default) →
    0 ≤ (s.heap_tracker.getD i default).startblock ∧
    (s.heap_tracker.getD i default).startblock.toNat % 4 = 0 ∧
    group_used s.psa_tracker (s.heap_tracker.getD i default).startblock.toNat) ∧
  (∀ i < s.heap_tracker.length, ∀ j < s.heap_tracker.length,
    (i ≠ j ∧ evicted (s.heap_tracker.getD i default) ∧
      evicted (s.heap_tracker.getD j default)) →
    (s.heap_tracker.getD i default).startblock ≠ (s.heap_tracker.getD j default).startblock) ∧
  (∀ i < s.heap_tracker.length, ∀ j < s.heap_tracker.length,
    (i ≠ j ∧ (s.heap_tracker.getD i default).loaded = true ∧
      (s.heap_tracker.getD j default).loaded = true) →
    (s.heap_tracker.getD i default).addr ≠ (s.heap_tracker.getD j default).addr) ∧
  (∀ e ∈ s.heap_tracker, (e.loaded = true ↔ (s.pagetable e.addr).isSome = true))

instance (s : State) : Decidable (mem_inv_check s) := by
  unfold mem_inv_check
  refine @instDecidableAnd _ _ ?_ (@instDecidableAnd _ _ ?_ (@instDecidableAnd _ _ ?_ ?_))
  all_goals infer_instance

/-- A store of the byte `v` at address `a`, at time `t`. -/
def store_at (a v t : Nat) : Access := ⟨fault_at a t, some v⟩

/-- A load from address `a`, at time `t`. -/
def load_at (a t : Nat) : Access := ⟨fault_at a t, none⟩

/-- Stores to three pages (one more than the budget of `demo_params`), then loads from them. -/
def demo_accesses : List Access :=
  [store_at 1 5 101, store_at 4097 6 102, store_at 8193 7 103, load_at 1 104, load_at 4097 105,
    load_at 8193 106]

/-! ### Pure least-recently-used selection -/

/-- Position `k` holds the victim of pure least-recently-used selection: its entry is loaded,
no loaded entry has a smaller load time, and every loaded entry at a lower position has a
larger one. -/
def lru_at (ht : List heap_tracker_t) (k : Nat) : Prop :=
  k < ht.length ∧ (ht.getD k default).loaded = true ∧
  ∀ j < ht.length, (ht.getD j default).loaded = true →
    (ht.getD k default).last_load_time ≤ (ht.getD j default).last_load_time ∧
    (j < k → (ht.getD k default).last_load_time < (ht.getD j default).last_load_time)

instance (ht : List heap_tracker_t) (k : Nat) : Decidable (lru_at ht k) := by
  unfold lru_at; infer_instance

/-- Pure least-recently-used selection, as the specification words it: the lowest-index
resident entry with the smallest `last_load_time`, and `-1` when no entry is resident. -/
def pure_lru_victim (ht : List heap_tracker_t) : Int :=
  match (List.range ht.length).find? (fun k => decide (lru_at ht k)) with
  | some k => (k : Int)
  | none => -1

/-- The index `idx` is the pure least-recently-used choice among the entries `pre`: `-1` when
none of them is loaded, otherwise the position of a loaded entry such that no loaded entry has
a smaller load time and every loaded entry at a lower position has a larger one. -/
def lru_inv (pre : List heap_tracker_t) (idx : Int) : Prop :=
  (idx = -1 ∧ ∀ e ∈ pre, e.loaded = false) ∨
  (∃ (k : Nat) (e : heap_tracker_t), idx = (k : Int) ∧ pre[k]? = some e ∧ e.loaded = true ∧
    ∀ (j : Nat) (e' : heap_tracker_t), pre[j]? = some e' → e'.loaded = true →
      e.last_load_time ≤ e'.last_load_time ∧ (j < k → e.last_load_time < e'.last_load_time))

/-- A clock that advances while the tracker is scanned: it reads 60 at the first entry and 80
from the second entry on. -/
def advancing_clock (i : Nat) : Nat := if i = 0 then 60 else 80

/-! ### States reachable through eviction, retrieval and faults -/

/-- Every swap slot recorded in the tracker starts at a block that is a multiple of 4. -/
def slots_aligned (s : State) : Prop :=
  ∀ e ∈ s.heap_tracker, e.startblock ≠ -1 → ∃ b : Nat, e.startblock = (b : Int) ∧ b % 4 = 0

/-- The states reachable from boot through `evict_page_to_disk`, `retrieve_page_from_disk`
(for any address, the slot being the one recorded in the tracker) and `page_fault_handler`
(for any fault). -/
inductive SwapReachable (c : Params) : State → Prop where
  | init (s : State) : fresh s → SwapReachable c s
  | evict (o : Oracle) (s s' : State) :
      SwapReachable c s → evict_page_to_disk c o s = .ok s' → SwapReachable c s'
  | retrieve (o : Oracle) (uvaddr : Nat) (s s' : State) :
      SwapReachable c s → retrieve_page_from_disk c o s uvaddr = .ok s' → SwapReachable c s'
  | fault (o : Oracle) (s s' : State) :
      SwapReachable c s → page_fault_handler c o s = .ok s' → SwapReachable c s'

/-- The number of tracker entries that are loaded. -/
def loaded_count (ht : List heap_tracker_t) : Nat := ht.countP (fun e => e.loaded)

/-- Tracked addresses are pairwise distinct. -/
def addrs_distinct (ht : List heap_tracker_t) : Prop :=
  ht.Pairwise (fun a b => a.addr ≠ b.addr)

instance (ht : List heap_tracker_t) : Decidable (addrs_distinct ht) := by
  unfold addrs_distinct; infer_instance

/-! ### More configurations used to instantiate the theorems -/

/-- An executable with a single loadable segment of two pages: addresses 16384..24575, file
offset 4096; byte `j` of the file is `j / 4096`, the number of the file page it lies in. -/
def demo_two_page_inode : Inode :=
  { elf := some ⟨64, 1⟩
    ph := fun i => if i = 0 then some ⟨1, 7, 4096, 16384, 8192, 8192⟩ else none
    size := 12288
    data := fun j => j / 4096 }

/-- A fault at address 20484, in the second page (20480) of the segment of
`demo_two_page_inode`. -/
def demo_second_page_oracle : Oracle :=
  { demo_oracle with stval := 20484, namei := some demo_two_page_inode }

/-- A fault at address 16388, in the first page (16384) of the segment of
`demo_two_page_inode`. -/
def demo_first_page_oracle : Oracle :=
  { demo_oracle with stval := 16388, namei := some demo_two_page_inode }

/-- The state `demo_state` with another swap bitmap. -/
def demo_with_bitmap (psa : List Bool) : State := { demo_state with psa_tracker := psa }

/-! ### Runs used for the round trip and for failing allocations -/

/-- The state after the fault of `demo_oracle` (page 8192) has been handled in `demo_state`:
page 0 has been evicted to blocks 4..7, page 8192 has been read back from blocks 0..3 and its
entry has been marked loaded. -/
def demo_after_fault : State := (page_fault_handler demo_params demo_oracle demo_state).state

/-- The state after the eviction step of the next fault, on page 0 at time 101: page 4096 has
been evicted to blocks 0..3. -/
def demo_second_evicted : State :=
  (evict_page_to_disk demo_params (fault_at 0 101) demo_after_fault).state

/-- The state in which `retrieve_page_from_disk` runs during the fault on page 0 at time 101
(line 275): after the eviction step, with page 0 mapped again by `uvmalloc`. -/
def demo_before_retrieval : State :=
  { demo_second_evicted with
    pagetable := (uvmalloc demo_second_evicted.pagetable 0 (add64 0 PGSIZE) true).1 }

/-- A fault at address `a` at time `t` during which `uvmalloc` finds no memory. -/
def failing_fault_at (a t : Nat) : Oracle := { fault_at a t with uvmalloc_ok := false }

/-- Every fault of the sequence is on a page that is not mapped when the fault occurs, and
`page_fault_handler` ends normally for each of them. -/
def faults_on_unmapped (c : Params) : State → List Oracle → Bool
  | _, [] => true
  | s, o :: os =>
    (s.pagetable (PGROUNDDOWN o.stval)).isNone &&
      match page_fault_handler c o s with
      | .ok s' => faults_on_unmapped c s' os
      | _ => false

/-- Six heap faults: on pages 0, 4096 and 8192, on page 0 while `uvmalloc` finds no memory,
on page 0 again and on page 4096. -/
def double_assignment_faults : List Oracle :=
  [fault_at 0 1, fault_at 4096 2, fault_at 8192 3, failing_fault_at 0 4, fault_at 0 5,
    fault_at 4096 6]

/-- The state after the fault of `demo_oracle` (page 8192, evicted to blocks 0..3) has been
handled in `demo_state` while `uvmalloc` finds no memory. -/
def demo_lost : State :=
  (page_fault_handler demo_params { demo_oracle with uvmalloc_ok := false } demo_state).state
/-! # Theorems -/

/-! ## Victim selection (lines 81-109) -/

/-- What the working-set scan with a constant clock `T` returns: the accumulator it started
with when no entry of `es` beats it, otherwise the position and time of the first entry with
the least load time among the loaded entries of `es` outside the window. -/
theorem working_set_scan_spec (T : Nat) (es : List heap_tracker_t) (i : Nat) (acc : Int × Nat) :
    (working_set_scan (fun _ => T) es i acc = acc ∧
        ∀ e ∈ es, e.loaded = true → sub64 T e.last_load_time > WORKING_SET_WINDOW →
          acc.2 ≤ e.last_load_time) ∨
    (∃ k e, es[k]? = some e ∧
        working_set_scan (fun _ => T) es i acc = (((i + k : Nat) : Int), e.last_load_time) ∧
        e.loaded = true ∧ sub64 T e.last_load_time > WORKING_SET_WINDOW ∧
        e.last_load_time < acc.2 ∧
        ∀ e' ∈ es, e'.loaded = true → sub64 T e'.last_load_time > WORKING_SET_WINDOW →
          e.last_load_time ≤ e'.last_load_time) := by
  induction es generalizing i acc with
  | nil => left; simp [working_set_scan]
  | cons e es ih =>
    by_cases hsel : e.loaded = true ∧ sub64 T e.last_load_time > WORKING_SET_WINDOW ∧
        e.last_load_time < acc.2
    · obtain ⟨h1, h2, h3⟩ := hsel
      have hstep : working_set_scan (fun _ => T) (e :: es) i acc =
          working_set_scan (fun _ => T) es (i + 1) ((i : Int), e.last_load_time) := by
        simp [working_set_scan, h1, h2, h3]
      rcases ih (i + 1) ((i : Int), e.last_load_time) with ⟨hr, hall⟩ | ⟨k, e', hk, hr, hl, ho, hlt, hmin⟩
      · right
        refine ⟨0, e, by simp, by rw [hstep, hr]; simp, h1, h2, h3, ?_⟩
        intro e' he' hl' ho'
        rcases List.mem_cons.mp he' with rfl | hmem
        · exact le_refl _
        · exact hall e' hmem hl' ho'
      · right
        refine ⟨k + 1, e', by simpa using hk, ?_, hl, ho, lt_trans hlt h3, ?_⟩
        · rw [hstep, hr]; simp; omega
        · intro e'' he'' hl'' ho''
          rcases List.mem_cons.mp he'' with rfl | hmem
          · exact le_of_lt hlt
          · exact hmin e'' hmem hl'' ho''
    · have hstep : working_set_scan (fun _ => T) (e :: es) i acc =
          working_set_scan (fun _ => T) es (i + 1) acc := by
        simp only [working_set_scan]
        congr 1
        by_cases h1 : e.loaded = true
        · by_cases h2 : sub64 T e.last_load_time > WORKING_SET_WINDOW
          · have h3 : ¬ e.last_load_time < acc.2 := fun h3 => hsel ⟨h1, h2, h3⟩
            simp [h1, h2, h3]
          · simp [h1, h2]
        · simp [h1]
      have hhead : e.loaded = true → sub64 T e.last_load_time > WORKING_SET_WINDOW →
          acc.2 ≤ e.last_load_time := fun h1 h2 =>
        Nat.le_of_not_lt (fun h3 => hsel ⟨h1, h2, h3⟩)
      rcases ih (i + 1) acc with ⟨hr, hall⟩ | ⟨k, e', hk, hr, hl, ho, hlt, hmin⟩
      · left
        refine ⟨by rw [hstep, hr], ?_⟩
        intro e' he' hl' ho'
        rcases List.mem_cons.mp he' with rfl | hmem
        · exact hhead hl' ho'
        · exact hall e' hmem hl' ho'
      · right
        refine ⟨k + 1, e', by simpa using hk, ?_, hl, ho, hlt, ?_⟩
        · rw [hstep, hr]; simp; omega
        · intro e'' he'' hl'' ho''
          rcases List.mem_cons.mp he'' with rfl | hmem
          · exact le_trans (le_of_lt hlt) (hhead hl'' ho'')
          · exact hmin e'' hmem hl'' ho''


/-- The fallback scan keeps its invariant up to the end of the tracker. -/
theorem fifo_scan_spec (ht : List heap_tracker_t) (es pre : List heap_tracker_t) (idx : Int)
    (hsplit : ht = pre ++ es) (hinv : fifo_inv pre idx) :
    fifo_inv ht (fifo_scan ht es pre.length idx) := by
  induction es generalizing pre idx with
  | nil => simpa [fifo_scan, hsplit] using hinv
  | cons e es ih =>
    have hsplit' : ht = (pre ++ [e]) ++ es := by simp [hsplit]
    have hlen : (pre ++ [e]).length = pre.length + 1 := by simp
    simp only [fifo_scan]
    rw [← hlen]
    apply ih _ _ hsplit'
    by_cases hl : e.loaded = true
    · rcases hinv with ⟨hidx, hnone⟩ | ⟨k, e0, hidx, hk, hl0, hmin⟩
      · right
        refine ⟨pre.length, e, by simp [hl, hidx], by simp, hl, ?_⟩
        intro e' he' hl'
        rcases List.mem_append.mp he' with hmem | hmem
        · simp [hnone e' hmem] at hl'
        · simp at hmem; subst hmem; exact le_refl _
      · have hklt : k < pre.length := by
          by_contra hcon
          rw [List.getElem?_eq_none (by omega)] at hk
          exact Option.noConfusion hk
        have hget : ht.getD idx.toNat default = e0 := by
          subst hidx
          rw [List.getD_eq_getElem?_getD, hsplit]
          simp [List.getElem?_append_left hklt, hk]
        have hne : idx ≠ -1 := by subst hidx; omega
        right
        by_cases hlt : e.last_load_time < e0.last_load_time
        · refine ⟨pre.length, e, ?_, by simp, hl, ?_⟩
          · simp only [hl, if_true, hget]; simp [hlt]
          intro e' he' hl'
          rcases List.mem_append.mp he' with hmem | hmem
          · exact le_trans (le_of_lt hlt) (hmin e' hmem hl')
          · simp at hmem; subst hmem; exact le_refl _
        · refine ⟨k, e0, ?_, ?_, hl0, ?_⟩
          · simp only [hl, if_true, hget]; simp [hlt, hne, hidx]
          · rw [List.getElem?_append_left hklt]; exact hk
          · intro e' he' hl'
            rcases List.mem_append.mp he' with hmem | hmem
            · exact hmin e' hmem hl'
            · simp at hmem; subst hmem; exact Nat.le_of_not_lt hlt
    · have hl' : e.loaded = false := by simpa using hl
      simp only [hl', Bool.false_eq_true, if_false]
      rcases hinv with ⟨hidx, hnone⟩ | ⟨k, e0, hidx, hk, hl0, hmin⟩
      · left
        refine ⟨hidx, ?_⟩
        intro e' he'
        rcases List.mem_append.mp he' with hmem | hmem
        · exact hnone e' hmem
        · simp at hmem; subst hmem; exact hl'
      · right
        have hklt : k < pre.length := by
          by_contra hcon
          rw [List.getElem?_eq_none (by omega)] at hk
          exact Option.noConfusion hk
        refine ⟨k, e0, hidx, ?_, hl0, ?_⟩
        · rw [List.getElem?_append_left hklt]; exact hk
        · intro e' he' hl''
          rcases List.mem_append.mp he' with hmem | hmem
          · exact hmin e' hmem hl''
          · simp at hmem; subst hmem; simp [hl'] at hl''

/-- Subtraction of `uint64` values does not wrap when the result is not negative. -/
theorem sub64_of_le {a b : Nat} (hb : b ≤ a) (ha : a < 2 ^ 64) : sub64 a b = a - b := by
  unfold sub64
  have h : a + 2 ^ 64 - b = (a - b) + 2 ^ 64 := by omega
  rw [h, Nat.add_mod_right]
  exact Nat.mod_eq_of_lt (by omega)

/-- C1: victim selection in `evict_page_to_disk`. For every tracker with a loaded entry, every
clock reading `T` that is constant during the scan and not below the load time of any loaded
entry, the index chosen by lines 81-109 is that of a loaded entry `v`; if some loaded entry has
`T - last_load_time > 50`, then `v` is outside the window and has the least load time among the
loaded entries outside the window; if every loaded entry has `T - last_load_time <= 50`, then `v`
has the least load time among all loaded entries. -/
theorem evict_victim_selection (ht : List heap_tracker_t) (ticks : Nat → Nat) (T : Nat)
    (hT : T < 2 ^ 64) (hconst : ∀ i, ticks i = T)
    (hres : ∃ e ∈ ht, e.loaded = true)
    (hle : ∀ e ∈ ht, e.loaded = true → e.last_load_time ≤ T) :
    ∃ (k : Nat) (v : heap_tracker_t),
      select_victim ticks ht = (k : Int) ∧ ht[k]? = some v ∧ v.loaded = true ∧
      ((∃ e ∈ ht, e.loaded = true ∧ T - e.last_load_time > 50) →
        T - v.last_load_time > 50 ∧
        ∀ e ∈ ht, e.loaded = true → T - e.last_load_time > 50 →
          v.last_load_time ≤ e.last_load_time) ∧
      ((∀ e ∈ ht, e.loaded = true → T - e.last_load_time ≤ 50) →
        ∀ e ∈ ht, e.loaded = true → v.last_load_time ≤ e.last_load_time) := by
  have hticks : ticks = fun _ => T := funext hconst
  subst hticks
  have hsub : ∀ e ∈ ht, e.loaded = true → sub64 T e.last_load_time = T - e.last_load_time :=
    fun e he hl => sub64_of_le (hle e he hl) hT
  rcases working_set_scan_spec T ht 0 (-1, 2 ^ 64 - 1) with
    ⟨hr, hall⟩ | ⟨k, v, hk, hr, hl, ho, -, hmin⟩
  · -- no loaded entry is outside the window: the fallback scan decides
    have hin : ∀ e ∈ ht, e.loaded = true → T - e.last_load_time ≤ 50 := by
      intro e he hl
      by_contra hcon
      have h1 := hall e he hl (by rw [hsub e he hl]; simp only [WORKING_SET_WINDOW]; omega)
      have h2 := hle e he hl
      simp only at h1
      omega
    have hsel : select_victim (fun _ => T) ht = fifo_scan ht ht 0 (-1) := by
      simp only [select_victim, hr]; simp
    have hf := fifo_scan_spec ht ht [] (-1) (by simp) (Or.inl ⟨rfl, by simp⟩)
    simp only [List.length_nil] at hf
    rcases hf with ⟨-, hnone⟩ | ⟨k, v, hidx, hk, hl, hmin⟩
    · obtain ⟨e, he, hl⟩ := hres
      simp [hnone e he] at hl
    · refine ⟨k, v, by rw [hsel, hidx], hk, hl, ?_, fun _ => hmin⟩
      rintro ⟨e, he, hl', ho⟩
      have := hin e he hl'
      omega
  · have hsel : select_victim (fun _ => T) ht = (k : Int) := by
      have hne : ((0 + k : Nat) : Int) ≠ -1 := by omega
      simp only [select_victim, hr, hne, if_false]
      simp
    have hv : v ∈ ht := List.getElem?_mem hk
    have hov : T - v.last_load_time > 50 := by
      rw [hsub v hv hl] at ho
      simpa [WORKING_SET_WINDOW] using ho
    refine ⟨k, v, hsel, hk, hl, fun _ => ⟨hov, ?_⟩, ?_⟩
    · intro e he hl' ho'
      exact hmin e he hl' (by rw [hsub e he hl']; simpa [WORKING_SET_WINDOW] using ho')
    · intro hin
      have := hin v hv hl
      omega

/-- Witness for C1: a tracker with two loaded pages outside the window and one inside it. -/
theorem evict_victim_selection_witness :
    ∃ (k : Nat) (v : heap_tracker_t),
      select_victim (fun _ => 100)
        [⟨0, 90, -1, true⟩, ⟨4096, 10, -1, true⟩, ⟨8192, 5, 0, false⟩, ⟨12288, 10, -1, true⟩]
        = (k : Int) ∧
      ([⟨0, 90, -1, true⟩, ⟨4096, 10, -1, true⟩, ⟨8192, 5, 0, false⟩, ⟨12288, 10, -1, true⟩] :
        List heap_tracker_t)[k]? = some v ∧ v.loaded = true ∧
      ((∃ e ∈ ([⟨0, 90, -1, true⟩, ⟨4096, 10, -1, true⟩, ⟨8192, 5, 0, false⟩,
            ⟨12288, 10, -1, true⟩] : List heap_tracker_t),
          e.loaded = true ∧ 100 - e.last_load_time > 50) →
        100 - v.last_load_time > 50 ∧
        ∀ e ∈ ([⟨0, 90, -1, true⟩, ⟨4096, 10, -1, true⟩, ⟨8192, 5, 0, false⟩,
            ⟨12288, 10, -1, true⟩] : List heap_tracker_t),
          e.loaded = true → 100 - e.last_load_time > 50 →
          v.last_load_time ≤ e.last_load_time) ∧
      ((∀ e ∈ ([⟨0, 90, -1, true⟩, ⟨4096, 10, -1, true⟩, ⟨8192, 5, 0, false⟩,
            ⟨12288, 10, -1, true⟩] : List heap_tracker_t),
          e.loaded = true → 100 - e.last_load_time ≤ 50) →
        ∀ e ∈ ([⟨0, 90, -1, true⟩, ⟨4096, 10, -1, true⟩, ⟨8192, 5, 0, false⟩,
            ⟨12288, 10, -1, true⟩] : List heap_tracker_t),
          e.loaded = true → v.last_load_time ≤ e.last_load_time) :=
  evict_victim_selection _ (fun _ => 100) 100 (by norm_num) (fun _ => rfl)
    ⟨⟨0, 90, -1, true⟩, by simp, rfl⟩ (by decide)

/-- Whatever the clock does, the working-set scan returns the index it started with or the
position of a loaded entry. -/
theorem working_set_scan_loaded (ticks : Nat → Nat) (es : List heap_tracker_t) (i : Nat)
    (acc : Int × Nat) :
    (working_set_scan ticks es i acc).1 = acc.1 ∨
    ∃ (k : Nat) (e : heap_tracker_t), es[k]? = some e ∧
      (working_set_scan ticks es i acc).1 = ((i + k : Nat) : Int) ∧ e.loaded = true := by
  induction es generalizing i acc with
  | nil => left; rfl
  | cons e es ih =>
    simp only [working_set_scan]
    rcases ih (i + 1) (if e.loaded then
        if sub64 (ticks i) e.last_load_time > WORKING_SET_WINDOW then
          if e.last_load_time < acc.2 then ((i : Int), e.last_load_time) else acc
        else acc
      else acc) with h | ⟨k, e', hk, hr, hl⟩
    · rw [h]
      by_cases hl : e.loaded = true
      · simp only [hl, if_true]
        split_ifs
        · right
          exact ⟨0, e, by simp, by simp, hl⟩
        · left; rfl
        · left; rfl
      · left
        simp [hl]
    · right
      refine ⟨k + 1, e', by simpa using hk, ?_, hl⟩
      rw [hr]
      push_cast
      omega

/-- The index chosen by lines 81-109 is `-1` when no entry is loaded, and otherwise the
position of a loaded entry. -/
theorem select_victim_cases (ticks : Nat → Nat) (ht : List heap_tracker_t) :
    (select_victim ticks ht = -1 ∧ ∀ e ∈ ht, e.loaded = false) ∨
    ∃ (k : Nat) (v : heap_tracker_t),
      select_victim ticks ht = (k : Int) ∧ ht[k]? = some v ∧ v.loaded = true := by
  by_cases h1 : (working_set_scan ticks ht 0 (-1, 2 ^ 64 - 1)).1 = -1
  · have hsel : select_victim ticks ht = fifo_scan ht ht 0 (-1) := by
      simp only [select_victim, h1, if_true]
    have hf := fifo_scan_spec ht ht [] (-1) (by simp) (Or.inl ⟨rfl, by simp⟩)
    simp only [List.length_nil] at hf
    rcases hf with ⟨hidx, hnone⟩ | ⟨k, v, hidx, hk, hl, -⟩
    · left
      exact ⟨by rw [hsel, hidx], hnone⟩
    · right
      exact ⟨k, v, by rw [hsel, hidx], hk, hl⟩
  · have hsel : select_victim ticks ht = (working_set_scan ticks ht 0 (-1, 2 ^ 64 - 1)).1 := by
      simp only [select_victim, h1, if_false]
    rcases working_set_scan_loaded ticks ht 0 (-1, 2 ^ 64 - 1) with h | ⟨k, v, hk, hr, hl⟩
    · exact absurd h h1
    · right
      refine ⟨k, v, ?_, hk, hl⟩
      rw [hsel, hr]
      simp

/-! ## Swap slot allocation (lines 41-51) -/

/-- The scan for a free block, started at a multiple of 4 with enough iterations left, returns
`-1` when the first block of every later group is used, and otherwise the first multiple of 4
whose block is free. -/
theorem find_free_block_spec (psa : List Bool) (fuel i : Nat)
    (hfuel : psa.length ≤ i + 4 * fuel) (hi : i % 4 = 0) :
    (find_free_block psa fuel i = -1 ∧
        ∀ j, i ≤ j → j < psa.length → j % 4 = 0 → psa[j]? = some true) ∨
    (∃ b : Nat, find_free_block psa fuel i = (b : Int) ∧ i ≤ b ∧ b < psa.length ∧ b % 4 = 0 ∧
        psa[b]? = some false ∧ ∀ j, i ≤ j → j < b → j % 4 = 0 → psa[j]? = some true) := by
  induction fuel generalizing i with
  | zero =>
    left
    refine ⟨rfl, ?_⟩
    intro j h1 h2 _
    omega
  | succ fuel ih =>
    by_cases hlt : i < psa.length
    · by_cases hfree : psa.getD i true = false
      · right
        refine ⟨i, by simp only [find_free_block, hlt, if_true, hfree], le_refl _, hlt, hi, ?_, ?_⟩
        · rw [List.getD_eq_getElem?_getD, List.getElem?_eq_getElem hlt] at hfree
          rw [List.getElem?_eq_getElem hlt]
          simpa using hfree
        · intro j h1 h2 _
          omega
      · have hstep : find_free_block psa (fuel + 1) i = find_free_block psa fuel (i + 4) := by
          simp only [find_free_block, hlt, if_true]
          rw [if_neg hfree]
        have hused : psa[i]? = some true := by
          rw [List.getD_eq_getElem?_getD, List.getElem?_eq_getElem hlt] at hfree
          rw [List.getElem?_eq_getElem hlt]
          simpa using hfree
        have hrest : ∀ j, i ≤ j → j % 4 = 0 → j = i ∨ i + 4 ≤ j := by
          intro j h1 h2
          omega
        rcases ih (i + 4) (by omega) (by omega) with ⟨hr, hall⟩ | ⟨b, hr, hb1, hb2, hb3, hb4, hb5⟩
        · left
          refine ⟨by rw [hstep, hr], ?_⟩
          intro j h1 h2 h3
          rcases hrest j h1 h3 with rfl | h4
          · exact hused
          · exact hall j h4 h2 h3
        · right
          refine ⟨b, by rw [hstep, hr], by omega, hb2, hb3, hb4, ?_⟩
          intro j h1 h2 h3
          rcases hrest j h1 h3 with rfl | h4
          · exact hused
          · exact hb5 j h4 h2 h3
    · left
      refine ⟨by simp [find_free_block, hlt], ?_⟩
      intro j h1 h2 _
      omega

/-- The four assignments of `mark_used` set the blocks `b .. b+3` and nothing else. -/
theorem mark_used_getElem? (psa : List Bool) (b n : Nat) :
    (mark_used psa b)[n]? =
      if b ≤ n ∧ n < b + 4 ∧ n < psa.length then some true else psa[n]? := by
  unfold mark_used
  simp only [List.getElem?_set, List.length_set]
  by_cases h0 : b = n
  · subst h0
    by_cases hl : b < psa.length
    · simp [hl]
    · simp [hl]; omega
  · by_cases h1 : b + 1 = n
    · subst h1
      by_cases hl : b + 1 < psa.length
      · simp [hl]
      · simp [hl]; omega
    · by_cases h2 : b + 2 = n
      · subst h2
        by_cases hl : b + 2 < psa.length
        · simp [hl]
        · simp [hl]; omega
      · by_cases h3 : b + 3 = n
        · subst h3
          by_cases hl : b + 3 < psa.length
          · simp [hl]
          · simp [hl]; omega
        · have : ¬ (b ≤ n ∧ n < b + 4 ∧ n < psa.length) := by omega
          simp [h0, h1, h2, h3, this]

/-- The assignments of `mark_used` keep the size of the bitmap. -/
theorem mark_used_length (psa : List Bool) (b : Nat) : (mark_used psa b).length = psa.length := by
  simp [mark_used]

/-- C9 as stated fails: in the bitmap `[free, used, used, used, free, free, free, free]` the
group of blocks 4..7 is fully free, yet the scan selects block 0, whose group is not free; and
`evict_page_to_disk`, run in `demo_state` with this bitmap, records block 0 as the swap slot of
its victim. -/
theorem allocation_not_fully_free_group :
    group_free [false, true, true, true, false, false, false, false] 4 ∧
    find_free_block [false, true, true, true, false, false, false, false] 8 0 = 0 ∧
    ¬ group_free [false, true, true, true, false, false, false, false] 0 ∧
    (evict_page_to_disk demo_params demo_oracle
      { demo_state with
        psa_tracker := [false, true, true, true, false, false, false, false] }).state.heap_tracker[0]?
      = some ⟨0, 10, 0, false⟩ :=
  ⟨by decide, by decide, by decide, rfl⟩

/-- C9, amended: for every bitmap in which each aligned 4-block group is entirely free or
entirely used and at least one group is free, the allocation step of `evict_page_to_disk`
selects the lowest multiple of 4 whose four blocks are all free, marks exactly those four
blocks used and leaves every other bitmap entry unchanged. -/
theorem allocation_step_spec (psa : List Bool) (huni : groups_uniform psa)
    (hfree : ∃ g, g % 4 = 0 ∧ group_free psa g) :
    ∃ i : Nat, find_free_block psa psa.length 0 = (i : Int) ∧ i % 4 = 0 ∧ group_free psa i ∧
      (∀ g, g % 4 = 0 → group_free psa g → i ≤ g) ∧
      (mark_used psa i).length = psa.length ∧
      group_used (mark_used psa i) i ∧
      ∀ n, (n < i ∨ i + 4 ≤ n) → (mark_used psa i)[n]? = psa[n]? := by
  obtain ⟨g, hg4, hg⟩ := hfree
  have hglen : g + 3 < psa.length := by
    by_contra hcon
    have h3 := hg 3 (by omega)
    rw [List.getElem?_eq_none (by omega)] at h3
    exact Option.noConfusion h3
  have hg0 : psa[g]? = some false := by simpa using hg 0 (by omega)
  rcases find_free_block_spec psa psa.length 0 (by omega) (by omega) with
    ⟨-, hall⟩ | ⟨b, hr, -, hb2, hb3, hb4, hb5⟩
  · have := hall g (by omega) (by omega) hg4
    rw [hg0] at this
    simp at this
  · have hbg : b ≤ g := by
      by_contra hcon
      have := hb5 g (by omega) (by omega) hg4
      rw [hg0] at this
      simp at this
    have hbfree : group_free psa b := by
      rcases huni b hb2 hb3 (by omega) with hf | hu
      · exact hf
      · have := hu 0 (by omega)
        simp only [Nat.add_zero] at this
        rw [hb4] at this
        simp at this
    refine ⟨b, hr, hb3, hbfree, ?_, mark_used_length psa b, ?_, ?_⟩
    · intro g' hg'4 hg'
      by_contra hcon
      have h0 : psa[g']? = some false := by simpa using hg' 0 (by omega)
      have := hb5 g' (by omega) (by omega) hg'4
      rw [h0] at this
      simp at this
    · intro k hk
      rw [mark_used_getElem?]
      have : b ≤ b + k ∧ b + k < b + 4 ∧ b + k < psa.length := by omega
      simp [this]
    · intro n hn
      rw [mark_used_getElem?]
      have : ¬ (b ≤ n ∧ n < b + 4 ∧ n < psa.length) := by omega
      simp [this]

/-- Witness for C9: a bitmap whose first group is used and whose second group is free. -/
theorem allocation_step_spec_witness :
    ∃ i : Nat,
      find_free_block [true, true, true, true, false, false, false, false]
        ([true, true, true, true, false, false, false, false] : List Bool).length 0 = (i : Int) ∧
      i % 4 = 0 ∧ group_free [true, true, true, true, false, false, false, false] i ∧
      (∀ g, g % 4 = 0 → group_free [true, true, true, true, false, false, false, false] g →
        i ≤ g) ∧
      (mark_used [true, true, true, true, false, false, false, false] i).length =
        ([true, true, true, true, false, false, false, false] : List Bool).length ∧
      group_used (mark_used [true, true, true, true, false, false, false, false] i) i ∧
      ∀ n, (n < i ∨ i + 4 ≤ n) →
        (mark_used [true, true, true, true, false, false, false, false] i)[n]? =
          ([true, true, true, true, false, false, false, false] : List Bool)[n]? :=
  allocation_step_spec [true, true, true, true, false, false, false, false] (by decide)
    ⟨4, by decide, by decide⟩

/-! ## The data path: staging buffer and disk blocks -/

/-- The disk after the four block writes of lines 125-132. -/
theorem write_blocks_apply (c : Params) (buf : Page) (b : Nat) (disk : Nat → Page) (n k : Nat) :
    (List.range 4).foldl (write_block c buf b) disk n k =
      if c.PSASTART + b ≤ n ∧ n < c.PSASTART + b + 4 ∧ k < BSIZE then
        buf ((n - (c.PSASTART + b)) * BSIZE + k)
      else disk n k := by
  have hr : List.range 4 = [0, 1, 2, 3] := rfl
  simp only [hr, List.foldl, write_block]
  by_cases hk : k < BSIZE
  · by_cases h3 : n = c.PSASTART + (b + 3)
    · subst h3
      have h : c.PSASTART + (b + 3) - (c.PSASTART + b) = 3 := by omega
      have hc : c.PSASTART + b ≤ c.PSASTART + (b + 3) ∧
          c.PSASTART + (b + 3) < c.PSASTART + b + 4 ∧ k < BSIZE := ⟨by omega, by omega, hk⟩
      simp [hk, h, hc]
    · by_cases h2 : n = c.PSASTART + (b + 2)
      · subst h2
        have h : c.PSASTART + (b + 2) - (c.PSASTART + b) = 2 := by omega
        have hc : c.PSASTART + b ≤ c.PSASTART + (b + 2) ∧
            c.PSASTART + (b + 2) < c.PSASTART + b + 4 ∧ k < BSIZE := ⟨by omega, by omega, hk⟩
        simp [hk, h, hc]
      · by_cases h1 : n = c.PSASTART + (b + 1)
        · subst h1
          have h : c.PSASTART + (b + 1) - (c.PSASTART + b) = 1 := by omega
          have hc : c.PSASTART + b ≤ c.PSASTART + (b + 1) ∧
              c.PSASTART + (b + 1) < c.PSASTART + b + 4 ∧ k < BSIZE := ⟨by omega, by omega, hk⟩
          simp [hk, h, hc]
        · by_cases h0 : n = c.PSASTART + b
          · subst h0
            simp [hk]
          · have hc : ¬ (c.PSASTART + b ≤ n ∧ n < c.PSASTART + b + 4 ∧ k < BSIZE) := by omega
            simp [h3, h2, h1, h0, hc]
  · have hc : ¬ (c.PSASTART + b ≤ n ∧ n < c.PSASTART + b + 4 ∧ k < BSIZE) := fun h => hk h.2.2
    simp only [hc, if_false]
    split_ifs <;> simp [hk]

/-- The staging buffer after the four block reads of lines 166-172. -/
theorem read_blocks_apply (c : Params) (disk : Nat → Page) (b : Nat) (buf : Page) (j : Nat) :
    (List.range 4).foldl (read_block c disk b) buf j =
      if j < PGSIZE then disk (c.PSASTART + (b + j / BSIZE)) (j % BSIZE) else buf j := by
  have hr : List.range 4 = [0, 1, 2, 3] := rfl
  simp only [hr, List.foldl, read_block, PGSIZE, BSIZE]
  split_ifs <;> first
    | (exfalso; omega)
    | rfl
    | rw [show j / 1024 = 3 by omega, show j % 1024 = j - 3 * 1024 by omega]
    | rw [show j / 1024 = 2 by omega, show j % 1024 = j - 2 * 1024 by omega]
    | rw [show j / 1024 = 1 by omega, show j % 1024 = j - 1 * 1024 by omega]
    | rw [show j / 1024 = 0 by omega, show j % 1024 = j - 0 * 1024 by omega]

/-! ## What a normal end of `evict_page_to_disk` and `retrieve_page_from_disk` means -/

/-- Marking a group used twice is the same as marking it once. -/
theorem mark_used_idem (psa : List Bool) (b : Nat) :
    mark_used (mark_used psa b) b = mark_used psa b := by
  apply List.ext_getElem?
  intro n
  rw [mark_used_getElem?, mark_used_getElem?, mark_used_length]
  split_ifs <;> rfl

/-- A normal end of `evict_page_to_disk`: a free block `b` was found, the group `b .. b+3` lies
inside the bitmap, the victim `v` at position `iv` was loaded, and the new state has the group
marked used, the victim marked evicted to `b`, the victim's page (or the junk of the buffer,
when the page is not mapped) in the blocks `PSASTART+b ..`, the page unmapped and the counter
decremented. -/
theorem evict_ok_elim {c : Params} {o : Oracle} {s s' : State}
    (h : evict_page_to_disk c o s = .ok s') :
    ∃ (b iv : Nat) (v : heap_tracker_t),
      find_free_block s.psa_tracker s.psa_tracker.length 0 = (b : Int) ∧
      b + 3 < s.psa_tracker.length ∧
      select_victim o.ticks s.heap_tracker = (iv : Int) ∧
      s.heap_tracker[iv]? = some v ∧ v.loaded = true ∧
      s' = { s with
        psa_tracker := mark_used s.psa_tracker b
        heap_tracker := s.heap_tracker.set iv { v with startblock := (b : Int), loaded := false }
        disk := (List.range 4).foldl (write_block c (copyin s.pagetable o.junk v.addr) b) s.disk
        pagetable := uvmunmap s.pagetable v.addr
        resident_heap_pages := s.resident_heap_pages - 1 } := by
  unfold evict_page_to_disk at h
  rcases find_free_block_spec s.psa_tracker s.psa_tracker.length 0 (by omega) (by omega) with
    ⟨hr, -⟩ | ⟨b, hr, -, -, -, -, -⟩
  · simp [hr] at h
  · rcases select_victim_cases o.ticks s.heap_tracker with ⟨hv, -⟩ | ⟨iv, v, hv, hk, hl⟩
    · simp only [hr, hv] at h
      split_ifs at h
      all_goals omega
    · have hne : ((b : Nat) : Int) ≠ -1 := by omega
      have hivlt : iv < s.heap_tracker.length := by
        by_contra hcon
        rw [List.getElem?_eq_none (by omega)] at hk
        exact Option.noConfusion hk
      have hget : s.heap_tracker.getD iv default = v := by
        rw [List.getD_eq_getElem?_getD, hk]; rfl
      simp only [hr, hv, hne, if_false, Int.toNat_ofNat] at h
      by_cases hb : b + 3 < s.psa_tracker.length
      · have hiv : (0 : Int) ≤ (iv : Int) ∧ iv < s.heap_tracker.length := ⟨by omega, hivlt⟩
        simp only [hb, not_true_eq_false, if_false, hiv, and_self, hget, mark_used_idem] at h
        injection h with h
        exact ⟨b, iv, v, hr, hb, hv, hk, hl, h.symm⟩
      · simp [hb] at h

/-- The lookup of lines 147-152 returns `-1` when no entry of `es` has the address and a swap
slot, and otherwise the position of the first such entry. -/
theorem find_swapped_spec (a : Nat) (es : List heap_tracker_t) (i : Nat) :
    (find_swapped a es i = -1 ∧ ∀ e ∈ es, ¬ (e.addr = a ∧ e.startblock ≠ -1)) ∨
    ∃ (k : Nat) (e : heap_tracker_t), es[k]? = some e ∧
      find_swapped a es i = ((i + k : Nat) : Int) ∧ e.addr = a ∧ e.startblock ≠ -1 ∧
      ∀ (k' : Nat) (e' : heap_tracker_t), k' < k → es[k']? = some e' →
        ¬ (e'.addr = a ∧ e'.startblock ≠ -1) := by
  induction es generalizing i with
  | nil => left; simp [find_swapped]
  | cons e es ih =>
    by_cases hm : e.addr = a ∧ e.startblock ≠ -1
    · right
      refine ⟨0, e, by simp, by simp only [find_swapped]; rw [if_pos hm]; simp, hm.1, hm.2, ?_⟩
      intro k' e' hk'
      omega
    · have hstep : find_swapped a (e :: es) i = find_swapped a es (i + 1) := by
        simp only [find_swapped]
        rw [if_neg hm]
      rcases ih (i + 1) with ⟨hr, hall⟩ | ⟨k, e0, hk, hr, h1, h2, hfirst⟩
      · left
        refine ⟨by rw [hstep, hr], ?_⟩
        intro e' he'
        rcases List.mem_cons.mp he' with rfl | hmem
        · exact hm
        · exact hall e' hmem
      · right
        refine ⟨k + 1, e0, by simpa using hk, ?_, h1, h2, ?_⟩
        · rw [hstep, hr]; push_cast; omega
        · intro k' e' hk' hget
          cases k' with
          | zero =>
            simp at hget
            subst hget
            exact hm
          | succ k' =>
            simp at hget
            exact hfirst k' e' (by omega) hget

/-- The lookup of lines 214-224 returns `-1` when no entry of `es` has the address, and
otherwise the position of the first entry that has it. -/
theorem find_heap_page_spec (a : Nat) (es : List heap_tracker_t) (i : Nat) :
    (find_heap_page a es i = -1 ∧ ∀ e ∈ es, e.addr ≠ a) ∨
    ∃ (k : Nat) (e : heap_tracker_t), es[k]? = some e ∧
      find_heap_page a es i = ((i + k : Nat) : Int) ∧ e.addr = a ∧
      ∀ (k' : Nat) (e' : heap_tracker_t), k' < k → es[k']? = some e' → e'.addr ≠ a := by
  induction es generalizing i with
  | nil => left; simp [find_heap_page]
  | cons e es ih =>
    by_cases hm : e.addr = a
    · right
      refine ⟨0, e, by simp, by simp only [find_heap_page]; rw [if_pos hm]; simp, hm, ?_⟩
      intro k' e' hk'
      omega
    · have hstep : find_heap_page a (e :: es) i = find_heap_page a es (i + 1) := by
        simp only [find_heap_page]
        rw [if_neg hm]
      rcases ih (i + 1) with ⟨hr, hall⟩ | ⟨k, e0, hk, hr, h1, hfirst⟩
      · left
        refine ⟨by rw [hstep, hr], ?_⟩
        intro e' he'
        rcases List.mem_cons.mp he' with rfl | hmem
        · exact hm
        · exact hall e' hmem
      · right
        refine ⟨k + 1, e0, by simpa using hk, ?_, h1, ?_⟩
        · rw [hstep, hr]; push_cast; omega
        · intro k' e' hk' hget
          cases k' with
          | zero =>
            simp at hget
            subst hget
            exact hm
          | succ k' =>
            simp at hget
            exact hfirst k' e' (by omega) hget

/-- The flag computed by lines 204-209. -/
theorem load_from_disk_iff (a : Nat) (ht : List heap_tracker_t) :
    load_from_disk a ht = true ↔ ∃ e ∈ ht, e.addr = a ∧ e.startblock ≠ -1 := by
  simp [load_from_disk, List.any_eq_true]

/-- When the tracker has, at position `j`, its first entry with address `a` and a swap slot,
and the slot `b .. b+3` lies inside the bitmap, `retrieve_page_from_disk` ends normally: the
group is marked free and the page mapped at `a` receives the four blocks `PSASTART+b ..`. -/
theorem retrieve_ok_intro (c : Params) (o : Oracle) (s : State) (a j b : Nat)
    (e : heap_tracker_t) (hj : s.heap_tracker[j]? = some e) (ha : e.addr = a)
    (hb : e.startblock = (b : Int)) (hlen : b + 3 < s.psa_tracker.length)
    (hfirst : ∀ (k : Nat) (e' : heap_tracker_t), k < j → s.heap_tracker[k]? = some e' →
      ¬ (e'.addr = a ∧ e'.startblock ≠ -1)) :
    retrieve_page_from_disk c o s a = .ok { s with
      psa_tracker := mark_free s.psa_tracker b
      pagetable := copyout s.pagetable a ((List.range 4).foldl (read_block c s.disk b) o.junk) } := by
  have hjlt : j < s.heap_tracker.length := by
    by_contra hcon
    rw [List.getElem?_eq_none (by omega)] at hj
    exact Option.noConfusion hj
  have hfind : find_swapped a s.heap_tracker 0 = (j : Int) := by
    rcases find_swapped_spec a s.heap_tracker 0 with ⟨-, hall⟩ | ⟨k, e0, hk, hr, h1, h2, hf⟩
    · exact absurd ⟨ha, by rw [hb]; omega⟩ (hall e (List.getElem?_mem hj))
    · have hkj : k = j := by
        rcases Nat.lt_trichotomy k j with hlt | heq | hgt
        · exact absurd ⟨h1, h2⟩ (hfirst k e0 hlt hk)
        · exact heq
        · exact absurd ⟨ha, by rw [hb]; omega⟩ (hf j e hgt hj)
      rw [hr, hkj]; simp
  have hget : s.heap_tracker.getD j default = e := by
    rw [List.getD_eq_getElem?_getD, hj]; rfl
  have h1 : (0 : Int) ≤ (j : Int) ∧ j < s.heap_tracker.length := ⟨by omega, hjlt⟩
  have h2 : ((j : Nat) : Int) ≠ -1 := by omega
  have h3 : (0 : Int) ≤ (b : Int) ∧ b + 3 < s.psa_tracker.length := ⟨by omega, hlen⟩
  simp only [retrieve_page_from_disk, hfind, Int.toNat_ofNat, h1, and_self, not_true_eq_false,
    if_false, hget, hb, h2, h3]

/-- A normal end of `retrieve_page_from_disk`: the first entry with the address and a swap
slot sits at some position `j` and records a block `b` whose group lies inside the bitmap; the
group is marked free and the page mapped at `a` receives the four blocks `PSASTART+b ..`. -/
theorem retrieve_ok_elim {c : Params} {o : Oracle} {s s' : State} {a : Nat}
    (h : retrieve_page_from_disk c o s a = .ok s') :
    ∃ (j b : Nat) (e : heap_tracker_t),
      s.heap_tracker[j]? = some e ∧ e.addr = a ∧ e.startblock = (b : Int) ∧
      b + 3 < s.psa_tracker.length ∧
      (∀ (k : Nat) (e' : heap_tracker_t), k < j → s.heap_tracker[k]? = some e' →
        ¬ (e'.addr = a ∧ e'.startblock ≠ -1)) ∧
      s' = { s with
        psa_tracker := mark_free s.psa_tracker b
        pagetable :=
          copyout s.pagetable a ((List.range 4).foldl (read_block c s.disk b) o.junk) } := by
  rcases find_swapped_spec a s.heap_tracker 0 with ⟨hr, -⟩ | ⟨j, e, hj, hr, h1, h2, hf⟩
  · simp [retrieve_page_from_disk, hr] at h
  · simp only [Nat.zero_add] at hr
    by_cases hb : 0 ≤ e.startblock ∧ e.startblock.toNat + 3 < s.psa_tracker.length
    · have hbe : e.startblock = ((e.startblock.toNat : Nat) : Int) := by
        rw [Int.toNat_of_nonneg hb.1]
      have := retrieve_ok_intro c o s a j e.startblock.toNat e hj h1 hbe hb.2 hf
      rw [this] at h
      injection h with h
      exact ⟨j, e.startblock.toNat, e, hj, h1, hbe, hb.2, hf, h.symm⟩
    · have hjlt : j < s.heap_tracker.length := by
        by_contra hcon
        rw [List.getElem?_eq_none (by omega)] at hj
        exact Option.noConfusion hj
      have hget : s.heap_tracker.getD j default = e := by
        rw [List.getD_eq_getElem?_getD, hj]; rfl
      have h3 : (0 : Int) ≤ (j : Int) ∧ j < s.heap_tracker.length := ⟨by omega, hjlt⟩
      have h4 : ((j : Nat) : Int) ≠ -1 := by omega
      simp only [retrieve_page_from_disk, hr, Int.toNat_ofNat, h3, and_self, not_true_eq_false,
        if_false, hget, h4, hb, not_false_eq_true, if_true] at h
      exact Outcome.noConfusion h

/-! ## What a normal end of the heap branch means -/

/-- Sequencing ends normally only when both parts do. -/
theorem andThen_ok_elim {r : Outcome} {k : State → Outcome} {s' : State}
    (h : r.andThen k = .ok s') : ∃ s1, r = .ok s1 ∧ k s1 = .ok s' := by
  cases r with
  | ok s1 => exact ⟨s1, rfl, h⟩
  | panic m s1 => exact Outcome.noConfusion h
  | out_of_bounds s1 => exact Outcome.noConfusion h

/-- A normal end of the heap branch, step by step: `s1` is the state after the eviction (the
input state when the counter is below the budget), `s3` the state after `uvmalloc` and the
retrieval (if any), and the result is `s3` with the entry at `index` marked loaded at the
current time and the counter incremented. -/
theorem heap_handle_ok_elim {c : Params} {o : Oracle} {s s' : State} {f : Nat} {fd : Bool}
    {index : Int} (h : heap_handle c o s f fd index = .ok s') :
    ∃ (s1 s3 : State) (i : Nat) (e : heap_tracker_t),
      (if s.resident_heap_pages = c.MAXRESHEAP then evict_page_to_disk c o s else .ok s)
        = .ok s1 ∧
      (if fd then
          retrieve_page_from_disk c o
            { s1 with pagetable := (uvmalloc s1.pagetable f (add64 f PGSIZE) o.uvmalloc_ok).1 } f
        else
          .ok { s1 with pagetable := (uvmalloc s1.pagetable f (add64 f PGSIZE) o.uvmalloc_ok).1 })
        = .ok s3 ∧
      index = (i : Int) ∧ s3.heap_tracker[i]? = some e ∧
      s' = { s3 with
        heap_tracker := s3.heap_tracker.set i
          { e with last_load_time := o.ticks_load, loaded := true }
        resident_heap_pages := s3.resident_heap_pages + 1 } := by
  unfold heap_handle at h
  obtain ⟨s1, h1, h⟩ := andThen_ok_elim h
  simp only [Nat.not_lt_zero, if_false] at h
  obtain ⟨s3, h3, h⟩ := andThen_ok_elim h
  by_cases hidx : 0 ≤ index ∧ index.toNat < s3.heap_tracker.length
  · simp only [hidx, and_self, not_true_eq_false, if_false] at h
    injection h with h
    refine ⟨s1, s3, index.toNat, s3.heap_tracker.getD index.toNat default, h1, h3,
      (Int.toNat_of_nonneg hidx.1).symm, ?_, h.symm⟩
    rw [List.getD_eq_getElem?_getD, List.getElem?_eq_getElem hidx.2]
    rfl
  · simp only [hidx, not_false_eq_true, if_true] at h
    exact Outcome.noConfusion h

/-- The program-image branch always returns, and changes at most the page table. -/
theorem load_program_page_ok (o : Oracle) (s : State) (f : Nat) :
    ∃ pt, load_program_page o s f = .ok { s with pagetable := pt } := by
  unfold load_program_page
  cases hn : o.namei with
  | none => exact ⟨s.pagetable, rfl⟩
  | some ip =>
    cases he : ip.elf with
    | none => exact ⟨s.pagetable, by simp only [he]⟩
    | some elf =>
      cases hs : scan_headers ip f elf.phnum 0 o.ph_stack with
      | returned => exact ⟨s.pagetable, by simp only [he, hs]⟩
      | reached_uvmalloc ph =>
        exact ⟨loadseg (uvmalloc s.pagetable f (add64 f ph.memsz) o.uvmalloc_ok).1 f ip
          (ph.off % 2 ^ 32) (ph.filesz % 2 ^ 32), by simp only [he, hs]⟩

/-- A normal end of `page_fault_handler` is one of: the copy-on-write resolver ran; the
address is in no tracker entry and at most the page table changed; or the heap branch ran for
the first entry with the faulting address. -/
theorem page_fault_handler_ok_elim {c : Params} {o : Oracle} {s s' : State}
    (h : page_fault_handler c o s = .ok s') :
    (s.cow_enabled = true ∧ o.scause = 15 ∧
      s' = { s with pagetable := o.copy_on_write s.pagetable }) ∨
    (¬ (s.cow_enabled = true ∧ o.scause = 15) ∧
      (∀ e ∈ s.heap_tracker, e.addr ≠ PGROUNDDOWN o.stval) ∧
      ∃ pt, s' = { s with pagetable := pt }) ∨
    (¬ (s.cow_enabled = true ∧ o.scause = 15) ∧
      ∃ (i : Nat) (e : heap_tracker_t), s.heap_tracker[i]? = some e ∧
        e.addr = PGROUNDDOWN o.stval ∧
        (∀ (k : Nat) (e' : heap_tracker_t), k < i → s.heap_tracker[k]? = some e' →
          e'.addr ≠ PGROUNDDOWN o.stval) ∧
        heap_handle c o s (PGROUNDDOWN o.stval)
          (load_from_disk (PGROUNDDOWN o.stval) s.heap_tracker) (i : Int) = .ok s') := by
  unfold page_fault_handler at h
  by_cases hcow : s.cow_enabled = true ∧ o.scause = 15
  · left
    rw [if_pos hcow] at h
    injection h with h
    exact ⟨hcow.1, hcow.2, h.symm⟩
  · right
    simp only [hcow, if_false] at h
    rcases find_heap_page_spec (PGROUNDDOWN o.stval) s.heap_tracker 0 with
      ⟨hr, hall⟩ | ⟨i, e, hi, hr, ha, hfirst⟩
    · left
      simp only [hr, ne_eq, not_true_eq_false, if_false] at h
      obtain ⟨pt, hpt⟩ := load_program_page_ok o s (PGROUNDDOWN o.stval)
      rw [hpt] at h
      injection h with h
      exact ⟨hcow, hall, pt, h.symm⟩
    · right
      simp only [Nat.zero_add] at hr
      have hne : ((i : Nat) : Int) ≠ -1 := by omega
      simp only [hr, ne_eq, hne, not_false_eq_true, if_true] at h
      exact ⟨hcow, i, e, hi, ha, hfirst, h⟩

/-- The block found by the allocation scan is a multiple of 4, lies inside the bitmap and is
free. -/
theorem find_free_block_some {psa : List Bool} {b : Nat}
    (h : find_free_block psa psa.length 0 = (b : Int)) : b % 4 = 0 ∧ psa[b]? = some false := by
  rcases find_free_block_spec psa psa.length 0 (by omega) (by omega) with
    ⟨hr, -⟩ | ⟨b', hr, -, -, h1, h2, -⟩
  · rw [hr] at h; omega
  · rw [hr] at h
    have : b' = b := by exact_mod_cast h
    subst this
    exact ⟨h1, h2⟩

/-- The four assignments of `mark_free` clear the blocks `b .. b+3` and nothing else. -/
theorem mark_free_getElem? (psa : List Bool) (b n : Nat) :
    (mark_free psa b)[n]? =
      if b ≤ n ∧ n < b + 4 ∧ n < psa.length then some false else psa[n]? := by
  unfold mark_free
  simp only [List.getElem?_set, List.length_set]
  by_cases h0 : b = n
  · subst h0
    by_cases hl : b < psa.length
    · simp [hl]
    · simp [hl]; omega
  · by_cases h1 : b + 1 = n
    · subst h1
      by_cases hl : b + 1 < psa.length
      · simp [hl]
      · simp [hl]; omega
    · by_cases h2 : b + 2 = n
      · subst h2
        by_cases hl : b + 2 < psa.length
        · simp [hl]
        · simp [hl]; omega
      · by_cases h3 : b + 3 = n
        · subst h3
          by_cases hl : b + 3 < psa.length
          · simp [hl]
          · simp [hl]; omega
        · have : ¬ (b ≤ n ∧ n < b + 4 ∧ n < psa.length) := by omega
          simp [h0, h1, h2, h3, this]

/-- A group that is used stays used when another group is marked used. -/
theorem group_used_mark_used {psa : List Bool} {g : Nat} (b : Nat) (h : group_used psa g) :
    group_used (mark_used psa b) g := by
  intro k hk
  rw [mark_used_getElem?]
  split_ifs
  · rfl
  · exact h k hk

/-- A group that is used stays used when a different aligned group is marked free. -/
theorem group_used_mark_free {psa : List Bool} {g b : Nat} (hg : g % 4 = 0) (hb : b % 4 = 0)
    (hne : g ≠ b) (h : group_used psa g) : group_used (mark_free psa b) g := by
  intro k hk
  rw [mark_free_getElem?]
  have : ¬ (b ≤ g + k ∧ g + k < b + 4 ∧ g + k < psa.length) := by omega
  rw [if_neg this]
  exact h k hk

/-- The heap branch on an address tracked once by a not-loaded entry `e` at position `i`:
after the eviction (if the counter is at the budget) the entry is still `e` and the address is
still tracked once; then either `e` has no swap slot and the page is just mapped, or `e`
records the block `b`, whose group is marked free and whose blocks are copied to the page;
finally the entry is marked loaded and the counter incremented. -/
theorem heap_fault_shape {c : Params} {o : Oracle} {s s' : State} {f i : Nat}
    {e : heap_tracker_t} (hpre : tracked_at s.heap_tracker f i e)
    (h : heap_handle c o s f (load_from_disk f s.heap_tracker) (i : Int) = .ok s') :
    ∃ s1 : State,
      ((s.resident_heap_pages = c.MAXRESHEAP ∧ evict_page_to_disk c o s = .ok s1) ∨
        (s.resident_heap_pages ≠ c.MAXRESHEAP ∧ s1 = s)) ∧
      tracked_at s1.heap_tracker f i e ∧
      ((e.startblock = -1 ∧
          s' = { s1 with
            pagetable := (uvmalloc s1.pagetable f (add64 f PGSIZE) o.uvmalloc_ok).1
            heap_tracker := s1.heap_tracker.set i
              { e with last_load_time := o.ticks_load, loaded := true }
            resident_heap_pages := s1.resident_heap_pages + 1 }) ∨
        (∃ b : Nat, e.startblock = (b : Int) ∧ b + 3 < s1.psa_tracker.length ∧
          s' = { s1 with
            psa_tracker := mark_free s1.psa_tracker b
            pagetable := copyout (uvmalloc s1.pagetable f (add64 f PGSIZE) o.uvmalloc_ok).1 f
              ((List.range 4).foldl (read_block c s1.disk b) o.junk)
            heap_tracker := s1.heap_tracker.set i
              { e with last_load_time := o.ticks_load, loaded := true }
            resident_heap_pages := s1.resident_heap_pages + 1 })) := by
  obtain ⟨hi, ha, hl, huniq⟩ := hpre
  obtain ⟨s1, s3, i', e3, hev, hret, hidx, he3, hs'⟩ := heap_handle_ok_elim h
  have hii : i' = i := by exact_mod_cast hidx.symm
  subst hii
  -- the eviction leaves the faulting entry and all addresses as they are
  have hs1 : ((s.resident_heap_pages = c.MAXRESHEAP ∧ evict_page_to_disk c o s = .ok s1) ∨
        (s.resident_heap_pages ≠ c.MAXRESHEAP ∧ s1 = s)) ∧
      tracked_at s1.heap_tracker f i' e := by
    by_cases hb : s.resident_heap_pages = c.MAXRESHEAP
    · rw [if_pos hb] at hev
      refine ⟨Or.inl ⟨hb, hev⟩, ?_⟩
      obtain ⟨b, iv, v, -, -, -, hv, hvl, hs1⟩ := evict_ok_elim hev
      have hne : iv ≠ i' := by
        rintro rfl
        rw [hi] at hv
        have := Option.some.inj hv
        subst this
        rw [hl] at hvl
        exact Bool.noConfusion hvl
      have hivlt : iv < s.heap_tracker.length := by
        by_contra hcon
        rw [List.getElem?_eq_none (by omega)] at hv
        exact Option.noConfusion hv
      rw [hs1]
      refine ⟨?_, ha, hl, ?_⟩
      · simp only
        rw [List.getElem?_set_ne hne]
        exact hi
      · intro j e' hj haddr
        simp only at hj
        by_cases hjv : iv = j
        · subst hjv
          rw [List.getElem?_set_self hivlt] at hj
          have := Option.some.inj hj
          subst this
          exact huniq iv v hv haddr
        · rw [List.getElem?_set_ne hjv] at hj
          exact huniq j e' hj haddr
    · rw [if_neg hb] at hev
      injection hev with hev
      subst hev
      exact ⟨Or.inr ⟨hb, rfl⟩, hi, ha, hl, huniq⟩
  obtain ⟨hstep, hi1, -, -, huniq1⟩ := hs1
  refine ⟨s1, hstep, ⟨hi1, ha, hl, huniq1⟩, ?_⟩
  by_cases hsb : e.startblock = -1
  · left
    have hfd : load_from_disk f s.heap_tracker = false := by
      rw [Bool.eq_false_iff]
      intro hcon
      obtain ⟨e', he', ha', hsb'⟩ := (load_from_disk_iff f s.heap_tracker).mp hcon
      obtain ⟨j, hj⟩ := List.getElem?_of_mem he'
      have := huniq j e' hj ha'
      subst this
      rw [hi] at hj
      have := Option.some.inj hj
      subst this
      exact hsb' hsb
    rw [hfd] at hret
    simp only [Bool.false_eq_true, if_false] at hret
    injection hret with hret
    subst hret
    simp only at he3
    rw [hi1] at he3
    have := Option.some.inj he3
    subst this
    exact ⟨hsb, hs'⟩
  · right
    have hfd : load_from_disk f s.heap_tracker = true :=
      (load_from_disk_iff f s.heap_tracker).mpr ⟨e, List.getElem?_mem hi, ha, hsb⟩
    rw [hfd] at hret
    simp only [if_true] at hret
    obtain ⟨j, b, e', hj, ha', hb', hlen, -, hs3⟩ := retrieve_ok_elim hret
    simp only at hj hlen
    have := huniq1 j e' hj ha'
    subst this
    rw [hi1] at hj
    have := Option.some.inj hj
    subst this
    subst hs3
    simp only at he3
    rw [hi1] at he3
    have := Option.some.inj he3
    subst this
    exact ⟨b, hb', hlen, hs'⟩

/-! ## The slots of evicted pages -/

/-- After boot no entry is evicted, so the slot invariant holds. -/
theorem slot_inv_fresh {s : State} (h : fresh s) : slot_inv s := by
  have hnone : ∀ (i : Nat) (e : heap_tracker_t), s.heap_tracker[i]? = some e → ¬ evicted e := by
    intro i e hi hev
    exact hev.2 (h.2 e (List.getElem?_mem hi)).2
  exact ⟨fun i e hi hev => absurd hev (hnone i e hi),
    fun i j ei ej _ hi _ hei _ => absurd hei (hnone i ei hi)⟩

/-- A normal end of `evict_page_to_disk` keeps the slot invariant: the victim receives a group
that was free, so no evicted entry records it. -/
theorem slot_inv_evict {c : Params} {o : Oracle} {s s' : State} (hinv : slot_inv s)
    (h : evict_page_to_disk c o s = .ok s') : slot_inv s' := by
  obtain ⟨b, iv, v, hb, hlen, -, hv, -, hs'⟩ := evict_ok_elim h
  obtain ⟨hb4, hbfree⟩ := find_free_block_some hb
  have hivlt : iv < s.heap_tracker.length := by
    by_contra hcon
    rw [List.getElem?_eq_none (by omega)] at hv
    exact Option.noConfusion hv
  -- an entry that was evicted before does not record the block `b`
  have hfresh : ∀ (j : Nat) (e : heap_tracker_t), s.heap_tracker[j]? = some e → evicted e →
      e.startblock ≠ (b : Int) := by
    intro j e hj hev hcon
    obtain ⟨b', hb', -, hused⟩ := hinv.1 j e hj hev
    have : b' = b := by rw [hb'] at hcon; exact_mod_cast hcon
    subst this
    have := hused 0 (by omega)
    simp only [Nat.add_zero] at this
    rw [hbfree] at this
    exact Bool.noConfusion (Option.some.inj this)
  have hnew : group_used (mark_used s.psa_tracker b) b := by
    intro k hk
    rw [mark_used_getElem?]
    have : b ≤ b + k ∧ b + k < b + 4 ∧ b + k < s.psa_tracker.length := by omega
    rw [if_pos this]
  subst hs'
  constructor
  · intro j e hj hev
    simp only at hj ⊢
    by_cases hjv : iv = j
    · subst hjv
      rw [List.getElem?_set_self hivlt] at hj
      have := Option.some.inj hj
      subst this
      exact ⟨b, rfl, hb4, hnew⟩
    · rw [List.getElem?_set_ne hjv] at hj
      obtain ⟨b', hb', hb'4, hused⟩ := hinv.1 j e hj hev
      exact ⟨b', hb', hb'4, group_used_mark_used b hused⟩
  · intro j k ej ek hjk hj hk hej hek
    simp only at hj hk
    by_cases hjv : iv = j
    · subst hjv
      rw [List.getElem?_set_self hivlt] at hj
      have := Option.some.inj hj
      subst this
      rw [List.getElem?_set_ne hjk] at hk
      exact fun hcon => hfresh k ek hk hek hcon.symm
    · rw [List.getElem?_set_ne hjv] at hj
      by_cases hkv : iv = k
      · subst hkv
        rw [List.getElem?_set_self hivlt] at hk
        have := Option.some.inj hk
        subst this
        exact hfresh j ej hj hej
      · rw [List.getElem?_set_ne hkv] at hk
        exact hinv.2 j k ej ek hjk hj hk hej hek

/-- A normal end of the heap branch, on an address tracked once by an entry that is not
loaded, keeps the slot invariant: only the slot of the faulting entry is released, and that
entry is loaded afterwards. -/
theorem slot_inv_heap_fault {c : Params} {o : Oracle} {s s' : State} {f i : Nat}
    {e : heap_tracker_t} (hinv : slot_inv s) (hpre : tracked_at s.heap_tracker f i e)
    (h : heap_handle c o s f (load_from_disk f s.heap_tracker) (i : Int) = .ok s') :
    slot_inv s' := by
  obtain ⟨s1, hstep, ⟨hi1, -, hl, -⟩, hshape⟩ := heap_fault_shape hpre h
  have hinv1 : slot_inv s1 := by
    rcases hstep with ⟨-, hev⟩ | ⟨-, rfl⟩
    · exact slot_inv_evict hinv hev
    · exact hinv
  have hilt : i < s1.heap_tracker.length := by
    by_contra hcon
    rw [List.getElem?_eq_none (by omega)] at hi1
    exact Option.noConfusion hi1
  have hloaded : ∀ (e' : heap_tracker_t),
      (s1.heap_tracker.set i { e with last_load_time := o.ticks_load, loaded := true })[i]?
        = some e' → ¬ evicted e' := by
    intro e' he' hev
    rw [List.getElem?_set_self hilt] at he'
    have := Option.some.inj he'
    subst this
    exact Bool.noConfusion hev.1
  rcases hshape with ⟨-, hs'⟩ | ⟨b, hb, -, hs'⟩
  · subst hs'
    constructor
    · intro j ej hj hev
      simp only at hj ⊢
      by_cases hji : i = j
      · subst hji
        exact absurd hev (hloaded ej hj)
      · rw [List.getElem?_set_ne hji] at hj
        exact hinv1.1 j ej hj hev
    · intro j k ej ek hjk hj hk hej hek
      simp only at hj hk
      by_cases hji : i = j
      · subst hji
        exact absurd hej (hloaded ej hj)
      · by_cases hki : i = k
        · subst hki
          exact absurd hek (hloaded ek hk)
        · rw [List.getElem?_set_ne hji] at hj
          rw [List.getElem?_set_ne hki] at hk
          exact hinv1.2 j k ej ek hjk hj hk hej hek
  · have hevi : evicted e := ⟨hl, by rw [hb]; omega⟩
    obtain ⟨b0, hb0, hb04, -⟩ := hinv1.1 i e hi1 hevi
    have hbb : b0 = b := by rw [hb] at hb0; exact_mod_cast hb0.symm
    subst hbb
    subst hs'
    constructor
    · intro j ej hj hev
      simp only at hj ⊢
      by_cases hji : i = j
      · subst hji
        exact absurd hev (hloaded ej hj)
      · rw [List.getElem?_set_ne hji] at hj
        obtain ⟨bj, hbj, hbj4, hused⟩ := hinv1.1 j ej hj hev
        have hne : bj ≠ b0 := by
          intro hcon
          subst hcon
          exact hinv1.2 j i ej e (Ne.symm hji) hj hi1 hev hevi (by rw [hbj, hb])
        exact ⟨bj, hbj, hbj4, group_used_mark_free hbj4 hb04 hne hused⟩
    · intro j k ej ek hjk hj hk hej hek
      simp only at hj hk
      by_cases hji : i = j
      · subst hji
        exact absurd hej (hloaded ej hj)
      · by_cases hki : i = k
        · subst hki
          exact absurd hek (hloaded ek hk)
        · rw [List.getElem?_set_ne hji] at hj
          rw [List.getElem?_set_ne hki] at hk
          exact hinv1.2 j k ej ek hjk hj hk hej hek

/-- A normal end of `page_fault_handler` on an admissible fault keeps the slot invariant. -/
theorem slot_inv_fault {c : Params} {o : Oracle} {s s' : State} (hinv : slot_inv s)
    (hadm : admissible s o) (h : page_fault_handler c o s = .ok s') : slot_inv s' := by
  rcases page_fault_handler_ok_elim h with
    ⟨-, -, hs'⟩ | ⟨-, -, pt, hs'⟩ | ⟨hncow, i, e, hi, ha, -, hh⟩
  · subst hs'; exact hinv
  · subst hs'; exact hinv
  · rcases hadm with hcow | hnone | ⟨i0, e0, hpre⟩
    · exact absurd hcow hncow
    · exact absurd ha (hnone e (List.getElem?_mem hi))
    · have := hpre.2.2.2 i e hi ha
      subst this
      have he : e0 = e := by
        have := hpre.1
        rw [hi] at this
        exact (Option.some.inj this).symm
      subst he
      exact slot_inv_heap_fault hinv hpre hh

/-- The slot invariant holds in every reachable state. -/
theorem slot_inv_reachable {c : Params} {s : State} (h : Reachable c s) : slot_inv s := by
  induction h with
  | init s hf => exact slot_inv_fresh hf
  | evict o s s' _ hev ih => exact slot_inv_evict ih hev
  | fault o s s' _ hadm hf ih => exact slot_inv_fault ih hadm hf

/-! ## Eviction and retrieval round trip -/

/-- The blocks written by an eviction, read back into the staging buffer, give the bytes of
the buffer that was written. -/
theorem read_after_write (c : Params) (buf junk : Page) (b : Nat) (disk disk' : Nat → Page)
    (hdisk : ∀ k < 4, disk' (c.PSASTART + (b + k)) =
      (List.range 4).foldl (write_block c buf b) disk (c.PSASTART + (b + k)))
    (j : Nat) (hj : j < PGSIZE) :
    (List.range 4).foldl (read_block c disk' b) junk j = buf j := by
  rw [read_blocks_apply, if_pos hj]
  have hq : j / BSIZE < 4 := by
    have h4 : j < 4096 := hj
    show j / 1024 < 4
    omega
  rw [hdisk (j / BSIZE) hq, write_blocks_apply]
  have hr : j % BSIZE < BSIZE := Nat.mod_lt _ (by simp [BSIZE])
  have hsplit : j / BSIZE * BSIZE + j % BSIZE = j := Nat.div_add_mod' j BSIZE
  generalize j / BSIZE = q at hq hsplit ⊢
  have hc : c.PSASTART + b ≤ c.PSASTART + (b + q) ∧
      c.PSASTART + (b + q) < c.PSASTART + b + 4 ∧ j % BSIZE < BSIZE :=
    ⟨by omega, by omega, hr⟩
  have h1 : c.PSASTART + (b + q) - (c.PSASTART + b) = q := by omega
  rw [if_pos hc, h1, hsplit]

/-- C2: eviction/retrieval round trip. Let `evict_page_to_disk` end normally, having chosen the
victim `v` and the swap slot `b`, with the page `P` mapped at `v.addr` before. Let `s2` be any
later state in which the four blocks `PSASTART+b .. PSASTART+b+3` are as the eviction left
them, `v.addr` is mapped again, and the lookup of `retrieve_page_from_disk` for `v.addr` (the
first entry with this address and a swap slot) gives the slot `b`; the rest of the tracker,
the other blocks and the other pages are arbitrary. Then `retrieve_page_from_disk` ends
normally and the 4096 bytes mapped at `v.addr` afterwards are those of `P`. -/
theorem evict_retrieve_round_trip (c : Params) (o o' : Oracle) (s s1 s2 : State) (iv b : Nat)
    (v : heap_tracker_t) (P : Page)
    (hev : evict_page_to_disk c o s = .ok s1)
    (hiv : select_victim o.ticks s.heap_tracker = (iv : Int))
    (hv : s.heap_tracker[iv]? = some v)
    (hb : find_free_block s.psa_tracker s.psa_tracker.length 0 = (b : Int))
    (hP : s.pagetable v.addr = some P)
    (hdisk : ∀ k < 4, s2.disk (c.PSASTART + (b + k)) = s1.disk (c.PSASTART + (b + k)))
    (hmap : ∃ Q, s2.pagetable v.addr = some Q)
    (hpsa : s2.psa_tracker.length = s1.psa_tracker.length)
    (hlookup : ∃ (k : Nat) (e2 : heap_tracker_t), s2.heap_tracker[k]? = some e2 ∧
      e2.addr = v.addr ∧ e2.startblock = (b : Int) ∧
      ∀ (k' : Nat) (e : heap_tracker_t), k' < k → s2.heap_tracker[k']? = some e →
        ¬ (e.addr = v.addr ∧ e.startblock ≠ -1)) :
    ∃ s3 P', retrieve_page_from_disk c o' s2 v.addr = .ok s3 ∧
      s3.pagetable v.addr = some P' ∧ ∀ j < PGSIZE, P' j = P j := by
  obtain ⟨b', iv', v', hb', hlen, hiv', hv', -, hs1⟩ := evict_ok_elim hev
  have e1 : b' = b := by rw [hb] at hb'; exact_mod_cast hb'.symm
  have e2 : iv' = iv := by rw [hiv] at hiv'; exact_mod_cast hiv'.symm
  subst e1 e2
  have e3 : v' = v := by rw [hv] at hv'; exact (Option.some.inj hv').symm
  subst e3
  obtain ⟨Q, hQ⟩ := hmap
  obtain ⟨k, e2, hk, ha2, hb2, hfirst2⟩ := hlookup
  have hlen2 : b' + 3 < s2.psa_tracker.length := by
    rw [hpsa, hs1]
    simpa [mark_used_length] using hlen
  have hret := retrieve_ok_intro c o' s2 v'.addr k b' e2 hk ha2 hb2 hlen2 hfirst2
  refine ⟨_, fun j => if j < PGSIZE then
      (List.range 4).foldl (read_block c s2.disk b') o'.junk j else Q j, hret, ?_, ?_⟩
  · simp only [copyout, hQ]
    simp
  · intro j hj
    simp only [hj, if_true]
    rw [read_after_write c (copyin s.pagetable o.junk v'.addr) o'.junk b' s.disk s2.disk ?_ j hj]
    · simp [copyin, hP, hj]
    · intro k hk
      rw [hdisk k hk, hs1]

/-- Witness for C2, on two faults handled by `page_fault_handler`. In `demo_state` the fault
on page 8192 evicts page 0 (bytes `j % 256`) to the blocks 4..7 and then rewrites the entry of
page 8192; the next fault, on page 0, evicts page 4096 to the blocks 0..3 and maps page 0
again. In the state in which `retrieve_page_from_disk` then runs the tracker is no longer the
one the first eviction left, and the retrieval gives back the bytes `j % 256`; it is the
retrieval the handler performs. -/
theorem evict_retrieve_round_trip_witness :
    evict_page_to_disk demo_params demo_oracle demo_state = .ok demo_evicted ∧
    demo_before_retrieval.heap_tracker ≠ demo_evicted.heap_tracker ∧
    (page_fault_handler demo_params (fault_at 0 101) demo_after_fault).state.pagetable 0 =
      (retrieve_page_from_disk demo_params (fault_at 0 101) demo_before_retrieval
        0).state.pagetable 0 ∧
    ∃ s3 P', retrieve_page_from_disk demo_params (fault_at 0 101) demo_before_retrieval 0
        = .ok s3 ∧
      s3.pagetable 0 = some P' ∧ ∀ j < PGSIZE, P' j = j % 256 :=
  ⟨rfl, by decide, rfl,
    evict_retrieve_round_trip demo_params demo_oracle (fault_at 0 101) demo_state demo_evicted
      demo_before_retrieval 0 4 ⟨0, 10, -1, true⟩ (fun j => j % 256) rfl rfl rfl rfl rfl
      (by intro k hk; interval_cases k <;> rfl) ⟨fun _ => 0, rfl⟩ rfl
      ⟨0, ⟨0, 10, 4, false⟩, rfl, rfl, rfl, fun k _ hk _ => absurd hk (Nat.not_lt_zero k)⟩⟩

/-! ## Program-image faults (lines 229-259) -/

/-- The scan ends by `return` when, after headers that let it go on, it reads a loadable
header that fails one of the three checks. -/
theorem scan_headers_returned (ip : Inode) (f : Nat) (k : Nat) :
    ∀ (n i : Nat) (ph0 : proghdr), k < n →
      (∀ j < k, ∃ ph, ip.ph (i + j) = some ph ∧ scan_continues ph f) →
      (∃ bad, ip.ph (i + k) = some bad ∧ bad.type = ELF_PROG_LOAD ∧ ph_invalid bad) →
      scan_headers ip f n i ph0 = .returned := by
  induction k with
  | zero =>
    intro n i ph0 hn _ hbad
    obtain ⟨bad, hget, hload, hinv⟩ := hbad
    obtain ⟨m, rfl⟩ : ∃ m, n = m + 1 := ⟨n - 1, by omega⟩
    simp only [Nat.add_zero] at hget
    simp only [scan_headers, hget, hload, ne_eq, not_true_eq_false, if_false]
    rcases hinv with h1 | h2 | h3
    · simp [h1]
    · by_cases h1 : bad.memsz < bad.filesz
      · simp [h1]
      · simp [h1, h2]
    · by_cases h1 : bad.memsz < bad.filesz
      · simp [h1]
      · by_cases h2 : add64 bad.vaddr bad.memsz < bad.vaddr
        · simp [h1, h2]
        · simp [h1, h2, h3]
  | succ k ih =>
    intro n i ph0 hn hpre hbad
    obtain ⟨m, rfl⟩ : ∃ m, n = m + 1 := ⟨n - 1, by omega⟩
    obtain ⟨ph, hget, hcont⟩ := hpre 0 (by omega)
    simp only [Nat.add_zero] at hget
    have hrest : scan_headers ip f m (i + 1) ph = .returned := by
      apply ih m (i + 1) ph (by omega)
      · intro j hj
        have := hpre (j + 1) (by omega)
        rwa [show i + (j + 1) = i + 1 + j by omega] at this
      · rwa [show i + (k + 1) = i + 1 + k by omega] at hbad
    simp only [scan_headers, hget]
    rcases hcont with hnl | ⟨hvalid, hncov⟩
    · simp only [hnl, ne_eq, not_false_eq_true, if_true, hrest]
    · by_cases hnl : ph.type ≠ ELF_PROG_LOAD
      · simp only [hnl, ne_eq, not_false_eq_true, if_true, hrest]
      · simp only [ph_invalid, not_or, not_lt, ne_eq, not_not] at hvalid
        obtain ⟨h1, h2, h3⟩ := hvalid
        have hsum : add64 ph.vaddr ph.memsz = ph.vaddr + ph.memsz ∨
            add64 ph.vaddr ph.memsz < ph.vaddr + ph.memsz := by
          unfold add64
          rcases Nat.lt_or_ge (ph.vaddr + ph.memsz) (2 ^ 64) with h | h
          · left; exact Nat.mod_eq_of_lt h
          · right; exact lt_of_lt_of_le (Nat.mod_lt _ (by norm_num)) h
        have hnc : ¬ (ph.vaddr ≤ f ∧ f < add64 ph.vaddr ph.memsz) := by
          intro hc
          apply hncov
          refine ⟨hc.1, ?_⟩
          rcases hsum with h | h <;> omega
        rw [if_neg hnl, if_neg (by omega), if_neg (by omega), if_neg (by simpa using h3),
          if_neg hnc]
        exact hrest

/-- C7: program-header validation. For a fault that is neither a copy-on-write fault nor on a
tracked heap address, if the scan of the executable's program headers reaches a loadable
header with `memsz < filesz`, or with `vaddr + memsz` wrapping below `vaddr`, or with `vaddr`
not a multiple of `PGSIZE`, then `page_fault_handler` returns with the whole state (page table,
heap tracker, resident counter, swap bitmap) unchanged. -/
theorem program_header_validation (c : Params) (o : Oracle) (s : State) (ip : Inode)
    (elf : elfhdr) (k : Nat) (bad : proghdr)
    (hcow : ¬ (s.cow_enabled = true ∧ o.scause = 15))
    (hheap : ∀ e ∈ s.heap_tracker, e.addr ≠ PGROUNDDOWN o.stval)
    (hnamei : o.namei = some ip) (helf : ip.elf = some elf) (hk : k < elf.phnum)
    (hpre : ∀ j < k, ∃ ph, ip.ph j = some ph ∧ scan_continues ph (PGROUNDDOWN o.stval))
    (hbad : ip.ph k = some bad) (hload : bad.type = ELF_PROG_LOAD) (hinv : ph_invalid bad) :
    page_fault_handler c o s = .ok s := by
  have hidx : find_heap_page (PGROUNDDOWN o.stval) s.heap_tracker 0 = -1 := by
    rcases find_heap_page_spec (PGROUNDDOWN o.stval) s.heap_tracker 0 with
      ⟨hr, -⟩ | ⟨j, e, hj, -, ha, -⟩
    · exact hr
    · exact absurd ha (hheap e (List.getElem?_mem hj))
  have hscan : scan_headers ip (PGROUNDDOWN o.stval) elf.phnum 0 o.ph_stack = .returned := by
    apply scan_headers_returned ip _ k elf.phnum 0 o.ph_stack hk
    · intro j hj
      simpa using hpre j hj
    · exact ⟨bad, by simpa using hbad, hload, hinv⟩
  simp only [page_fault_handler, hcow, if_false, hidx, ne_eq, not_true_eq_false,
    load_program_page, hnamei, helf, hscan]

/-- Witness for C7: the second header of `demo_bad_inode` has `memsz = 100 < filesz = 4096`;
the first one is valid and does not contain the faulting page 20480. -/
theorem program_header_validation_witness :
    page_fault_handler demo_params demo_bad_oracle demo_state = .ok demo_state :=
  program_header_validation demo_params demo_bad_oracle demo_state demo_bad_inode ⟨64, 2⟩ 1
    ⟨1, 7, 8192, 4096, 4096, 100⟩ (by decide) (by decide) rfl rfl (by decide)
    (fun j hj => ⟨⟨1, 7, 4096, 0, 4096, 4096⟩, by
      have : j = 0 := by omega
      subst this
      exact ⟨rfl, by decide⟩⟩)
    rfl rfl (by decide)

/-- C10 fails on the code: the fault of `demo_image_oracle` is at page 20480, the process
has copy-on-write disabled, no heap tracker entry has this address and the only segment of
`demo_inode` is `[0, 4096)`. The scan leaves the loop at `i == elf.phnum`, and lines 253-254
run with the header read last: the page 20480, unmapped before, is mapped and receives the
file bytes from offset 4096 on. -/
theorem unmatched_fault_maps_page :
    PGROUNDDOWN demo_image_oracle.stval = 20480 ∧
    ¬ (demo_state.cow_enabled = true ∧ demo_image_oracle.scause = 15) ∧
    (∀ e ∈ demo_state.heap_tracker, e.addr ≠ 20480) ∧
    (∀ i ph, demo_inode.ph i = some ph → ¬ ph_covers ph 20480) ∧
    demo_state.pagetable 20480 = none ∧
    ∃ s' P, page_fault_handler demo_params demo_image_oracle demo_state = .ok s' ∧
      s'.pagetable 20480 = some P ∧ P 1 = demo_inode.data 4097 := by
  refine ⟨by decide, by decide, by decide, ?_, rfl, _, _, rfl, rfl, rfl⟩
  intro i ph hget
  by_cases hi : i = 0
  · subst hi
    have : ph = ⟨1, 7, 4096, 0, 4096, 4096⟩ := by
      have h : some (⟨1, 7, 4096, 0, 4096, 4096⟩ : proghdr) = some ph := hget
      exact (Option.some.inj h).symm
    subst this
    decide
  · simp [demo_inode, hi] at hget

/-! ## The resident budget -/

/-- A normal end of the heap branch leaves the counter within the budget when it was within
the budget before. -/
theorem heap_handle_counter {c : Params} {o : Oracle} {s s' : State} {f : Nat} {fd : Bool}
    {index : Int} (h0 : 0 ≤ s.resident_heap_pages)
    (h1 : s.resident_heap_pages ≤ c.MAXRESHEAP)
    (h : heap_handle c o s f fd index = .ok s') :
    0 ≤ s'.resident_heap_pages ∧ s'.resident_heap_pages ≤ c.MAXRESHEAP := by
  obtain ⟨s1, s3, i, e, hev, hret, -, -, hs'⟩ := heap_handle_ok_elim h
  have hc1 : (s.resident_heap_pages = c.MAXRESHEAP ∧
        s1.resident_heap_pages = s.resident_heap_pages - 1) ∨
      (s.resident_heap_pages ≠ c.MAXRESHEAP ∧ s1.resident_heap_pages = s.resident_heap_pages) := by
    by_cases hb : s.resident_heap_pages = c.MAXRESHEAP
    · left
      rw [if_pos hb] at hev
      obtain ⟨b, iv, v, -, -, -, -, -, hs1⟩ := evict_ok_elim hev
      exact ⟨hb, by rw [hs1]⟩
    · right
      rw [if_neg hb] at hev
      injection hev with hev
      exact ⟨hb, by rw [← hev]⟩
  have hc3 : s3.resident_heap_pages = s1.resident_heap_pages := by
    cases fd with
    | true =>
      simp only [if_true] at hret
      obtain ⟨j, b, e', -, -, -, -, -, hs3⟩ := retrieve_ok_elim hret
      rw [hs3]
    | false =>
      simp only [Bool.false_eq_true, if_false] at hret
      injection hret with hret
      rw [← hret]
  have hc' : s'.resident_heap_pages = s3.resident_heap_pages + 1 := by rw [hs']
  omega

/-- Any normal end of `page_fault_handler` leaves the counter within the budget when it was
within the budget before. -/
theorem page_fault_handler_counter {c : Params} {o : Oracle} {s s' : State}
    (h0 : 0 ≤ s.resident_heap_pages) (h1 : s.resident_heap_pages ≤ c.MAXRESHEAP)
    (h : page_fault_handler c o s = .ok s') :
    0 ≤ s'.resident_heap_pages ∧ s'.resident_heap_pages ≤ c.MAXRESHEAP := by
  rcases page_fault_handler_ok_elim h with ⟨-, -, hs'⟩ | ⟨-, -, pt, hs'⟩ | ⟨-, i, e, -, -, -, hh⟩
  · rw [hs']; exact ⟨h0, h1⟩
  · rw [hs']; exact ⟨h0, h1⟩
  · exact heap_handle_counter h0 h1 hh

/-- C4: resident budget invariant. From a state with `0 <= resident_heap_pages <= MAXRESHEAP`,
every normal end of the heap branch of `page_fault_handler` (which evicts first when the
counter equals `MAXRESHEAP`) leaves the counter in `[0, MAXRESHEAP]`, and so does every
sequence of faults handled by `page_fault_handler`. -/
theorem resident_budget_invariant (c : Params) (s : State)
    (h0 : 0 ≤ s.resident_heap_pages) (h1 : s.resident_heap_pages ≤ c.MAXRESHEAP) :
    (∀ (o : Oracle) (f : Nat) (fd : Bool) (index : Int) (s' : State),
      heap_handle c o s f fd index = .ok s' →
        0 ≤ s'.resident_heap_pages ∧ s'.resident_heap_pages ≤ c.MAXRESHEAP) ∧
    (∀ (os : List Oracle) (s' : State), handle_faults c s os = .ok s' →
      0 ≤ s'.resident_heap_pages ∧ s'.resident_heap_pages ≤ c.MAXRESHEAP) := by
  refine ⟨fun o f fd index s' h => heap_handle_counter h0 h1 h, ?_⟩
  intro os
  induction os generalizing s with
  | nil =>
    intro s' h
    simp only [handle_faults] at h
    injection h with h
    rw [← h]
    exact ⟨h0, h1⟩
  | cons o os ih =>
    intro s' h
    simp only [handle_faults] at h
    obtain ⟨s1, hstep, hrest⟩ := andThen_ok_elim h
    obtain ⟨g0, g1⟩ := page_fault_handler_counter h0 h1 hstep
    exact ih s1 g0 g1 s' hrest

/-- Witness for C4: `demo_state` is at its budget of 2; the fault on the evicted page 8192
evicts page 0, reloads page 8192 and ends with the counter at 2 again, also when the fault on
page 0 that follows is handled as well. -/
theorem resident_budget_invariant_witness :
    (∃ s', heap_handle demo_params demo_oracle demo_state 8192 true 2 = .ok s' ∧
      0 ≤ s'.resident_heap_pages ∧ s'.resident_heap_pages ≤ demo_params.MAXRESHEAP) ∧
    (∃ s', handle_faults demo_params demo_state
        [demo_oracle, { demo_oracle with stval := 100 }] = .ok s' ∧
      0 ≤ s'.resident_heap_pages ∧ s'.resident_heap_pages ≤ demo_params.MAXRESHEAP) :=
  ⟨⟨_, rfl, (resident_budget_invariant demo_params demo_state (by decide) (by decide)).1
      demo_oracle 8192 true 2 _ rfl⟩,
    ⟨_, rfl, (resident_budget_invariant demo_params demo_state (by decide) (by decide)).2
      [demo_oracle, { demo_oracle with stval := 100 }] _ rfl⟩⟩

/-! ## Reachable states of the run from boot -/

/-- A way to show that an address is tracked once: compare it with the address at every
position of the tracker. -/
theorem tracked_at_intro {ht : List heap_tracker_t} {f i : Nat} {e : heap_tracker_t}
    (h1 : ht[i]? = some e) (h2 : e.addr = f) (h3 : e.loaded = false)
    (h4 : ∀ j < ht.length, (ht.getD j default).addr = f → j = i) : tracked_at ht f i e := by
  refine ⟨h1, h2, h3, ?_⟩
  intro j e' hj ha
  have hjlt : j < ht.length := by
    by_contra hcon
    rw [List.getElem?_eq_none (by omega)] at hj
    exact Option.noConfusion hj
  apply h4 j hjlt
  rw [List.getD_eq_getElem?_getD, hj]
  exact ha

/-- From boot, the faults on pages 0 and 4096 are admissible and lead to a reachable state:
page 0 is evicted to blocks 0..3 when page 4096 is loaded. -/
theorem boot_run_two_reachable :
    Reachable boot_params (boot_run [fault_at 0 1, fault_at 4096 2]) := by
  have h0 : Reachable boot_params boot_state := Reachable.init boot_state (by decide)
  have h1 : Reachable boot_params (boot_run [fault_at 0 1]) :=
    Reachable.fault (fault_at 0 1) _ _ h0
      (Or.inr (Or.inr ⟨0, ⟨0, 0, -1, false⟩, tracked_at_intro rfl rfl rfl (by decide)⟩)) rfl
  exact Reachable.fault (fault_at 4096 2) _ _ h1
    (Or.inr (Or.inr ⟨1, ⟨4096, 0, -1, false⟩, tracked_at_intro rfl rfl rfl (by decide)⟩)) rfl

/-- The fault on page 8192 that follows is admissible too: page 4096 is evicted to blocks
4..7. -/
theorem boot_run_three_reachable :
    Reachable boot_params (boot_run [fault_at 0 1, fault_at 4096 2, fault_at 8192 3]) :=
  Reachable.fault (fault_at 8192 3) _ _ boot_run_two_reachable
    (Or.inr (Or.inr ⟨2, ⟨8192, 0, -1, false⟩, tracked_at_intro rfl rfl rfl (by decide)⟩)) rfl

/-- The fault on page 0 that follows is admissible too: page 8192 is evicted and page 0 is
read back from its slot. -/
theorem boot_run_four_reachable :
    Reachable boot_params
      (boot_run [fault_at 0 1, fault_at 4096 2, fault_at 8192 3, fault_at 0 4]) :=
  Reachable.fault (fault_at 0 4) _ _ boot_run_three_reachable
    (Or.inr (Or.inr ⟨0, ⟨0, 1, 0, false⟩, tracked_at_intro rfl rfl rfl (by decide)⟩)) rfl

/-! ## Swap slots of evicted pages are disjoint and marked used -/

/-- Swap slots are not double-assigned as long as heap faults are on entries that are not
loaded: in every state reachable from boot through `evict_page_to_disk` and faults handled by
`page_fault_handler`, heap faults being on an address tracked once by an entry that is not
loaded, any two distinct tracker entries that are evicted (`loaded == false` and
`startblock != -1`) have disjoint block ranges `[startblock, startblock+3]`. -/
theorem swap_slots_disjoint (c : Params) (s : State) (h : Reachable c s) (i j : Nat)
    (ei ej : heap_tracker_t) (hij : i ≠ j) (hi : s.heap_tracker[i]? = some ei)
    (hj : s.heap_tracker[j]? = some ej) (hei : evicted ei) (hej : evicted ej) :
    ei.startblock + 3 < ej.startblock ∨ ej.startblock + 3 < ei.startblock := by
  obtain ⟨hused, hdiff⟩ := slot_inv_reachable h
  obtain ⟨bi, hbi, hbi4, -⟩ := hused i ei hi hei
  obtain ⟨bj, hbj, hbj4, -⟩ := hused j ej hj hej
  have hne := hdiff i j ei ej hij hi hj hei hej
  rw [hbi, hbj] at hne ⊢
  have : bi ≠ bj := fun hcon => hne (by rw [hcon])
  omega

/-- After the faults on pages 0, 4096 and 8192 from boot (budget 1), pages 0 and 4096 are
evicted, to the blocks 0..3 and 4..7. -/
theorem swap_slots_disjoint_witness :
    Reachable boot_params (boot_run [fault_at 0 1, fault_at 4096 2, fault_at 8192 3]) ∧
    (boot_run [fault_at 0 1, fault_at 4096 2, fault_at 8192 3]).heap_tracker[0]?
      = some ⟨0, 1, 0, false⟩ ∧
    (boot_run [fault_at 0 1, fault_at 4096 2, fault_at 8192 3]).heap_tracker[1]?
      = some ⟨4096, 2, 4, false⟩ ∧
    ((0 : Int) + 3 < 4 ∨ (4 : Int) + 3 < 0) :=
  ⟨boot_run_three_reachable, rfl, rfl,
    swap_slots_disjoint boot_params
      (boot_run [fault_at 0 1, fault_at 4096 2, fault_at 8192 3]) boot_run_three_reachable 0 1
      ⟨0, 1, 0, false⟩ ⟨4096, 2, 4, false⟩ (by decide) rfl rfl (by decide) (by decide)⟩

/-- C6 as stated fails. After the faults on pages 0, 4096, 8192 and 0 again (a reachable
state), page 0 has been read back from blocks 0..3: its entry is loaded and still has
`startblock == 0`, while the blocks 0..3 are free in the bitmap. And
`retrieve_page_from_disk` called on its own for the evicted page 0, in the reachable state
after the faults on pages 0 and 4096, frees the blocks 0..3 and leaves the entry evicted with
`startblock == 0`. -/
theorem startblock_kept_after_retrieval :
    (Reachable boot_params
        (boot_run [fault_at 0 1, fault_at 4096 2, fault_at 8192 3, fault_at 0 4]) ∧
      (boot_run [fault_at 0 1, fault_at 4096 2, fault_at 8192 3, fault_at 0 4]).heap_tracker[0]?
        = some ⟨0, 4, 0, true⟩ ∧
      group_free
        (boot_run [fault_at 0 1, fault_at 4096 2, fault_at 8192 3, fault_at 0 4]).psa_tracker
        0) ∧
    (Reachable boot_params (boot_run [fault_at 0 1, fault_at 4096 2]) ∧
      ∃ s', retrieve_page_from_disk boot_params (fault_at 0 3)
          (boot_run [fault_at 0 1, fault_at 4096 2]) 0 = .ok s' ∧
        s'.heap_tracker[0]? = some ⟨0, 1, 0, false⟩ ∧ group_free s'.psa_tracker 0) :=
  ⟨⟨boot_run_four_reachable, rfl, by decide⟩,
    ⟨boot_run_two_reachable, _, rfl, rfl, by decide⟩⟩

/-- C6, amended: in every state reachable from boot through `evict_page_to_disk` and
`page_fault_handler`, which calls `retrieve_page_from_disk` (heap faults being on an address
tracked once by an entry that is not loaded), every tracker entry that is evicted
(`loaded == false` and `startblock != -1`) has all four blocks
`psa_tracker[startblock .. startblock+3]` marked used. -/
theorem evicted_slots_marked_used (c : Params) (s : State) (h : Reachable c s)
    (e : heap_tracker_t) (he : e ∈ s.heap_tracker) (hev : evicted e) :
    ∃ b : Nat, e.startblock = (b : Int) ∧ group_used s.psa_tracker b := by
  obtain ⟨i, hi⟩ := List.getElem?_of_mem he
  obtain ⟨b, hb, -, hused⟩ := (slot_inv_reachable h).1 i e hi hev
  exact ⟨b, hb, hused⟩

/-- Witness for C6: after the four faults from boot, page 4096 is evicted to blocks 4..7, which
are marked used. -/
theorem evicted_slots_marked_used_witness :
    Reachable boot_params
      (boot_run [fault_at 0 1, fault_at 4096 2, fault_at 8192 3, fault_at 0 4]) ∧
    (boot_run [fault_at 0 1, fault_at 4096 2, fault_at 8192 3, fault_at 0 4]).heap_tracker[1]?
      = some ⟨4096, 2, 4, false⟩ ∧
    ∃ b : Nat, ((4 : Int) = (b : Int)) ∧
      group_used
        (boot_run [fault_at 0 1, fault_at 4096 2, fault_at 8192 3, fault_at 0 4]).psa_tracker b :=
  ⟨boot_run_four_reachable, rfl,
    evicted_slots_marked_used boot_params
      (boot_run [fault_at 0 1, fault_at 4096 2, fault_at 8192 3, fault_at 0 4])
      boot_run_four_reachable ⟨4096, 2, 4, false⟩ (by decide) (by decide)⟩

/-! ## Residency and mapping -/

/-- C8 fails on the code: from boot, the fault on page 0 during which `uvmalloc` finds no
memory ends normally (the test `uvmalloc(...) < 0` of line 270 is false for the unsigned
result 0) in a reachable state whose entry for page 0 is loaded while nothing is mapped at
address 0. -/
theorem loaded_entry_not_mapped :
    Reachable boot_params (boot_run [fault_without_memory]) ∧
    (boot_run [fault_without_memory]).heap_tracker[0]? = some ⟨0, 1, -1, true⟩ ∧
    (boot_run [fault_without_memory]).pagetable 0 = none :=
  ⟨Reachable.fault fault_without_memory boot_state _ (Reachable.init boot_state (by decide))
      (Or.inr (Or.inr ⟨0, ⟨0, 0, -1, false⟩, tracked_at_intro rfl rfl rfl (by decide)⟩)) rfl,
    rfl, rfl⟩

/-- The same defect on a swapped page: in `demo_state` page 8192 is evicted to blocks 0..3;
when `uvmalloc` finds no memory during the fault on it, the handler still ends normally, the
blocks 0..3 are freed, the entry is marked loaded and nothing is mapped at 8192. The
hypothesis that `uvmalloc` maps the page cannot be dropped from the theorems on heap
contents. -/
theorem swapped_page_lost_without_memory :
    ∃ s', page_fault_handler demo_params { demo_oracle with uvmalloc_ok := false } demo_state
        = .ok s' ∧
      s'.heap_tracker[2]? = some ⟨8192, 100, 0, true⟩ ∧ s'.pagetable 8192 = none ∧
      group_free s'.psa_tracker 0 :=
  ⟨_, rfl, rfl, rfl, by decide⟩

/-! ## Heap contents survive eviction and reload -/

/-- The staging buffer filled by the four block reads holds the content of the swap slot. -/
theorem read_blocks_eq_swap_content (c : Params) (disk : Nat → Page) (b : Nat) (junk : Page)
    (j : Nat) (hj : j < PGSIZE) :
    (List.range 4).foldl (read_block c disk b) junk j = swap_content c disk b j := by
  rw [read_blocks_apply, if_pos hj]
  rfl

/-- A swap slot other than the one written by an eviction keeps its content. -/
theorem swap_content_write_other (c : Params) (buf : Page) (b b' : Nat) (disk : Nat → Page)
    (hb : b % 4 = 0) (hb' : b' % 4 = 0) (hne : b' ≠ b) (j : Nat) (hj : j < PGSIZE) :
    swap_content c ((List.range 4).foldl (write_block c buf b) disk) b' j
      = swap_content c disk b' j := by
  unfold swap_content
  rw [write_blocks_apply]
  have hq : j / BSIZE < 4 := by
    have h4 : j < 4096 := hj
    show j / 1024 < 4
    omega
  generalize j / BSIZE = q at hq ⊢
  have : ¬ (c.PSASTART + b ≤ c.PSASTART + (b' + q) ∧
      c.PSASTART + (b' + q) < c.PSASTART + b + 4 ∧ j % BSIZE < BSIZE) := by omega
  rw [if_neg this]

/-- The swap slot written by an eviction holds the first `PGSIZE` bytes of the buffer. -/
theorem swap_content_write_self (c : Params) (buf : Page) (b : Nat) (disk : Nat → Page)
    (j : Nat) (hj : j < PGSIZE) :
    swap_content c ((List.range 4).foldl (write_block c buf b) disk) b j = buf j := by
  rw [← read_blocks_eq_swap_content c _ b buf j hj]
  exact read_after_write c buf buf b disk _ (fun _ _ => rfl) j hj

/-- Mapping one page at a page-aligned address leaves every other address as it is. -/
theorem uvmalloc_other (pt : Nat → Option Page) (f a : Nat) (ok : Bool)
    (hf : f % PGSIZE = 0) (hne : a ≠ f) : (uvmalloc pt f (add64 f PGSIZE) ok).1 a = pt a := by
  unfold uvmalloc
  cases ok with
  | false => rfl
  | true =>
    simp only [if_true]
    have hle : add64 f PGSIZE ≤ f + PGSIZE := Nat.mod_le _ _
    have : ¬ (f ≤ a ∧ a < add64 f PGSIZE ∧ a % PGSIZE = 0) := by
      rintro ⟨h1, h2, h3⟩
      have h4 : a < f + PGSIZE := lt_of_lt_of_le h2 hle
      simp only [PGSIZE] at hf h3 h4
      omega
    rw [if_neg this]

/-- Mapping one page at a page-aligned address below `2^64 - PGSIZE`, with memory available,
maps that address. -/
theorem uvmalloc_self (pt : Nat → Option Page) (f : Nat) (hf : f % PGSIZE = 0)
    (hlt : f + PGSIZE < 2 ^ 64) :
    (uvmalloc pt f (add64 f PGSIZE) true).1 f = some (fun _ => 0) := by
  unfold uvmalloc
  simp only [if_true]
  have hadd : add64 f PGSIZE = f + PGSIZE := Nat.mod_eq_of_lt hlt
  have : f ≤ f ∧ f < add64 f PGSIZE ∧ f % PGSIZE = 0 :=
    ⟨le_refl f, by rw [hadd]; simp [PGSIZE], hf⟩
  rw [if_pos this]

/-- The address computed by `PGROUNDDOWN` is a multiple of `PGSIZE`. -/
theorem PGROUNDDOWN_aligned (a : Nat) : PGROUNDDOWN a % PGSIZE = 0 := by
  unfold PGROUNDDOWN
  have h := Nat.div_add_mod a PGSIZE
  have : a - a % PGSIZE = PGSIZE * (a / PGSIZE) := by omega
  rw [this]
  exact Nat.mul_mod_right _ _

/-- The copy to the page at `f` leaves every other address as it is. -/
theorem copyout_other (pt : Nat → Option Page) (f a : Nat) (buf : Page) (hne : a ≠ f) :
    copyout pt f buf a = pt a := by
  unfold copyout
  cases pt f with
  | none => rfl
  | some pg => simp [hne]

/-- The copy to a mapped page at `f` leaves it mapped, with the first `PGSIZE` bytes of the
buffer. -/
theorem copyout_self (pt : Nat → Option Page) (f : Nat) (buf Q : Page) (hQ : pt f = some Q) :
    ∃ P', copyout pt f buf f = some P' ∧ same_page P' buf := by
  refine ⟨fun j => if j < PGSIZE then buf j else Q j, ?_, ?_⟩
  · simp [copyout, hQ]
  · intro j hj
    simp [hj]

/-- Having the same bytes is transitive. -/
theorem same_page_trans {P Q R : Page} (h1 : same_page P Q) (h2 : same_page Q R) :
    same_page P R := fun j hj => (h1 j hj).trans (h2 j hj)

/-- Keeping the logical contents is transitive. -/
theorem content_kept_trans {c : Params} {s s1 s2 : State} (h1 : content_kept c s s1)
    (h2 : content_kept c s1 s2) : content_kept c s s2 := by
  intro k e P hk hP
  obtain ⟨e1, P1, hk1, ha1, hP1, hs1⟩ := h1 k e P hk hP
  obtain ⟨e2, P2, hk2, ha2, hP2, hs2⟩ := h2 k e1 P1 hk1 hP1
  exact ⟨e2, P2, hk2, ha2.trans ha1, hP2, same_page_trans hs2 hs1⟩

/-- The logical content of a loaded entry is the page mapped at its address. -/
theorem logical_content_loaded (c : Params) (s : State) {e : heap_tracker_t}
    (hl : e.loaded = true) : logical_content c s e = s.pagetable e.addr := by
  simp only [logical_content, hl, if_true]

/-- The logical content of an evicted entry is the content of its swap slot. -/
theorem logical_content_evicted (c : Params) (s : State) {e : heap_tracker_t} {b : Nat}
    (hl : e.loaded = false) (hb : e.startblock = (b : Int)) :
    logical_content c s e = some (swap_content c s.disk b) := by
  have hne : ((b : Nat) : Int) ≠ -1 := by omega
  simp only [logical_content, hl, Bool.false_eq_true, if_false, hb, ne_eq, hne,
    not_false_eq_true, if_true, Int.toNat_ofNat]

/-- A normal end of `evict_page_to_disk` keeps the logical contents: the victim's page is now
in its swap slot, the other loaded pages are still mapped and the other swap slots are not
written. -/
theorem content_kept_evict {c : Params} {o : Oracle} {s s' : State} (hinv : slot_inv s)
    (hdist : loaded_distinct s) (h : evict_page_to_disk c o s = .ok s') :
    content_kept c s s' := by
  obtain ⟨b, iv, v, hb, hlen, -, hv, hvl, hs'⟩ := evict_ok_elim h
  obtain ⟨hb4, hbfree⟩ := find_free_block_some hb
  have hivlt : iv < s.heap_tracker.length := by
    by_contra hcon
    rw [List.getElem?_eq_none (by omega)] at hv
    exact Option.noConfusion hv
  subst hs'
  intro k e P hk hP
  by_cases hkv : iv = k
  · subst hkv
    rw [hv] at hk
    have := Option.some.inj hk
    subst this
    refine ⟨{ v with startblock := (b : Int), loaded := false },
      swap_content c
        ((List.range 4).foldl (write_block c (copyin s.pagetable o.junk v.addr) b) s.disk) b,
      ?_, rfl, ?_, ?_⟩
    · simp only
      exact List.getElem?_set_self hivlt
    · exact logical_content_evicted c _ rfl rfl
    · intro j hj
      rw [swap_content_write_self c _ b s.disk j hj]
      rw [logical_content_loaded c s hvl] at hP
      simp [copyin, hP, hj]
  · refine ⟨e, ?_⟩
    by_cases hl : e.loaded = true
    · have hne : e.addr ≠ v.addr := hdist k iv e v (Ne.symm hkv) hk hv hl hvl
      refine ⟨P, ?_, rfl, ?_, fun _ _ => rfl⟩
      · simp only
        rw [List.getElem?_set_ne hkv]
        exact hk
      · rw [logical_content_loaded c s hl] at hP
        rw [logical_content_loaded c _ hl]
        simp only [uvmunmap, hne, if_false]
        exact hP
    · have hl' : e.loaded = false := by simpa using hl
      by_cases hsb : e.startblock = -1
      · simp [logical_content, hl', hsb] at hP
      · obtain ⟨b', hb', hb'4, hused⟩ := hinv.1 k e hk ⟨hl', hsb⟩
        have hbne : b' ≠ b := by
          intro hcon
          subst hcon
          have := hused 0 (by omega)
          simp only [Nat.add_zero] at this
          rw [hbfree] at this
          exact Bool.noConfusion (Option.some.inj this)
        refine ⟨swap_content c
          ((List.range 4).foldl (write_block c (copyin s.pagetable o.junk v.addr) b) s.disk) b',
          ?_, rfl, ?_, ?_⟩
        · simp only
          rw [List.getElem?_set_ne hkv]
          exact hk
        · exact logical_content_evicted c _ hl' hb'
        · intro j hj
          rw [swap_content_write_other c _ b b' s.disk hb4 hb'4 hbne j hj]
          rw [logical_content_evicted c s hl' hb'] at hP
          rw [← Option.some.inj hP]

/-- The part of the heap branch after the eviction keeps the logical contents when `uvmalloc`
maps the page: the faulting page receives the content of its swap slot, the other mapped pages
and the other swap slots are not written. -/
theorem content_kept_reload {c : Params} {o : Oracle} {s1 s' : State} {f i : Nat}
    {e : heap_tracker_t} (hpre : tracked_at s1.heap_tracker f i e) (hf : f % PGSIZE = 0)
    (hok : o.uvmalloc_ok = true) (hlt : f + PGSIZE < 2 ^ 64)
    (hshape : (e.startblock = -1 ∧
          s' = { s1 with
            pagetable := (uvmalloc s1.pagetable f (add64 f PGSIZE) o.uvmalloc_ok).1
            heap_tracker := s1.heap_tracker.set i
              { e with last_load_time := o.ticks_load, loaded := true }
            resident_heap_pages := s1.resident_heap_pages + 1 }) ∨
        (∃ b : Nat, e.startblock = (b : Int) ∧ b + 3 < s1.psa_tracker.length ∧
          s' = { s1 with
            psa_tracker := mark_free s1.psa_tracker b
            pagetable := copyout (uvmalloc s1.pagetable f (add64 f PGSIZE) o.uvmalloc_ok).1 f
              ((List.range 4).foldl (read_block c s1.disk b) o.junk)
            heap_tracker := s1.heap_tracker.set i
              { e with last_load_time := o.ticks_load, loaded := true }
            resident_heap_pages := s1.resident_heap_pages + 1 })) :
    content_kept c s1 s' := by
  obtain ⟨hi, ha, hl, huniq⟩ := hpre
  have hilt : i < s1.heap_tracker.length := by
    by_contra hcon
    rw [List.getElem?_eq_none (by omega)] at hi
    exact Option.noConfusion hi
  -- entries other than the faulting one keep their content
  have hother : ∀ (pt : Nat → Option Page) (psa : List Bool) (n : Int),
      (∀ a, a ≠ f → pt a = s1.pagetable a) →
      ∀ (k : Nat) (ek : heap_tracker_t) (P : Page), i ≠ k → s1.heap_tracker[k]? = some ek →
        logical_content c s1 ek = some P →
        ∃ (e' : heap_tracker_t) (P' : Page),
          ({ s1 with
              psa_tracker := psa
              pagetable := pt
              heap_tracker := s1.heap_tracker.set i
                { e with last_load_time := o.ticks_load, loaded := true }
              resident_heap_pages := n } : State).heap_tracker[k]? = some e' ∧
          e'.addr = ek.addr ∧
          logical_content c { s1 with
              psa_tracker := psa
              pagetable := pt
              heap_tracker := s1.heap_tracker.set i
                { e with last_load_time := o.ticks_load, loaded := true }
              resident_heap_pages := n } e' = some P' ∧ same_page P' P := by
    intro pt psa n hpt k ek P hik hk hP
    refine ⟨ek, P, ?_, rfl, ?_, fun _ _ => rfl⟩
    · simp only
      rw [List.getElem?_set_ne hik]
      exact hk
    · by_cases hlk : ek.loaded = true
      · rw [logical_content_loaded c s1 hlk] at hP
        rw [logical_content_loaded c _ hlk]
        have hne : ek.addr ≠ f := fun hcon => hik (huniq k ek hk hcon).symm
        simp only
        rw [hpt ek.addr hne]
        exact hP
      · have hlk' : ek.loaded = false := by simpa using hlk
        simp only [logical_content, hlk', Bool.false_eq_true, if_false] at hP ⊢
        exact hP
  rcases hshape with ⟨hsb, hs'⟩ | ⟨b, hb, -, hs'⟩
  · subst hs'
    intro k ek P hk hP
    by_cases hik : i = k
    · subst hik
      rw [hi] at hk
      have := Option.some.inj hk
      subst this
      simp [logical_content, hl, hsb] at hP
    · exact hother _ s1.psa_tracker _ (fun a hne => uvmalloc_other _ f a _ hf hne) k ek P hik hk hP
  · subst hs'
    intro k ek P hk hP
    by_cases hik : i = k
    · subst hik
      rw [hi] at hk
      have := Option.some.inj hk
      subst this
      rw [logical_content_evicted c s1 hl hb] at hP
      have hP' := Option.some.inj hP
      subst hP'
      have hmapped : (uvmalloc s1.pagetable f (add64 f PGSIZE) o.uvmalloc_ok).1 f
          = some (fun _ => 0) := by
        rw [hok]
        exact uvmalloc_self _ f hf hlt
      obtain ⟨P', hP', hsame⟩ := copyout_self _ f
        ((List.range 4).foldl (read_block c s1.disk b) o.junk) _ hmapped
      refine ⟨{ e with last_load_time := o.ticks_load, loaded := true }, P', ?_, rfl, ?_, ?_⟩
      · simp only
        exact List.getElem?_set_self hilt
      · rw [logical_content_loaded c _ rfl]
        simp only
        rw [ha]
        exact hP'
      · intro j hj
        rw [hsame j hj]
        exact read_blocks_eq_swap_content c s1.disk b o.junk j hj
    · exact hother _ _ _
        (fun a hne => by rw [copyout_other _ f a _ hne]; exact uvmalloc_other _ f a _ hf hne)
        k ek P hik hk hP

/-- The heap branch keeps the logical contents: for a fault on a page-aligned address tracked
once by an entry `e` that is not loaded, in a state that satisfies the slot invariant and whose
loaded entries have different addresses, with `uvmalloc` mapping the page, a normal end leaves
the logical content of every tracked page that had one unchanged; and if `e` records a swap
slot `b`, the page mapped at the address afterwards has the bytes that slot held before. -/
theorem content_kept_heap_fault {c : Params} {o : Oracle} {s s' : State} {f i : Nat}
    {e : heap_tracker_t} (hinv : slot_inv s) (hdist : loaded_distinct s)
    (hpre : tracked_at s.heap_tracker f i e) (hf : f % PGSIZE = 0)
    (hok : o.uvmalloc_ok = true) (hlt : f + PGSIZE < 2 ^ 64)
    (h : heap_handle c o s f (load_from_disk f s.heap_tracker) (i : Int) = .ok s') :
    content_kept c s s' ∧
    ∀ b : Nat, e.startblock = (b : Int) →
      ∃ P', s'.pagetable f = some P' ∧ same_page P' (swap_content c s.disk b) := by
  obtain ⟨s1, hstep, hpre1, hshape⟩ := heap_fault_shape hpre h
  have h01 : content_kept c s s1 := by
    rcases hstep with ⟨-, hev⟩ | ⟨-, rfl⟩
    · exact content_kept_evict hinv hdist hev
    · intro k ek P hk hP
      exact ⟨ek, P, hk, rfl, hP, fun _ _ => rfl⟩
  have h1' : content_kept c s1 s' := content_kept_reload hpre1 hf hok hlt hshape
  have hkept := content_kept_trans h01 h1'
  refine ⟨hkept, ?_⟩
  intro b hb
  obtain ⟨hi, ha, hl, -⟩ := hpre
  obtain ⟨e', P', hi', -, hP', hsame⟩ :=
    hkept i e _ hi (logical_content_evicted c s hl hb)
  have hilt : i < s1.heap_tracker.length := by
    by_contra hcon
    have := hpre1.1
    rw [List.getElem?_eq_none (by omega)] at this
    exact Option.noConfusion this
  have he' : e' = { e with last_load_time := o.ticks_load, loaded := true } := by
    rcases hshape with ⟨-, hs'⟩ | ⟨b', -, -, hs'⟩
    · subst hs'
      simp only at hi'
      rw [List.getElem?_set_self hilt] at hi'
      exact (Option.some.inj hi').symm
    · subst hs'
      simp only at hi'
      rw [List.getElem?_set_self hilt] at hi'
      exact (Option.some.inj hi').symm
  subst he'
  rw [logical_content_loaded c s' rfl] at hP'
  simp only at hP'
  rw [ha] at hP'
  exact ⟨P', hP', hsame⟩

/-! ## The tracker/bitmap invariants are kept by heap faults -/

/-- The heap branch keeps the tracker/bitmap invariants, the address of every entry and the
length of the tracker, for a fault on a page-aligned address tracked once by an entry that is
not loaded, with `uvmalloc` mapping the page. -/
theorem mem_inv_heap_fault {c : Params} {o : Oracle} {s s' : State} {f i : Nat}
    {e : heap_tracker_t} (hinv : mem_inv s) (hpre : tracked_at s.heap_tracker f i e)
    (hf : f % PGSIZE = 0) (hok : o.uvmalloc_ok = true) (hlt : f + PGSIZE < 2 ^ 64)
    (h : heap_handle c o s f (load_from_disk f s.heap_tracker) (i : Int) = .ok s') :
    mem_inv s' ∧ s'.cow_enabled = s.cow_enabled ∧
    ∀ k : Nat, (s'.heap_tracker[k]?).map (fun x => x.addr) = (s.heap_tracker[k]?).map (fun x => x.addr) := by
  obtain ⟨hslot, hdist, hres⟩ := hinv
  have hslot' := slot_inv_heap_fault hslot hpre h
  obtain ⟨s1, hstep, hpre1, hshape⟩ := heap_fault_shape hpre h
  -- the state after the eviction
  have h1 : loaded_distinct s1 ∧ resident_iff_mapped s1 ∧ s1.cow_enabled = s.cow_enabled ∧
      ∀ k : Nat, (s1.heap_tracker[k]?).map (fun x => x.addr) = (s.heap_tracker[k]?).map (fun x => x.addr) := by
    rcases hstep with ⟨-, hev⟩ | ⟨-, rfl⟩
    · obtain ⟨b, iv, v, -, -, -, hv, hvl, hs1⟩ := evict_ok_elim hev
      have hivlt : iv < s.heap_tracker.length := by
        by_contra hcon
        rw [List.getElem?_eq_none (by omega)] at hv
        exact Option.noConfusion hv
      subst hs1
      refine ⟨?_, ?_, rfl, ?_⟩
      · intro j k ej ek hjk hj hk hlj hlk
        simp only at hj hk
        by_cases hjv : iv = j
        · subst hjv
          rw [List.getElem?_set_self hivlt] at hj
          rw [← Option.some.inj hj] at hlj
          exact Bool.noConfusion hlj
        · by_cases hkv : iv = k
          · subst hkv
            rw [List.getElem?_set_self hivlt] at hk
            rw [← Option.some.inj hk] at hlk
            exact Bool.noConfusion hlk
          · rw [List.getElem?_set_ne hjv] at hj
            rw [List.getElem?_set_ne hkv] at hk
            exact hdist j k ej ek hjk hj hk hlj hlk
      · intro ek hek
        obtain ⟨k, hk⟩ := List.getElem?_of_mem hek
        simp only at hk ⊢
        by_cases hkv : iv = k
        · subst hkv
          rw [List.getElem?_set_self hivlt] at hk
          rw [← Option.some.inj hk]
          simp [uvmunmap]
        · rw [List.getElem?_set_ne hkv] at hk
          have hmem := List.getElem?_mem hk
          by_cases hlk : ek.loaded = true
          · have hne : ek.addr ≠ v.addr := hdist k iv ek v (Ne.symm hkv) hk hv hlk hvl
            simp only [uvmunmap, hne, if_false]
            exact hres ek hmem
          · constructor
            · intro hcon; exact absurd hcon hlk
            · rintro ⟨P, hP⟩
              simp only [uvmunmap] at hP
              split_ifs at hP
              exact (hres ek hmem).mpr ⟨P, hP⟩
      · intro k
        simp only
        by_cases hkv : iv = k
        · subst hkv
          rw [List.getElem?_set_self hivlt, hv]
          rfl
        · rw [List.getElem?_set_ne hkv]
    · exact ⟨hdist, hres, rfl, fun _ => rfl⟩
  obtain ⟨hdist1, hres1, hcow1, haddr1⟩ := h1
  obtain ⟨hi, ha, hl, huniq⟩ := hpre1
  have hilt : i < s1.heap_tracker.length := by
    by_contra hcon
    rw [List.getElem?_eq_none (by omega)] at hi
    exact Option.noConfusion hi
  have hmapped : (uvmalloc s1.pagetable f (add64 f PGSIZE) o.uvmalloc_ok).1 f
      = some (fun _ => 0) := by
    rw [hok]
    exact uvmalloc_self _ f hf hlt
  -- the three facts for any page table that maps `f` and agrees with `s1` elsewhere
  have hrest : ∀ (pt : Nat → Option Page) (psa : List Bool) (n : Int),
      (∃ Q, pt f = some Q) → (∀ a, a ≠ f → pt a = s1.pagetable a) →
      loaded_distinct { s1 with
          psa_tracker := psa
          pagetable := pt
          heap_tracker := s1.heap_tracker.set i
            { e with last_load_time := o.ticks_load, loaded := true }
          resident_heap_pages := n } ∧
      resident_iff_mapped { s1 with
          psa_tracker := psa
          pagetable := pt
          heap_tracker := s1.heap_tracker.set i
            { e with last_load_time := o.ticks_load, loaded := true }
          resident_heap_pages := n } := by
    intro pt psa n hptf hpt
    refine ⟨?_, ?_⟩
    · intro j k ej ek hjk hj hk hlj hlk
      simp only at hj hk
      by_cases hji : i = j
      · subst hji
        rw [List.getElem?_set_self hilt] at hj
        rw [← Option.some.inj hj]
        rw [List.getElem?_set_ne hjk] at hk
        simp only
        intro hcon
        exact hjk (huniq k ek hk (by rw [← hcon, ha])).symm
      · rw [List.getElem?_set_ne hji] at hj
        by_cases hki : i = k
        · subst hki
          rw [List.getElem?_set_self hilt] at hk
          rw [← Option.some.inj hk]
          simp only
          intro hcon
          exact hji (huniq j ej hj (by rw [hcon, ha])).symm
        · rw [List.getElem?_set_ne hki] at hk
          exact hdist1 j k ej ek hjk hj hk hlj hlk
    · intro ek hek
      obtain ⟨k, hk⟩ := List.getElem?_of_mem hek
      simp only at hk ⊢
      by_cases hki : i = k
      · subst hki
        rw [List.getElem?_set_self hilt] at hk
        rw [← Option.some.inj hk]
        simp only [true_iff]
        rw [ha]
        exact hptf
      · rw [List.getElem?_set_ne hki] at hk
        have hne : ek.addr ≠ f := fun hcon => hki (huniq k ek hk hcon).symm
        rw [hpt ek.addr hne]
        exact hres1 ek (List.getElem?_mem hk)
  have haddr' : ∀ k : Nat, ((s1.heap_tracker.set i
        { e with last_load_time := o.ticks_load, loaded := true })[k]?).map (fun x => x.addr)
      = (s.heap_tracker[k]?).map (fun x => x.addr) := by
    intro k
    rw [← haddr1 k]
    by_cases hki : i = k
    · subst hki
      rw [List.getElem?_set_self hilt, hi]
      rfl
    · rw [List.getElem?_set_ne hki]
  rcases hshape with ⟨-, hs'⟩ | ⟨b, -, -, hs'⟩
  · subst hs'
    obtain ⟨hd, hr⟩ := hrest _ s1.psa_tracker (s1.resident_heap_pages + 1) ⟨_, hmapped⟩
      (fun a hne => uvmalloc_other _ f a _ hf hne)
    exact ⟨⟨hslot', hd, hr⟩, hcow1, haddr'⟩
  · subst hs'
    obtain ⟨P', hP', -⟩ := copyout_self _ f
      ((List.range 4).foldl (read_block c s1.disk b) o.junk) _ hmapped
    obtain ⟨hd, hr⟩ := hrest _ (mark_free s1.psa_tracker b) (s1.resident_heap_pages + 1)
      ⟨P', hP'⟩
      (fun a hne => by rw [copyout_other _ f a _ hne]; exact uvmalloc_other _ f a _ hf hne)
    exact ⟨⟨hslot', hd, hr⟩, hcow1, haddr'⟩

/-! ## Sequences of loads and stores -/

/-- An address is determined by its page and its offset in the page. -/
theorem addr_eq_of_page_offset {va va' : Nat} (h1 : PGROUNDDOWN va' = PGROUNDDOWN va)
    (h2 : va' % PGSIZE = va % PGSIZE) : va' = va := by
  unfold PGROUNDDOWN at h1
  have h3 := Nat.mod_le va PGSIZE
  have h4 := Nat.mod_le va' PGSIZE
  omega

/-- An address tracked once stays tracked once when every entry keeps its address. -/
theorem tracked_once_of_addrs {ht ht' : List heap_tracker_t} {a : Nat}
    (haddr : ∀ k : Nat, (ht'[k]?).map (fun x => x.addr) = (ht[k]?).map (fun x => x.addr))
    (h : tracked_once ht a) : tracked_once ht' a := by
  obtain ⟨i, e, hi, ha, huniq⟩ := h
  have h1 := haddr i
  rw [hi] at h1
  cases hi' : ht'[i]? with
  | none => rw [hi'] at h1; exact Option.noConfusion h1
  | some e' =>
    rw [hi'] at h1
    have ha' : e'.addr = a := by
      have := Option.some.inj h1
      simp only at this
      rw [this, ha]
    refine ⟨i, e', hi', ha', ?_⟩
    intro j e'' hj haj
    have h2 := haddr j
    rw [hj] at h2
    cases hj0 : ht[j]? with
    | none => rw [hj0] at h2; exact Option.noConfusion h2
    | some e0 =>
      rw [hj0] at h2
      have : e0.addr = a := by
        have := Option.some.inj h2
        simp only at this
        rw [← this, haj]
      exact huniq j e0 hj0 this

/-- An access to a mapped tracked page, in a state that satisfies the invariants and agrees
with the flat memory `m`: the invariants, the tracker and the agreement (with the byte stored
remembered) are kept, and the access returns the byte stored last at the address, if any. -/
theorem access_mem_spec {c : Params} {s s1 : State} {m : Nat → Option Nat} {va v : Nat}
    {store : Option Nat} (hinv : mem_inv s) (hag : agrees c s m)
    (htr : tracked_once s.heap_tracker (PGROUNDDOWN va))
    (h : access_mem s va store = some (s1, v)) :
    mem_inv s1 ∧ s1.cow_enabled = s.cow_enabled ∧ s1.heap_tracker = s.heap_tracker ∧
    agrees c s1 (remember m va store) ∧
    ∀ w, expected m va store = some w → v = w := by
  obtain ⟨hslot, hdist, hres⟩ := hinv
  obtain ⟨i, e, hi, ha, huniq⟩ := htr
  unfold access_mem at h
  cases hpg : s.pagetable (PGROUNDDOWN va) with
  | none => rw [hpg] at h; exact Option.noConfusion h
  | some pg =>
    rw [hpg] at h
    have hmem := List.getElem?_mem hi
    have hl : e.loaded = true := (hres e hmem).mpr ⟨pg, by rw [ha]; exact hpg⟩
    have hlog : logical_content c s e = some pg := by
      rw [logical_content_loaded c s hl, ha]; exact hpg
    cases store with
    | none =>
      simp only at h
      have h' := Option.some.inj h
      have hs1 : s1 = s := (congrArg Prod.fst h').symm
      have hv : v = pg (va % PGSIZE) := (congrArg Prod.snd h').symm
      subst hs1
      refine ⟨⟨hslot, hdist, hres⟩, rfl, rfl, hag, ?_⟩
      intro w hw
      simp only [expected] at hw
      obtain ⟨k, e', P, hk, ha', hP, hPw⟩ := hag va w hw
      have hki := huniq k e' hk ha'
      subst hki
      rw [hi] at hk
      have := Option.some.inj hk
      subst this
      rw [hlog] at hP
      have := Option.some.inj hP
      subst this
      rw [hv, hPw]
    | some u =>
      simp only at h
      have h' := Option.some.inj h
      have hs1 := (congrArg Prod.fst h').symm
      have hv : v = u := (congrArg Prod.snd h').symm
      simp only at hs1
      subst hs1
      refine ⟨⟨hslot, hdist, ?_⟩, rfl, rfl, ?_, ?_⟩
      · intro ek hek
        simp only
        by_cases hne : ek.addr = PGROUNDDOWN va
        · rw [if_pos hne]
          constructor
          · intro _; exact ⟨_, rfl⟩
          · intro _
            exact (hres ek hek).mpr ⟨pg, by rw [hne]; exact hpg⟩
        · rw [if_neg hne]
          exact hres ek hek
      · intro va' w hw
        simp only [remember] at hw
        by_cases hva : va' = va
        · subst hva
          rw [if_pos rfl] at hw
          have := Option.some.inj hw
          subst this
          refine ⟨i, e, fun j => if j = va' % PGSIZE then u else pg j, hi, ha, ?_, by simp⟩
          rw [logical_content_loaded c _ hl]
          simp only
          rw [if_pos ha]
        · rw [if_neg hva] at hw
          obtain ⟨k, e', P, hk, ha', hP, hPw⟩ := hag va' w hw
          by_cases hl' : e'.loaded = true
          · rw [logical_content_loaded c s hl'] at hP
            by_cases hsame : e'.addr = PGROUNDDOWN va
            · have hPpg : P = pg := by
                rw [hsame, hpg] at hP
                exact (Option.some.inj hP).symm
              subst hPpg
              refine ⟨k, e', fun j => if j = va % PGSIZE then u else P j, hk, ha', ?_, ?_⟩
              · rw [logical_content_loaded c _ hl']
                simp only
                rw [if_pos hsame]
              · have hoff : va' % PGSIZE ≠ va % PGSIZE := fun hcon =>
                  hva (addr_eq_of_page_offset (by rw [← ha', hsame]) hcon)
                simp only [hoff, if_false]
                exact hPw
            · refine ⟨k, e', P, hk, ha', ?_, hPw⟩
              rw [logical_content_loaded c _ hl']
              simp only
              rw [if_neg hsame]
              exact hP
          · have hl'' : e'.loaded = false := by simpa using hl'
            refine ⟨k, e', P, hk, ha', ?_, hPw⟩
            simp only [logical_content, hl'', Bool.false_eq_true, if_false] at hP ⊢
            exact hP
      · intro w hw
        simp only [expected] at hw
        rw [hv]
        exact Option.some.inj hw

/-- Keeping the logical contents keeps the agreement with a flat memory. -/
theorem agrees_of_content_kept {c : Params} {s s' : State} {m : Nat → Option Nat}
    (hkept : content_kept c s s') (hag : agrees c s m) : agrees c s' m := by
  intro va v hv
  obtain ⟨k, e, P, hk, ha, hP, hPv⟩ := hag va v hv
  obtain ⟨e', P', hk', ha', hP', hsame⟩ := hkept k e P hk hP
  refine ⟨k, e', P', hk', ha'.trans ha, hP', ?_⟩
  rw [hsame (va % PGSIZE) (Nat.mod_lt _ (by simp [PGSIZE])), hPv]

/-- One access of the user program, with the fault it may cause: the invariants, the
copy-on-write flag, the addresses in the tracker and the agreement with the flat memory are
kept, and the access returns the byte stored last at the address, if any. -/
theorem user_access_spec {c : Params} {s s1 : State} {m : Nat → Option Nat} {x : Access}
    {v : Nat} (hinv : mem_inv s) (hcow : s.cow_enabled = false) (hag : agrees c s m)
    (hx : heap_access s.heap_tracker x) (h : user_access c s x = some (s1, v)) :
    mem_inv s1 ∧ s1.cow_enabled = false ∧
    (∀ k : Nat, (s1.heap_tracker[k]?).map (fun x => x.addr)
      = (s.heap_tracker[k]?).map (fun x => x.addr)) ∧
    agrees c s1 (remember m x.o.stval x.store) ∧
    ∀ w, expected m x.o.stval x.store = some w → v = w := by
  obtain ⟨htr, hlt, hok⟩ := hx
  unfold user_access at h
  cases hacc : access_mem s x.o.stval x.store with
  | some r =>
    rw [hacc] at h
    simp only at h
    have hr := Option.some.inj h
    subst hr
    obtain ⟨h1, h2, h3, h4, h5⟩ := access_mem_spec hinv hag htr hacc
    exact ⟨h1, by rw [h2, hcow], fun k => by rw [h3], h4, h5⟩
  | none =>
    rw [hacc] at h
    simp only at h
    have hunmapped : s.pagetable (PGROUNDDOWN x.o.stval) = none := by
      unfold access_mem at hacc
      cases hpg : s.pagetable (PGROUNDDOWN x.o.stval) with
      | none => rfl
      | some pg =>
        rw [hpg] at hacc
        cases hst : x.store with
        | none => rw [hst] at hacc; exact Option.noConfusion hacc
        | some u => rw [hst] at hacc; exact Option.noConfusion hacc
    cases hpf : page_fault_handler c x.o s with
    | panic msg s2 => rw [hpf] at h; exact Option.noConfusion h
    | out_of_bounds s2 => rw [hpf] at h; exact Option.noConfusion h
    | ok s2 =>
      rw [hpf] at h
      simp only at h
      obtain ⟨i, e, hi, ha, huniq⟩ := htr
      have hl : e.loaded = false := by
        by_contra hcon
        have hl' : e.loaded = true := by simpa using hcon
        obtain ⟨P, hP⟩ := (hinv.2.2 e (List.getElem?_mem hi)).mp hl'
        rw [ha, hunmapped] at hP
        exact Option.noConfusion hP
      have hpre : tracked_at s.heap_tracker (PGROUNDDOWN x.o.stval) i e := ⟨hi, ha, hl, huniq⟩
      rcases page_fault_handler_ok_elim hpf with
        ⟨hc, -, -⟩ | ⟨-, hnone, -⟩ | ⟨-, i', e', hi', ha', -, hh⟩
      · rw [hcow] at hc
        exact Bool.noConfusion hc
      · exact absurd ha (hnone e (List.getElem?_mem hi))
      · have hii := huniq i' e' hi' ha'
        subst hii
        have hal := PGROUNDDOWN_aligned x.o.stval
        obtain ⟨hinv2, hcow2, haddr2⟩ := mem_inv_heap_fault hinv hpre hal hok hlt hh
        obtain ⟨hkept, -⟩ := content_kept_heap_fault hinv.1 hinv.2.1 hpre hal hok hlt hh
        have hag2 := agrees_of_content_kept hkept hag
        have htr2 : tracked_once s2.heap_tracker (PGROUNDDOWN x.o.stval) :=
          tracked_once_of_addrs haddr2 ⟨i', e, hi, ha, huniq⟩
        obtain ⟨h1, h2, h3, h4, h5⟩ := access_mem_spec hinv2 hag2 htr2 h
        exact ⟨h1, by rw [h2, hcow2, hcow], fun k => by rw [h3, haddr2 k], h4, h5⟩

/-- Every load returns the byte stored last: in a run of loads and stores on tracked heap
pages that starts in a state satisfying the invariants and agreeing with the flat memory `m`,
each access for which the flat memory remembers a byte returns that byte. -/
theorem user_run_spec (c : Params) (xs : List Access) :
    ∀ (s : State) (m : Nat → Option Nat), mem_inv s → s.cow_enabled = false → agrees c s m →
      (∀ x ∈ xs, heap_access s.heap_tracker x) →
      ∀ (s' : State) (vs : List Nat), user_run c s xs = some (s', vs) →
        ∀ (n w : Nat), (last_stored m xs)[n]? = some (some w) → vs[n]? = some w := by
  induction xs with
  | nil =>
    intro s m _ _ _ _ s' vs _ n w hn
    simp [last_stored] at hn
  | cons x xs ih =>
    intro s m hinv hcow hag hxs s' vs hrun n w hn
    simp only [user_run] at hrun
    cases hacc : user_access c s x with
    | none => rw [hacc] at hrun; exact Option.noConfusion hrun
    | some r =>
      obtain ⟨s1, v⟩ := r
      rw [hacc] at hrun
      simp only at hrun
      cases hrest : user_run c s1 xs with
      | none => rw [hrest] at hrun; exact Option.noConfusion hrun
      | some r2 =>
        obtain ⟨s2, vs2⟩ := r2
        rw [hrest] at hrun
        simp only at hrun
        have hr := Option.some.inj hrun
        have hvs : vs = v :: vs2 := (congrArg Prod.snd hr).symm
        subst hvs
        obtain ⟨hinv1, hcow1, haddr1, hag1, hval⟩ :=
          user_access_spec hinv hcow hag (hxs x (List.mem_cons_self x xs)) hacc
        have hxs1 : ∀ y ∈ xs, heap_access s1.heap_tracker y := by
          intro y hy
          obtain ⟨h1, h2, h3⟩ := hxs y (List.mem_cons_of_mem x hy)
          exact ⟨tracked_once_of_addrs haddr1 h1, h2, h3⟩
        simp only [last_stored] at hn
        cases n with
        | zero =>
          simp only [List.getElem?_cons_zero] at hn ⊢
          rw [hval w (Option.some.inj hn)]
        | succ n =>
          simp only [List.getElem?_cons_succ] at hn ⊢
          exact ih s1 _ hinv1 hcow1 hag1 hxs1 s2 vs2 hrest n w hn

/-! ## The heap branch ends normally -/

/-- When the first block of some group inside the bitmap is free and some entry is loaded,
`evict_page_to_disk` ends normally. -/
theorem evict_completes (c : Params) (o : Oracle) (s : State)
    (hfree : ∃ g, g % 4 = 0 ∧ g + 3 < s.psa_tracker.length ∧ s.psa_tracker[g]? = some false)
    (hloaded : ∃ e ∈ s.heap_tracker, e.loaded = true) :
    ∃ s', evict_page_to_disk c o s = .ok s' := by
  obtain ⟨g, hg4, hglen, hgfree⟩ := hfree
  obtain ⟨e, he, hl⟩ := hloaded
  rcases find_free_block_spec s.psa_tracker s.psa_tracker.length 0 (by omega) (by omega) with
    ⟨-, hall⟩ | ⟨b, hr, -, hb2, hb3, hb4, hb5⟩
  · have := hall g (by omega) (by omega) hg4
    rw [hgfree] at this
    exact Bool.noConfusion (Option.some.inj this)
  · have hbg : b ≤ g := by
      by_contra hcon
      have := hb5 g (by omega) (by omega) hg4
      rw [hgfree] at this
      exact Bool.noConfusion (Option.some.inj this)
    rcases select_victim_cases o.ticks s.heap_tracker with ⟨-, hnone⟩ | ⟨iv, v, hv, hk, -⟩
    · rw [hnone e he] at hl
      exact Bool.noConfusion hl
    · have hivlt : iv < s.heap_tracker.length := by
        by_contra hcon
        rw [List.getElem?_eq_none (by omega)] at hk
        exact Option.noConfusion hk
      have hne : ((b : Nat) : Int) ≠ -1 := by omega
      have hblen : b + 3 < s.psa_tracker.length := by omega
      have hiv : (0 : Int) ≤ (iv : Int) ∧ iv < s.heap_tracker.length := ⟨by omega, hivlt⟩
      cases h : evict_page_to_disk c o s with
      | ok s' => exact ⟨s', rfl⟩
      | panic m s' =>
        simp only [evict_page_to_disk, hr, hv, hne, if_false, Int.toNat_ofNat, hblen,
          not_true_eq_false, hiv, and_self] at h
        exact Outcome.noConfusion h
      | out_of_bounds s' =>
        simp only [evict_page_to_disk, hr, hv, hne, if_false, Int.toNat_ofNat, hblen,
          not_true_eq_false, hiv, and_self] at h
        exact Outcome.noConfusion h

/-- The heap branch ends normally on a fault on an address tracked once by an entry that is not
loaded, in a state that satisfies the slot invariant, provided that when the counter is at the
budget some group of the bitmap is free and some entry is loaded. -/
theorem heap_fault_completes (c : Params) (o : Oracle) (s : State) (i : Nat)
    (e : heap_tracker_t) (hinv : slot_inv s)
    (hncow : ¬ (s.cow_enabled = true ∧ o.scause = 15))
    (hpre : tracked_at s.heap_tracker (PGROUNDDOWN o.stval) i e)
    (hbudget : s.resident_heap_pages = c.MAXRESHEAP →
      (∃ g, g % 4 = 0 ∧ g + 3 < s.psa_tracker.length ∧ s.psa_tracker[g]? = some false) ∧
      ∃ e' ∈ s.heap_tracker, e'.loaded = true) :
    ∃ s', page_fault_handler c o s = .ok s' := by
  obtain ⟨hi, ha, hl, huniq⟩ := hpre
  have hidx : find_heap_page (PGROUNDDOWN o.stval) s.heap_tracker 0 = (i : Int) := by
    rcases find_heap_page_spec (PGROUNDDOWN o.stval) s.heap_tracker 0 with
      ⟨-, hall⟩ | ⟨k, e', hk, hr, ha', -⟩
    · exact absurd ha (hall e (List.getElem?_mem hi))
    · have := huniq k e' hk ha'
      subst this
      rw [hr]; simp
  have hne : ((i : Nat) : Int) ≠ -1 := by omega
  -- the eviction, if any
  have hev : ∃ s1, (if s.resident_heap_pages = c.MAXRESHEAP then evict_page_to_disk c o s
      else .ok s) = .ok s1 ∧ slot_inv s1 ∧ s1.heap_tracker[i]? = some e ∧
      ∀ (j : Nat) (e' : heap_tracker_t), s1.heap_tracker[j]? = some e' →
        e'.addr = PGROUNDDOWN o.stval → j = i := by
    by_cases hb : s.resident_heap_pages = c.MAXRESHEAP
    · obtain ⟨hfree, hloaded⟩ := hbudget hb
      obtain ⟨s1, hs1⟩ := evict_completes c o s hfree hloaded
      refine ⟨s1, by rw [if_pos hb]; exact hs1, slot_inv_evict hinv hs1, ?_⟩
      obtain ⟨b, iv, v, -, -, -, hv, hvl, hs1'⟩ := evict_ok_elim hs1
      have hivlt : iv < s.heap_tracker.length := by
        by_contra hcon
        rw [List.getElem?_eq_none (by omega)] at hv
        exact Option.noConfusion hv
      have hnei : iv ≠ i := by
        rintro rfl
        rw [hi] at hv
        rw [← Option.some.inj hv, hl] at hvl
        exact Bool.noConfusion hvl
      subst hs1'
      refine ⟨by simp only; rw [List.getElem?_set_ne hnei]; exact hi, ?_⟩
      intro j e' hj haj
      simp only at hj
      by_cases hjv : iv = j
      · subst hjv
        rw [List.getElem?_set_self hivlt] at hj
        rw [← Option.some.inj hj] at haj
        exact huniq iv v hv haj
      · rw [List.getElem?_set_ne hjv] at hj
        exact huniq j e' hj haj
    · exact ⟨s, by rw [if_neg hb], hinv, hi, huniq⟩
  obtain ⟨s1, hs1, hinv1, hi1, huniq1⟩ := hev
  have hilt : i < s1.heap_tracker.length := by
    by_contra hcon
    rw [List.getElem?_eq_none (by omega)] at hi1
    exact Option.noConfusion hi1
  have hfinal : ∀ s3 : State, s3.heap_tracker = s1.heap_tracker →
      ∃ s', (if ¬ (0 ≤ (i : Int) ∧ (i : Int).toNat < s3.heap_tracker.length) then
          Outcome.out_of_bounds s3
        else
          .ok { s3 with
            heap_tracker := s3.heap_tracker.set (i : Int).toNat
              { s3.heap_tracker.getD (i : Int).toNat default with
                last_load_time := o.ticks_load, loaded := true }
            resident_heap_pages := s3.resident_heap_pages + 1 }) = .ok s' := by
    intro s3 h3
    have : (0 : Int) ≤ (i : Int) ∧ (i : Int).toNat < s3.heap_tracker.length := by
      rw [h3]; exact ⟨by omega, by simpa using hilt⟩
    exact ⟨_, by rw [if_neg (not_not.mpr this)]⟩
  have hhh : ∃ s', heap_handle c o s (PGROUNDDOWN o.stval)
      (load_from_disk (PGROUNDDOWN o.stval) s.heap_tracker) (i : Int) = .ok s' := by
    unfold heap_handle
    rw [hs1]
    simp only [Outcome.andThen, Nat.not_lt_zero, if_false]
    by_cases hfd : load_from_disk (PGROUNDDOWN o.stval) s.heap_tracker = true
    · obtain ⟨e', he', ha', hsb'⟩ := (load_from_disk_iff _ _).mp hfd
      obtain ⟨j, hj⟩ := List.getElem?_of_mem he'
      have := huniq j e' hj ha'
      subst this
      rw [hi] at hj
      have := Option.some.inj hj
      subst this
      obtain ⟨b, hb, -, hused⟩ := hinv1.1 j e hi1 ⟨hl, hsb'⟩
      have hblen : b + 3 < s1.psa_tracker.length := by
        by_contra hcon
        have := hused 3 (by omega)
        rw [List.getElem?_eq_none (by omega)] at this
        exact Option.noConfusion this
      have hret := retrieve_ok_intro c o
        { s1 with pagetable :=
            (uvmalloc s1.pagetable (PGROUNDDOWN o.stval) (add64 (PGROUNDDOWN o.stval) PGSIZE)
              o.uvmalloc_ok).1 }
        (PGROUNDDOWN o.stval) j b e hi1 ha hb hblen
        (fun k e' hk hk' hcon => by
          have := huniq1 k e' hk' hcon.1
          omega)
      rw [hfd]
      simp only [if_true]
      rw [hret]
      exact hfinal { s1 with
        psa_tracker := mark_free s1.psa_tracker b
        pagetable := copyout
          (uvmalloc s1.pagetable (PGROUNDDOWN o.stval) (add64 (PGROUNDDOWN o.stval) PGSIZE)
            o.uvmalloc_ok).1 (PGROUNDDOWN o.stval)
          ((List.range 4).foldl (read_block c s1.disk b) o.junk) } rfl
    · have hfd' : load_from_disk (PGROUNDDOWN o.stval) s.heap_tracker = false := by
        simpa using hfd
      rw [hfd']
      simp only [Bool.false_eq_true, if_false]
      exact hfinal { s1 with
        pagetable := (uvmalloc s1.pagetable (PGROUNDDOWN o.stval)
          (add64 (PGROUNDDOWN o.stval) PGSIZE) o.uvmalloc_ok).1 } rfl
  obtain ⟨s', hs'⟩ := hhh
  refine ⟨s', ?_⟩
  unfold page_fault_handler
  simp only [hncow, if_false, hidx, ne_eq, hne, not_false_eq_true, if_true]
  exact hs'

/-! ## Heap contents survive transparent eviction -/

/-- The decidable form of the invariants implies the invariants. -/
theorem mem_inv_of_check {s : State} (h : mem_inv_check s) : mem_inv s := by
  obtain ⟨h1, h2, h3, h4⟩ := h
  have hget : ∀ (i : Nat) (e : heap_tracker_t), s.heap_tracker[i]? = some e →
      i < s.heap_tracker.length ∧ s.heap_tracker.getD i default = e := by
    intro i e hi
    have hlt : i < s.heap_tracker.length := by
      by_contra hcon
      rw [List.getElem?_eq_none (by omega)] at hi
      exact Option.noConfusion hi
    exact ⟨hlt, by rw [List.getD_eq_getElem?_getD, hi]; rfl⟩
  refine ⟨⟨?_, ?_⟩, ?_, ?_⟩
  · intro i e hi hev
    obtain ⟨hlt, hg⟩ := hget i e hi
    have := h1 i hlt (by rw [hg]; exact hev)
    rw [hg] at this
    exact ⟨e.startblock.toNat, (Int.toNat_of_nonneg this.1).symm, this.2.1, this.2.2⟩
  · intro i j ei ej hij hi hj hei hej
    obtain ⟨hlti, hgi⟩ := hget i ei hi
    obtain ⟨hltj, hgj⟩ := hget j ej hj
    have := h2 i hlti j hltj ⟨hij, by rw [hgi]; exact hei, by rw [hgj]; exact hej⟩
    rwa [hgi, hgj] at this
  · intro i j ei ej hij hi hj hei hej
    obtain ⟨hlti, hgi⟩ := hget i ei hi
    obtain ⟨hltj, hgj⟩ := hget j ej hj
    have := h3 i hlti j hltj ⟨hij, by rw [hgi]; exact hei, by rw [hgj]; exact hej⟩
    rwa [hgi, hgj] at this
  · intro e he
    rw [h4 e he, Option.isSome_iff_exists]

/-- A way to show that an address is tracked once: compare it with the address at every
position of the tracker. -/
theorem tracked_once_intro {ht : List heap_tracker_t} {a i : Nat} {e : heap_tracker_t}
    (h1 : ht[i]? = some e) (h2 : e.addr = a)
    (h4 : ∀ j < ht.length, (ht.getD j default).addr = a → j = i) : tracked_once ht a := by
  refine ⟨i, e, h1, h2, ?_⟩
  intro j e' hj ha
  have hjlt : j < ht.length := by
    by_contra hcon
    rw [List.getElem?_eq_none (by omega)] at hj
    exact Option.noConfusion hj
  apply h4 j hjlt
  rw [List.getD_eq_getElem?_getD, hj]
  exact ha

/-- Heap contents survive transparent eviction as long as `uvmalloc` maps the page. The
logical content of a tracked page is the page mapped at its address when its entry is loaded
and the content of its four swap blocks when it is evicted. Let the state satisfy the
tracker/bitmap invariants.

(1) For every fault (not a copy-on-write fault) on an address that is tracked once, by an
entry `e` that is not loaded, with `uvmalloc` mapping the page: `page_fault_handler` ends
normally provided that, when the counter is at the budget, a swap group is free and some entry
is loaded; and every normal end leaves the logical content of every tracked page that had one
unchanged, and if `e` records the swap slot `b`, the page mapped at the address afterwards has
the bytes the slot `b` held before the fault.

(2) For every sequence of loads and stores on tracked heap pages by a process without
copy-on-write, served by `page_fault_handler` whenever the page is not mapped, every access
returns the byte stored last at its address. -/
theorem heap_contents_survive (c : Params) (s : State) (hinv : mem_inv s) :
    (∀ (o : Oracle) (i : Nat) (e : heap_tracker_t),
      ¬ (s.cow_enabled = true ∧ o.scause = 15) →
      tracked_at s.heap_tracker (PGROUNDDOWN o.stval) i e →
      PGROUNDDOWN o.stval + PGSIZE < 2 ^ 64 → o.uvmalloc_ok = true →
      ((s.resident_heap_pages = c.MAXRESHEAP →
          (∃ g, g % 4 = 0 ∧ g + 3 < s.psa_tracker.length ∧ s.psa_tracker[g]? = some false) ∧
          ∃ e' ∈ s.heap_tracker, e'.loaded = true) →
        ∃ s', page_fault_handler c o s = .ok s') ∧
      ∀ s', page_fault_handler c o s = .ok s' →
        content_kept c s s' ∧
        ∀ b : Nat, e.startblock = (b : Int) →
          ∃ P', s'.pagetable (PGROUNDDOWN o.stval) = some P' ∧
            same_page P' (swap_content c s.disk b)) ∧
    (s.cow_enabled = false →
      ∀ (xs : List Access) (s' : State) (vs : List Nat),
        (∀ x ∈ xs, heap_access s.heap_tracker x) → user_run c s xs = some (s', vs) →
        ∀ (n w : Nat), (last_stored (fun _ => none) xs)[n]? = some (some w) →
          vs[n]? = some w) := by
  constructor
  · intro o i e hncow hpre hlt hok
    refine ⟨heap_fault_completes c o s i e hinv.1 hncow hpre, ?_⟩
    intro s' hrun
    rcases page_fault_handler_ok_elim hrun with
      ⟨hc1, hc2, -⟩ | ⟨-, hnone, -⟩ | ⟨-, i', e', hi', ha', -, hh⟩
    · exact absurd ⟨hc1, hc2⟩ hncow
    · exact absurd hpre.2.1 (hnone e (List.getElem?_mem hpre.1))
    · have hii := hpre.2.2.2 i' e' hi' ha'
      subst hii
      exact content_kept_heap_fault hinv.1 hinv.2.1 hpre (PGROUNDDOWN_aligned o.stval) hok hlt hh
  · intro hcow xs s' vs hxs hrun
    exact user_run_spec c xs s (fun _ => none) hinv hcow
      (fun va v hv => Option.noConfusion hv) hxs s' vs hrun

/-- With memory available: `demo_state` is at its budget of 2 with page 8192 evicted to blocks
0..3.
Stores of 5, 6 and 7 to the three pages are followed by loads; from the third store on every
access faults and evicts another page. The run ends normally and the load at position 3
returns the 5 stored first. The fault of `demo_oracle` on page 8192 maps it with the bytes of
blocks 0..3. -/
theorem heap_contents_survive_witness :
    (∃ s' vs, user_run demo_params demo_state demo_accesses = some (s', vs) ∧
      vs[3]? = some 5) ∧
    (∃ s', page_fault_handler demo_params demo_oracle demo_state = .ok s' ∧
      ∃ P', s'.pagetable 8192 = some P' ∧
        same_page P' (swap_content demo_params demo_state.disk 0)) :=
  ⟨⟨_, _, rfl,
      (heap_contents_survive demo_params demo_state (mem_inv_of_check (by decide))).2 rfl
        demo_accesses _ _
        (by
          intro x hx
          simp only [demo_accesses, List.mem_cons, List.mem_singleton, List.not_mem_nil,
            or_false] at hx
          rcases hx with rfl | rfl | rfl | rfl | rfl | rfl
          · exact ⟨tracked_once_intro (i := 0) rfl rfl (by decide), by decide, rfl⟩
          · exact ⟨tracked_once_intro (i := 1) rfl rfl (by decide), by decide, rfl⟩
          · exact ⟨tracked_once_intro (i := 2) rfl rfl (by decide), by decide, rfl⟩
          · exact ⟨tracked_once_intro (i := 0) rfl rfl (by decide), by decide, rfl⟩
          · exact ⟨tracked_once_intro (i := 1) rfl rfl (by decide), by decide, rfl⟩
          · exact ⟨tracked_once_intro (i := 2) rfl rfl (by decide), by decide, rfl⟩)
        rfl 3 5 rfl⟩,
    ⟨_, rfl, ((((heap_contents_survive demo_params demo_state
        (mem_inv_of_check (by decide))).1 demo_oracle 2 ⟨8192, 5, 0, false⟩ (by decide)
        (tracked_at_intro rfl rfl rfl (by decide)) (by decide) rfl).2 _ rfl).2 0 rfl)⟩⟩

/-! ## Eviction when no entry is loaded -/

/-- With no loaded entry the victim scan of `evict_page_to_disk` ends with index `-1`. -/
theorem select_victim_none (ticks : Nat → Nat) (ht : List heap_tracker_t)
    (hnone : ∀ e ∈ ht, e.loaded = false) : select_victim ticks ht = -1 := by
  rcases select_victim_cases ticks ht with h | ⟨k, v, _, hk, hv⟩
  · exact h.1
  · have := hnone v (List.getElem?_mem hk)
    rw [this] at hv
    exact absurd hv (by decide)

/-- With no loaded entry `evict_page_to_disk` never ends normally, and the only fatal error it
can raise is the one of swap exhaustion: when a group with a free first block exists, the
group is marked used and the tracker is indexed at `-1`. -/
theorem evict_no_resident (c : Params) (o : Oracle) (s : State)
    (hnone : ∀ e ∈ s.heap_tracker, e.loaded = false) :
    (find_free_block s.psa_tracker s.psa_tracker.length 0 = -1 ∧
      evict_page_to_disk c o s = .panic .no_psa_block_available s) ∨
    (find_free_block s.psa_tracker s.psa_tracker.length 0 ≠ -1 ∧
      (evict_page_to_disk c o s = .out_of_bounds s ∨
        evict_page_to_disk c o s = .out_of_bounds { s with
          psa_tracker := mark_used s.psa_tracker
            (find_free_block s.psa_tracker s.psa_tracker.length 0).toNat })) := by
  have hv := select_victim_none o.ticks s.heap_tracker hnone
  by_cases hb : find_free_block s.psa_tracker s.psa_tracker.length 0 = -1
  · left
    refine ⟨hb, ?_⟩
    simp only [evict_page_to_disk]
    rw [if_pos hb]
  · right
    refine ⟨hb, ?_⟩
    by_cases hlen : (find_free_block s.psa_tracker s.psa_tracker.length 0).toNat + 3
        < s.psa_tracker.length
    · right
      simp only [evict_page_to_disk]
      rw [if_neg hb, if_neg (not_not.mpr hlen), hv]
      rw [if_pos (fun h => absurd h.1 (by decide))]
    · left
      simp only [evict_page_to_disk]
      rw [if_neg hb, if_pos hlen]

/-- C13, on the code: in the boot state, where no tracker entry is loaded (and the swap area
is free), `evict_page_to_disk` raises no fatal error: it marks the group of blocks 0..3 used
and then indexes the tracker at position `-1`. -/
theorem evict_without_resident_page :
    (∀ e ∈ boot_state.heap_tracker, e.loaded = false) ∧
    select_victim (fault_at 0 1).ticks boot_state.heap_tracker = -1 ∧
    evict_page_to_disk boot_params (fault_at 0 1) boot_state =
      .out_of_bounds { boot_state with psa_tracker := mark_used boot_state.psa_tracker 0 } ∧
    mark_used boot_state.psa_tracker 0 ≠ boot_state.psa_tracker := by
  refine ⟨by decide, by decide, rfl, by decide⟩

/-! ## Retrieval when the page has no swap slot -/

/-- The lookup of `retrieve_page_from_disk` is used as an index before it is compared with
`-1`: when no entry has the address with a swap slot, the run ends at that indexing. -/
theorem retrieve_no_slot (c : Params) (o : Oracle) (s : State) (a : Nat)
    (hnone : ∀ e ∈ s.heap_tracker, ¬ (e.addr = a ∧ e.startblock ≠ -1)) :
    retrieve_page_from_disk c o s a = .out_of_bounds s := by
  have hf : find_swapped a s.heap_tracker 0 = -1 := by
    rcases find_swapped_spec a s.heap_tracker 0 with h | ⟨k, e, hk, _, ha, hb, _⟩
    · exact h.1
    · exact absurd ⟨ha, hb⟩ (hnone e (List.getElem?_mem hk))
  simp only [retrieve_page_from_disk, hf]
  rw [if_pos (fun h => absurd h.1 (by decide))]

/-- No run of `retrieve_page_from_disk` ends in a fatal error. -/
theorem retrieve_never_panics (c : Params) (o : Oracle) (s : State) (a : Nat) (m : Fatal)
    (s' : State) : retrieve_page_from_disk c o s a ≠ .panic m s' := by
  intro h
  simp only [retrieve_page_from_disk] at h
  split at h
  · exact Outcome.noConfusion h
  · rename_i hin
    have hin' := not_not.mp hin
    split at h
    · rename_i h1
      rw [h1] at hin'
      exact absurd hin'.1 (by decide)
    · split at h
      · exact Outcome.noConfusion h
      · exact Outcome.noConfusion h

/-- C16, on the code: in the boot state no tracker entry has address 0 with a swap slot, and
`retrieve_page_from_disk` for address 0 raises no fatal error: the lookup ends with `-1`, and
the tracker is indexed at that position (line 153) before the comparison with `-1`
(line 155). The state is unchanged. -/
theorem retrieve_without_slot :
    (∀ e ∈ boot_state.heap_tracker, ¬ (e.addr = 0 ∧ e.startblock ≠ -1)) ∧
    find_swapped 0 boot_state.heap_tracker 0 = -1 ∧
    retrieve_page_from_disk boot_params (fault_at 0 1) boot_state 0 =
      .out_of_bounds boot_state := by
  refine ⟨by decide, by decide, rfl⟩

/-! ## Fatal errors of the heap branch -/

/-- The only fatal error of `evict_page_to_disk` is the one of swap exhaustion; it is raised
when the scan of the bitmap ends with `-1`, and the state is then the state at entry. -/
theorem evict_panic_elim {c : Params} {o : Oracle} {s s' : State} {m : Fatal}
    (h : evict_page_to_disk c o s = .panic m s') :
    m = .no_psa_block_available ∧ s' = s ∧
      find_free_block s.psa_tracker s.psa_tracker.length 0 = -1 := by
  simp only [evict_page_to_disk] at h
  split at h
  · rename_i hb
    injection h with hm hs
    exact ⟨hm.symm, hs.symm, hb⟩
  · split at h
    · exact Outcome.noConfusion h
    · split at h
      · exact Outcome.noConfusion h
      · exact Outcome.noConfusion h

/-- The heap branch once the eviction step and the retrieval step have ended normally: whatever
`uvmalloc` returned, the entry is marked loaded and the counter is incremented. -/
theorem heap_handle_ok_intro (c : Params) (o : Oracle) (s s1 s3 : State) (f : Nat) (fd : Bool)
    (i : Nat) (e : heap_tracker_t)
    (h1 : (if s.resident_heap_pages = c.MAXRESHEAP then evict_page_to_disk c o s else .ok s)
      = .ok s1)
    (h3 : (if fd then
          retrieve_page_from_disk c o
            { s1 with pagetable := (uvmalloc s1.pagetable f (add64 f PGSIZE) o.uvmalloc_ok).1 } f
        else
          .ok { s1 with pagetable := (uvmalloc s1.pagetable f (add64 f PGSIZE) o.uvmalloc_ok).1 })
        = .ok s3)
    (hi : s3.heap_tracker[i]? = some e) :
    heap_handle c o s f fd (i : Int) = .ok { s3 with
      heap_tracker := s3.heap_tracker.set i
        { e with last_load_time := o.ticks_load, loaded := true }
      resident_heap_pages := s3.resident_heap_pages + 1 } := by
  have hlt : i < s3.heap_tracker.length := by
    by_contra hge
    rw [List.getElem?_eq_none (Nat.le_of_not_lt hge)] at hi
    exact Option.noConfusion hi
  have he : s3.heap_tracker.getD i default = e := by
    rw [List.getD_eq_getElem?_getD, hi]
    rfl
  simp only [heap_handle, h1, Outcome.andThen]
  rw [if_neg (Nat.not_lt_zero _)]
  simp only [h3, Int.toNat_ofNat]
  rw [if_neg (not_not.mpr ⟨Int.ofNat_nonneg i, hlt⟩), he]

/-- The only fatal error of the heap branch is the one of swap exhaustion. -/
theorem heap_handle_panic_elim {c : Params} {o : Oracle} {s s' : State} {f : Nat} {fd : Bool}
    {index : Int} {m : Fatal} (h : heap_handle c o s f fd index = .panic m s') :
    m = .no_psa_block_available := by
  simp only [heap_handle] at h
  cases h1 : (if s.resident_heap_pages = c.MAXRESHEAP then evict_page_to_disk c o s
      else .ok s) with
  | panic m1 s1 =>
    rw [h1] at h
    simp only [Outcome.andThen] at h
    injection h with hm _
    by_cases hb : s.resident_heap_pages = c.MAXRESHEAP
    · rw [if_pos hb] at h1
      rw [← hm]
      exact (evict_panic_elim h1).1
    · rw [if_neg hb] at h1
      exact Outcome.noConfusion h1
  | out_of_bounds s1 =>
    rw [h1] at h
    simp only [Outcome.andThen] at h
    exact Outcome.noConfusion h
  | ok s1 =>
    rw [h1] at h
    simp only [Outcome.andThen] at h
    rw [if_neg (Nat.not_lt_zero _)] at h
    cases h3 : (if fd then
          retrieve_page_from_disk c o
            { s1 with pagetable := (uvmalloc s1.pagetable f (add64 f PGSIZE) o.uvmalloc_ok).1 } f
        else
          .ok { s1 with
            pagetable := (uvmalloc s1.pagetable f (add64 f PGSIZE) o.uvmalloc_ok).1 }) with
    | panic m3 s3 =>
      by_cases hfd : fd = true
      · rw [if_pos hfd] at h3
        exact absurd h3 (retrieve_never_panics c o _ f m3 s3)
      · rw [if_neg hfd] at h3
        exact Outcome.noConfusion h3
    | out_of_bounds s3 =>
      rw [h3] at h
      exact Outcome.noConfusion h
    | ok s3 =>
      rw [h3] at h
      simp only at h
      split at h
      · exact Outcome.noConfusion h
      · exact Outcome.noConfusion h

/-- The only fatal error of `page_fault_handler` is the one of swap exhaustion. -/
theorem page_fault_handler_panic_elim {c : Params} {o : Oracle} {s s' : State} {m : Fatal}
    (h : page_fault_handler c o s = .panic m s') : m = .no_psa_block_available := by
  simp only [page_fault_handler] at h
  split at h
  · exact Outcome.noConfusion h
  · split at h
    · exact heap_handle_panic_elim h
    · obtain ⟨pt, hpt⟩ := load_program_page_ok o s (PGROUNDDOWN o.stval)
      rw [hpt] at h
      exact Outcome.noConfusion h

/-- C19: the test of line 270 is false for every value returned by `uvmalloc` (the failure
value 0 included), so no run of the heap branch or of `page_fault_handler` ends in the fatal
error "uvmalloc error"; and whenever the eviction step and the retrieval step (if any) have
ended normally, the heap branch goes on to mark the entry loaded and to increment
`resident_heap_pages`, whether `uvmalloc` found memory or not. -/
theorem uvmalloc_check_never_fires (c : Params) (o : Oracle) (s : State) :
    (∀ (pt : Nat → Option Page) (oldsz newsz : Nat) (ok : Bool),
      ¬ ((uvmalloc pt oldsz newsz ok).2 < 0)) ∧
    (uvmalloc s.pagetable 0 PGSIZE false).2 = 0 ∧
    (∀ s', page_fault_handler c o s ≠ .panic .uvmalloc_error s') ∧
    (∀ (f : Nat) (fd : Bool) (index : Int) (s' : State),
      heap_handle c o s f fd index ≠ .panic .uvmalloc_error s') ∧
    (∀ (f : Nat) (fd : Bool) (i : Nat) (e : heap_tracker_t) (s1 s3 : State),
      (if s.resident_heap_pages = c.MAXRESHEAP then evict_page_to_disk c o s else .ok s)
        = .ok s1 →
      (if fd then
          retrieve_page_from_disk c o
            { s1 with pagetable := (uvmalloc s1.pagetable f (add64 f PGSIZE) o.uvmalloc_ok).1 } f
        else
          .ok { s1 with pagetable := (uvmalloc s1.pagetable f (add64 f PGSIZE) o.uvmalloc_ok).1 })
        = .ok s3 →
      s3.heap_tracker[i]? = some e →
      heap_handle c o s f fd (i : Int) = .ok { s3 with
        heap_tracker := s3.heap_tracker.set i
          { e with last_load_time := o.ticks_load, loaded := true }
        resident_heap_pages := s3.resident_heap_pages + 1 }) := by
  refine ⟨fun _ _ _ _ => Nat.not_lt_zero _, rfl, ?_, ?_, ?_⟩
  · intro s' h
    exact Fatal.noConfusion (page_fault_handler_panic_elim h)
  · intro f fd index s' h
    exact Fatal.noConfusion (heap_handle_panic_elim h)
  · intro f fd i e s1 s3 h1 h3 hi
    exact heap_handle_ok_intro c o s s1 s3 f fd i e h1 h3 hi

/-- C19 at a concrete fault: in the boot state a fault at address 0 during which `uvmalloc`
finds no memory ends normally, with the entry marked loaded and the counter incremented. -/
theorem uvmalloc_check_never_fires_witness :
    fault_without_memory.uvmalloc_ok = false ∧
    heap_handle boot_params fault_without_memory boot_state 0 false ((0 : Nat) : Int) =
      .ok { boot_state with
        pagetable := (uvmalloc boot_state.pagetable 0 (add64 0 PGSIZE) false).1
        heap_tracker := boot_state.heap_tracker.set 0 ⟨0, 1, -1, true⟩
        resident_heap_pages := 1 } :=
  ⟨rfl, (uvmalloc_check_never_fires boot_params fault_without_memory boot_state).2.2.2.2
    0 false 0 ⟨0, 0, -1, false⟩ boot_state
    { boot_state with
      pagetable := (uvmalloc boot_state.pagetable 0 (add64 0 PGSIZE) false).1 }
    rfl rfl rfl⟩

/-! ## Swap exhaustion -/

/-- The scan of the bitmap ends with `-1` exactly when the first block of every aligned group
is used. -/
theorem find_free_block_none_iff (psa : List Bool) :
    find_free_block psa psa.length 0 = -1 ↔
      ∀ j, j < psa.length → j % 4 = 0 → psa[j]? = some true := by
  rcases find_free_block_spec psa psa.length 0 (by omega) (by decide) with
    ⟨h, hall⟩ | ⟨b, hb, _, hlt, hal, hfree, _⟩
  · exact ⟨fun _ j hj hj4 => hall j (Nat.zero_le j) hj hj4, fun _ => h⟩
  · constructor
    · intro h
      rw [hb] at h
      omega
    · intro hall
      rw [hall b hlt hal] at hfree
      exact absurd hfree (by decide)

/-- C14, as stated, fails on the code in one direction: with the bitmap `[free, used, used,
used]` no 4-block group is free, yet `evict_page_to_disk` raises no fatal error and takes the
group of blocks 0..3; with a bitmap of 6 blocks whose only complete group is used, no
4-block group is free either, and the run ends by marking blocks outside the bitmap instead
of the fatal error. -/
theorem exhaustion_checks_first_block_only :
    (¬ ∃ g, group_free [false, true, true, true] g) ∧
    (∃ s', evict_page_to_disk demo_params demo_oracle
        (demo_with_bitmap [false, true, true, true]) = .ok s' ∧
      s'.psa_tracker = [true, true, true, true]) ∧
    (¬ ∃ g, group_free [true, true, true, true, false, false] g) ∧
    groups_uniform [true, true, true, true, false, false] ∧
    evict_page_to_disk demo_params demo_oracle
        (demo_with_bitmap [true, true, true, true, false, false]) =
      .out_of_bounds (demo_with_bitmap [true, true, true, true, false, false]) := by
  refine ⟨?_, ⟨_, rfl, rfl⟩, ?_, by decide, rfl⟩
  · rintro ⟨g, hg⟩
    have h3 := hg 3 (by decide)
    match g, h3 with
    | 0, h3 => exact absurd h3 (by decide)
    | g + 1, h3 =>
      rw [List.getElem?_eq_none (by simp only [List.length]; omega)] at h3
      exact Option.noConfusion h3
  · rintro ⟨g, hg⟩
    have h0 := hg 0 (by decide)
    have h3 := hg 3 (by decide)
    match g, h0, h3 with
    | 0, h0, _ => exact absurd h0 (by decide)
    | 1, h0, _ => exact absurd h0 (by decide)
    | 2, h0, _ => exact absurd h0 (by decide)
    | g + 3, _, h3 =>
      rw [List.getElem?_eq_none (by simp only [List.length]; omega)] at h3
      exact Option.noConfusion h3

/-- C14, amended: when the size of the bitmap is a multiple of 4 and each aligned 4-block
group is entirely free or entirely used, `evict_page_to_disk` raises the fatal error "No PSA
Block Available" if and only if no aligned 4-block group is free at entry; and whenever it
raises a fatal error, it is that one and the state (bitmap, tracker, counter, page table,
disk) is the state at entry. -/
theorem swap_exhaustion_fatal (c : Params) (o : Oracle) (s : State)
    (hu : groups_uniform s.psa_tracker) (hlen : s.psa_tracker.length % 4 = 0) :
    (evict_page_to_disk c o s = .panic .no_psa_block_available s ↔
      ¬ ∃ g, g % 4 = 0 ∧ group_free s.psa_tracker g) ∧
    (∀ (m : Fatal) (s' : State), evict_page_to_disk c o s = .panic m s' →
      m = .no_psa_block_available ∧ s' = s) := by
  refine ⟨⟨?_, ?_⟩, fun m s' h => ⟨(evict_panic_elim h).1, (evict_panic_elim h).2.1⟩⟩
  · rintro h ⟨g, hg4, hg⟩
    have hall := (find_free_block_none_iff s.psa_tracker).mp (evict_panic_elim h).2.2
    have h0 := hg 0 (by decide)
    rw [Nat.add_zero] at h0
    have hlt : g < s.psa_tracker.length := by
      by_contra hge
      rw [List.getElem?_eq_none (Nat.le_of_not_lt hge)] at h0
      exact Option.noConfusion h0
    rw [hall g hlt hg4] at h0
    exact absurd h0 (by decide)
  · intro hno
    have hb : find_free_block s.psa_tracker s.psa_tracker.length 0 = -1 := by
      rw [find_free_block_none_iff]
      intro j hj hj4
      rcases hu j hj hj4 (by omega) with hf | hused
      · exact absurd ⟨j, hj4, hf⟩ hno
      · have := hused 0 (by decide)
        rw [Nat.add_zero] at this
        exact this
    simp only [evict_page_to_disk]
    rw [if_pos hb]

/-- C14 at concrete bitmaps: with the single group used the fatal error is raised and nothing
is modified. -/
theorem swap_exhaustion_fatal_witness :
    groups_uniform (demo_with_bitmap [true, true, true, true]).psa_tracker ∧
    (demo_with_bitmap [true, true, true, true]).psa_tracker.length % 4 = 0 ∧
    (evict_page_to_disk demo_params demo_oracle (demo_with_bitmap [true, true, true, true]) =
        .panic .no_psa_block_available (demo_with_bitmap [true, true, true, true]) ↔
      ¬ ∃ g, g % 4 = 0 ∧ group_free (demo_with_bitmap [true, true, true, true]).psa_tracker g) :=
  ⟨by decide, by decide,
    (swap_exhaustion_fatal demo_params demo_oracle (demo_with_bitmap [true, true, true, true])
      (by decide) (by decide)).1⟩

/-! ## The slot invariant of the bitmap -/

/-- Clearing a group keeps the size of the bitmap. -/
theorem mark_free_length (psa : List Bool) (b : Nat) : (mark_free psa b).length = psa.length := by
  simp only [mark_free, List.length_set]

/-- Marking an aligned group used keeps every aligned group entirely free or entirely used. -/
theorem groups_uniform_mark_used {psa : List Bool} {b : Nat} (hb : b % 4 = 0)
    (hu : groups_uniform psa) : groups_uniform (mark_used psa b) := by
  intro g hg hg4 hg3
  rw [mark_used_length] at hg hg3
  by_cases hgb : g = b
  · right
    intro k hk
    rw [mark_used_getElem?, if_pos ⟨by omega, by omega, by omega⟩]
  · rcases hu g hg hg4 hg3 with hf | hused
    · left
      intro k hk
      have : ¬ (b ≤ g + k ∧ g + k < b + 4 ∧ g + k < psa.length) := by omega
      rw [mark_used_getElem?, if_neg this]
      exact hf k hk
    · right
      intro k hk
      have : ¬ (b ≤ g + k ∧ g + k < b + 4 ∧ g + k < psa.length) := by omega
      rw [mark_used_getElem?, if_neg this]
      exact hused k hk

/-- Clearing an aligned group keeps every aligned group entirely free or entirely used. -/
theorem groups_uniform_mark_free {psa : List Bool} {b : Nat} (hb : b % 4 = 0)
    (hu : groups_uniform psa) : groups_uniform (mark_free psa b) := by
  intro g hg hg4 hg3
  rw [mark_free_length] at hg hg3
  by_cases hgb : g = b
  · left
    intro k hk
    rw [mark_free_getElem?, if_pos ⟨by omega, by omega, by omega⟩]
  · rcases hu g hg hg4 hg3 with hf | hused
    · left
      intro k hk
      have : ¬ (b ≤ g + k ∧ g + k < b + 4 ∧ g + k < psa.length) := by omega
      rw [mark_free_getElem?, if_neg this]
      exact hf k hk
    · right
      intro k hk
      have : ¬ (b ≤ g + k ∧ g + k < b + 4 ∧ g + k < psa.length) := by omega
      rw [mark_free_getElem?, if_neg this]
      exact hused k hk

/-- After `init_psa_regions` the bitmap has the same size and every block is free. -/
theorem init_psa_regions_free (psa : List Bool) :
    (init_psa_regions psa).length = psa.length ∧ ∀ b ∈ init_psa_regions psa, b = false := by
  refine ⟨by simp only [init_psa_regions, List.length_map], ?_⟩
  intro b hb
  simp only [init_psa_regions, List.mem_map] at hb
  obtain ⟨_, _, h⟩ := hb
  exact h.symm

/-- In the state after boot every aligned group is free and no tracker entry records a swap
slot. -/
theorem swap_inv_fresh {s : State} (h : fresh s) :
    groups_uniform s.psa_tracker ∧ slots_aligned s := by
  constructor
  · intro g _ _ hg3
    left
    intro k hk
    have hlt : g + k < s.psa_tracker.length := by omega
    rw [List.getElem?_eq_getElem hlt]
    have hmem : s.psa_tracker[g + k] ∈ init_psa_regions s.psa_tracker := by
      rw [← h.1]
      exact List.getElem_mem hlt
    rw [(init_psa_regions_free s.psa_tracker).2 _ hmem]
  · intro e he hne
    exact absurd (h.2 e he).2 hne

/-- A normal end of `evict_page_to_disk` keeps the groups of the bitmap uniform and the
recorded slots aligned. -/
theorem swap_inv_evict {c : Params} {o : Oracle} {s s' : State}
    (hinv : groups_uniform s.psa_tracker ∧ slots_aligned s)
    (h : evict_page_to_disk c o s = .ok s') :
    groups_uniform s'.psa_tracker ∧ slots_aligned s' := by
  obtain ⟨b, iv, v, hb, -, -, -, -, hs'⟩ := evict_ok_elim h
  obtain ⟨hb4, -⟩ := find_free_block_some hb
  subst hs'
  refine ⟨groups_uniform_mark_used hb4 hinv.1, ?_⟩
  intro e he hne
  rcases List.mem_or_eq_of_mem_set he with hmem | heq
  · exact hinv.2 e hmem hne
  · subst heq
    exact ⟨b, rfl, hb4⟩

/-- A normal end of `retrieve_page_from_disk` keeps the groups of the bitmap uniform and the
recorded slots aligned: the slot it frees is one recorded in the tracker. -/
theorem swap_inv_retrieve {c : Params} {o : Oracle} {s s' : State} {a : Nat}
    (hinv : groups_uniform s.psa_tracker ∧ slots_aligned s)
    (h : retrieve_page_from_disk c o s a = .ok s') :
    groups_uniform s'.psa_tracker ∧ slots_aligned s' := by
  obtain ⟨j, b, e, hj, -, hb, -, -, hs'⟩ := retrieve_ok_elim h
  subst hs'
  obtain ⟨b', hb', hb4⟩ := hinv.2 e (List.getElem?_mem hj) (by rw [hb]; omega)
  have hbb : b = b' := by omega
  subst hbb
  exact ⟨groups_uniform_mark_free hb4 hinv.1, hinv.2⟩

/-- A normal end of `page_fault_handler`, for any fault, keeps the groups of the bitmap
uniform and the recorded slots aligned. -/
theorem swap_inv_fault {c : Params} {o : Oracle} {s s' : State}
    (hinv : groups_uniform s.psa_tracker ∧ slots_aligned s)
    (h : page_fault_handler c o s = .ok s') :
    groups_uniform s'.psa_tracker ∧ slots_aligned s' := by
  rcases page_fault_handler_ok_elim h with ⟨-, -, hs'⟩ | ⟨-, -, pt, hs'⟩ | ⟨-, i, e, -, -, -, hh⟩
  · subst hs'
    exact hinv
  · subst hs'
    exact hinv
  · obtain ⟨s1, s3, i', e3, h1, h3, -, hi3, hs'⟩ := heap_handle_ok_elim hh
    have hinv1 : groups_uniform s1.psa_tracker ∧ slots_aligned s1 := by
      by_cases hb : s.resident_heap_pages = c.MAXRESHEAP
      · rw [if_pos hb] at h1
        exact swap_inv_evict hinv h1
      · rw [if_neg hb] at h1
        injection h1 with h1
        subst h1
        exact hinv
    have hinv3 : groups_uniform s3.psa_tracker ∧ slots_aligned s3 := by
      by_cases hfd : load_from_disk (PGROUNDDOWN o.stval) s.heap_tracker = true
      · rw [if_pos hfd] at h3
        exact swap_inv_retrieve (s := { s1 with
          pagetable := (uvmalloc s1.pagetable (PGROUNDDOWN o.stval)
            (add64 (PGROUNDDOWN o.stval) PGSIZE) o.uvmalloc_ok).1 }) hinv1 h3
      · rw [if_neg hfd] at h3
        injection h3 with h3
        subst h3
        exact hinv1
    subst hs'
    refine ⟨hinv3.1, ?_⟩
    intro e' he' hne
    rcases List.mem_or_eq_of_mem_set he' with hmem | heq
    · exact hinv3.2 e' hmem hne
    · subst heq
      exact hinv3.2 e3 (List.getElem?_mem hi3) hne

/-- In every state reachable through evictions, retrievals and faults the groups of the
bitmap are uniform and the recorded slots are aligned. -/
theorem swap_inv_reachable {c : Params} {s : State} (h : SwapReachable c s) :
    groups_uniform s.psa_tracker ∧ slots_aligned s := by
  induction h with
  | init s hf => exact swap_inv_fresh hf
  | evict o s s' _ he ih => exact swap_inv_evict ih he
  | retrieve o a s s' _ hr ih => exact swap_inv_retrieve ih hr
  | fault o s s' _ hf ih => exact swap_inv_fault ih hf

/-- From boot: a fault on page 0, an eviction, a retrieval of page 0 and a fault on page 4096
lead to a reachable state. -/
theorem swap_run_reachable :
    SwapReachable boot_params
      (page_fault_handler boot_params (fault_at 4096 4)
        (retrieve_page_from_disk boot_params (fault_at 0 3)
          (evict_page_to_disk boot_params (fault_at 0 2)
            (page_fault_handler boot_params (fault_at 0 1) boot_state).state).state
          0).state).state := by
  have h0 : SwapReachable boot_params boot_state := SwapReachable.init boot_state (by decide)
  have h1 := SwapReachable.fault (fault_at 0 1) _ _ h0 rfl
  have h2 := SwapReachable.evict (fault_at 0 2) _ _ h1 rfl
  have h3 := SwapReachable.retrieve (fault_at 0 3) 0 _ _ h2 rfl
  exact SwapReachable.fault (fault_at 4096 4) _ _ h3 rfl

/-- C17: after `init_psa_regions` every block of the bitmap is free, and in every state
reachable from boot through `evict_page_to_disk`, `retrieve_page_from_disk` (the slot freed
being the one an eviction recorded in the tracker) and `page_fault_handler`, each aligned
4-block group of the bitmap is entirely free or entirely used. -/
theorem bitmap_slot_invariant (c : Params) (s : State) (h : SwapReachable c s) :
    (∀ psa : List Bool,
      (init_psa_regions psa).length = psa.length ∧ ∀ b ∈ init_psa_regions psa, b = false) ∧
    groups_uniform s.psa_tracker :=
  ⟨init_psa_regions_free, (swap_inv_reachable h).1⟩

/-- C17 at a concrete run from boot (fault, eviction, retrieval, fault). -/
theorem bitmap_slot_invariant_witness :
    groups_uniform
      (page_fault_handler boot_params (fault_at 4096 4)
        (retrieve_page_from_disk boot_params (fault_at 0 3)
          (evict_page_to_disk boot_params (fault_at 0 2)
            (page_fault_handler boot_params (fault_at 0 1) boot_state).state).state
          0).state).state.psa_tracker :=
  (bitmap_slot_invariant boot_params _ swap_run_reachable).2

/-! ## The counter of resident pages and the tracker -/

/-- Replacing one entry changes the number of loaded entries by what the two entries
contribute. -/
theorem loaded_count_set (ht : List heap_tracker_t) (i : Nat) (e x : heap_tracker_t)
    (hi : ht[i]? = some e) :
    loaded_count (ht.set i x) + (if e.loaded = true then 1 else 0) =
      loaded_count ht + (if x.loaded = true then 1 else 0) := by
  induction ht generalizing i with
  | nil => exact Option.noConfusion hi
  | cons a tl ih =>
    cases i with
    | zero =>
      rw [List.getElem?_cons_zero] at hi
      injection hi with hi
      subst hi
      simp only [loaded_count, List.set_cons_zero, List.countP_cons]
      omega
    | succ i =>
      rw [List.getElem?_cons_succ] at hi
      have := ih i hi
      simp only [loaded_count, List.set_cons_succ, List.countP_cons] at this ⊢
      omega

/-- With pairwise distinct addresses, two entries with the same address are the same entry. -/
theorem addrs_distinct_unique {ht : List heap_tracker_t} (hd : addrs_distinct ht) {i j : Nat}
    {ei ej : heap_tracker_t} (hi : ht[i]? = some ei) (hj : ht[j]? = some ej)
    (ha : ei.addr = ej.addr) : i = j := by
  obtain ⟨hil, hie⟩ := List.getElem?_eq_some.mp hi
  obtain ⟨hjl, hje⟩ := List.getElem?_eq_some.mp hj
  have hp := List.pairwise_iff_getElem.mp hd
  by_contra hne
  rcases Nat.lt_or_gt_of_ne hne with hlt | hgt
  · have := hp i j hil hjl hlt
    rw [hie, hje] at this
    exact this ha
  · have := hp j i hjl hil hgt
    rw [hie, hje] at this
    exact this ha.symm

/-- The heap branch for an address tracked once by an entry that is not loaded keeps the
counter equal to the number of loaded entries. -/
theorem heap_handle_loaded_count {c : Params} {o : Oracle} {s s' : State} {f i : Nat}
    {e : heap_tracker_t} (hcnt : s.resident_heap_pages = (loaded_count s.heap_tracker : Int))
    (hpre : tracked_at s.heap_tracker f i e)
    (h : heap_handle c o s f (load_from_disk f s.heap_tracker) (i : Int) = .ok s') :
    s'.resident_heap_pages = (loaded_count s'.heap_tracker : Int) := by
  obtain ⟨s1, h1, hpre1, hs'⟩ := heap_fault_shape hpre h
  have hcnt1 : s1.resident_heap_pages = (loaded_count s1.heap_tracker : Int) := by
    rcases h1 with ⟨-, hev⟩ | ⟨-, hsame⟩
    · obtain ⟨b, iv, v, -, -, -, hv, hvl, hs1⟩ := evict_ok_elim hev
      subst hs1
      have := loaded_count_set s.heap_tracker iv v
        { v with startblock := (b : Int), loaded := false } hv
      rw [if_pos hvl] at this
      simp only [Bool.false_eq_true, if_false, Nat.add_zero] at this
      simp only [hcnt]
      omega
    · subst hsame
      exact hcnt
  have hset := loaded_count_set s1.heap_tracker i e
    { e with last_load_time := o.ticks_load, loaded := true } hpre1.1
  rw [if_neg (by rw [hpre1.2.2.1]; decide)] at hset
  simp only [if_true, Nat.add_zero] at hset
  rcases hs' with ⟨-, hs'⟩ | ⟨b, -, -, hs'⟩
  · subst hs'
    simp only [hcnt1]
    omega
  · subst hs'
    simp only [hcnt1]
    omega

/-- C18: in a state in which `resident_heap_pages` equals the number of loaded tracker entries
and tracked addresses are pairwise distinct, when the heap branch of `page_fault_handler` has
run for a tracked address whose entry is not loaded (with an eviction first when the counter
equals the budget), `resident_heap_pages` again equals the number of loaded tracker
entries. -/
theorem counter_matches_tracker (c : Params) (o : Oracle) (s s' : State) (e : heap_tracker_t)
    (hcnt : s.resident_heap_pages = (loaded_count s.heap_tracker : Int))
    (hdist : addrs_distinct s.heap_tracker)
    (hncow : ¬ (s.cow_enabled = true ∧ o.scause = 15))
    (he : e ∈ s.heap_tracker) (ha : e.addr = PGROUNDDOWN o.stval) (hnl : e.loaded = false)
    (hrun : page_fault_handler c o s = .ok s') :
    s'.resident_heap_pages = (loaded_count s'.heap_tracker : Int) := by
  rcases page_fault_handler_ok_elim hrun with ⟨h1, h2, -⟩ | ⟨-, hnone, -⟩ |
    ⟨-, i, e0, hi, ha0, -, hh⟩
  · exact absurd ⟨h1, h2⟩ hncow
  · exact absurd ha (hnone e he)
  · obtain ⟨k, hk⟩ := List.getElem?_of_mem he
    have hik : i = k := addrs_distinct_unique hdist hi hk (by rw [ha0, ha])
    subst hik
    have hee : e0 = e := by
      rw [hi] at hk
      injection hk
    subst hee
    have hpre : tracked_at s.heap_tracker (PGROUNDDOWN o.stval) i e0 :=
      ⟨hi, ha, hnl, fun j e' hj haj => addrs_distinct_unique hdist hj hi (by rw [haj, ha])⟩
    exact heap_handle_loaded_count hcnt hpre hh

/-- C18 at a concrete fault: in `demo_state` (two loaded entries, counter 2, budget 2) the
fault on the evicted page 8192 evicts page 0 and loads page 8192; the counter is 2 again and
two entries are loaded. -/
theorem counter_matches_tracker_witness :
    demo_state.resident_heap_pages = (loaded_count demo_state.heap_tracker : Int) ∧
    addrs_distinct demo_state.heap_tracker ∧
    (page_fault_handler demo_params demo_oracle demo_state).state.resident_heap_pages =
      (loaded_count
        (page_fault_handler demo_params demo_oracle demo_state).state.heap_tracker : Int) ∧
    (page_fault_handler demo_params demo_oracle demo_state).state.resident_heap_pages = 2 :=
  ⟨rfl, by decide,
    counter_matches_tracker demo_params demo_oracle demo_state _ ⟨8192, 5, 0, false⟩ rfl
      (by decide) (by decide) (by decide) rfl rfl rfl,
    rfl⟩

/-! ## One eviction per fault at the budget -/

/-- The steps of the heap branch after the eviction step keep the tracker and the counter
until the entry of the faulting page is marked loaded. -/
theorem heap_handle_tracker {c : Params} {o : Oracle} {s s' : State} {f : Nat} {fd : Bool}
    {index : Int} (h : heap_handle c o s f fd index = .ok s') :
    ∃ (s1 : State) (i : Nat) (e1 : heap_tracker_t),
      (if s.resident_heap_pages = c.MAXRESHEAP then evict_page_to_disk c o s else .ok s)
        = .ok s1 ∧
      index = (i : Int) ∧ s1.heap_tracker[i]? = some e1 ∧
      s'.heap_tracker = s1.heap_tracker.set i
        { e1 with last_load_time := o.ticks_load, loaded := true } ∧
      s'.resident_heap_pages = s1.resident_heap_pages + 1 := by
  obtain ⟨s1, s3, i, e3, h1, h3, hidx, hi3, hs'⟩ := heap_handle_ok_elim h
  have h13 : s3.heap_tracker = s1.heap_tracker ∧
      s3.resident_heap_pages = s1.resident_heap_pages := by
    by_cases hfd : fd = true
    · rw [if_pos hfd] at h3
      obtain ⟨_, _, _, -, -, -, -, -, hs3⟩ := retrieve_ok_elim h3
      subst hs3
      exact ⟨rfl, rfl⟩
    · rw [if_neg hfd] at h3
      injection h3 with h3
      subst h3
      exact ⟨rfl, rfl⟩
  subst hs'
  refine ⟨s1, i, e3, h1, hidx, ?_, ?_, ?_⟩
  · rw [← h13.1]
    exact hi3
  · simp only [h13.1]
  · simp only [h13.2]

/-- C15: for every heap fault that `page_fault_handler` handles, the entry `i` of the faulting
page is the only one changed after the eviction step, it becomes loaded, and the counter is
incremented. When the counter equals the budget at entry, the eviction step runs first, on the
page table of entry (nothing is mapped before it): exactly one entry `iv`, which was loaded,
becomes not loaded and receives a swap slot `b`, every other entry is unchanged, and the
counter ends equal to the budget. When the counter differs from the budget (in particular
when it is below), there is no eviction step: the state `s1` in which the page is mapped is
the state at entry. -/
theorem one_eviction_at_budget (c : Params) (o : Oracle) (s s' : State)
    (hncow : ¬ (s.cow_enabled = true ∧ o.scause = 15))
    (htracked : ∃ e ∈ s.heap_tracker, e.addr = PGROUNDDOWN o.stval)
    (hrun : page_fault_handler c o s = .ok s') :
    ∃ (i : Nat) (s1 : State) (e1 : heap_tracker_t),
      find_heap_page (PGROUNDDOWN o.stval) s.heap_tracker 0 = (i : Int) ∧
      s1.heap_tracker[i]? = some e1 ∧ e1.addr = PGROUNDDOWN o.stval ∧
      s'.heap_tracker = s1.heap_tracker.set i
        { e1 with last_load_time := o.ticks_load, loaded := true } ∧
      (∀ j, j ≠ i → s'.heap_tracker[j]? = s1.heap_tracker[j]?) ∧
      s'.resident_heap_pages = s1.resident_heap_pages + 1 ∧
      (s.resident_heap_pages = c.MAXRESHEAP →
        evict_page_to_disk c o s = .ok s1 ∧
        (∃ (iv b : Nat) (v : heap_tracker_t),
          s.heap_tracker[iv]? = some v ∧ v.loaded = true ∧
          s1.heap_tracker[iv]? = some { v with startblock := (b : Int), loaded := false } ∧
          (∀ j, j ≠ iv → s1.heap_tracker[j]? = s.heap_tracker[j]?)) ∧
        (∀ (a : Nat) (P : Page), s1.pagetable a = some P → s.pagetable a = some P) ∧
        s'.resident_heap_pages = c.MAXRESHEAP) ∧
      (s.resident_heap_pages ≠ c.MAXRESHEAP → s1 = s) := by
  rcases page_fault_handler_ok_elim hrun with ⟨h1, h2, -⟩ | ⟨-, hnone, -⟩ |
    ⟨-, i, e0, hi, ha0, hfirst, hh⟩
  · exact absurd ⟨h1, h2⟩ hncow
  · obtain ⟨e, he, ha⟩ := htracked
    exact absurd ha (hnone e he)
  · obtain ⟨s1, i', e1, h1, hidx, hi1, hht, hcnt⟩ := heap_handle_tracker hh
    have hii : i' = i := by omega
    subst hii
    have hfind : find_heap_page (PGROUNDDOWN o.stval) s.heap_tracker 0 = (i' : Int) := by
      rcases find_heap_page_spec (PGROUNDDOWN o.stval) s.heap_tracker 0 with
        ⟨-, hnone⟩ | ⟨k, e, hk, hfk, hak, hfirstk⟩
      · exact absurd ha0 (hnone e0 (List.getElem?_mem hi))
      · rw [hfk, Nat.zero_add]
        have hki : k = i' := by
          rcases Nat.lt_trichotomy k i' with hlt | heq | hgt
          · exact absurd hak (hfirst k e hlt hk)
          · exact heq
          · exact absurd ha0 (hfirstk i' e0 hgt hi)
        rw [hki]
    have hother : ∀ j, j ≠ i' → s'.heap_tracker[j]? = s1.heap_tracker[j]? := by
      intro j hj
      rw [hht, List.getElem?_set_ne (Ne.symm hj)]
    by_cases hb : s.resident_heap_pages = c.MAXRESHEAP
    · rw [if_pos hb] at h1
      obtain ⟨b, iv, v, -, -, -, hv, hvl, hs1⟩ := evict_ok_elim h1
      have hivlt : iv < s.heap_tracker.length := by
        by_contra hge
        rw [List.getElem?_eq_none (Nat.le_of_not_lt hge)] at hv
        exact Option.noConfusion hv
      have ha1 : e1.addr = PGROUNDDOWN o.stval := by
        subst hs1
        by_cases hiv : iv = i'
        · subst hiv
          simp only [List.getElem?_set_self hivlt] at hi1
          injection hi1 with hi1
          rw [hv] at hi
          injection hi with hi
          rw [← hi1, ← ha0, ← hi]
        · simp only [List.getElem?_set_ne hiv] at hi1
          rw [hi] at hi1
          injection hi1 with hi1
          rw [← hi1]
          exact ha0
      refine ⟨i', s1, e1, hfind, hi1, ha1, hht, hother, hcnt, ?_, fun hne => absurd hb hne⟩
      intro _
      refine ⟨h1, ⟨iv, b, v, hv, hvl, ?_, ?_⟩, ?_, ?_⟩
      · subst hs1
        exact List.getElem?_set_self hivlt
      · intro j hj
        subst hs1
        exact List.getElem?_set_ne (Ne.symm hj)
      · intro a P hP
        subst hs1
        simp only [uvmunmap] at hP
        split at hP
        · exact Option.noConfusion hP
        · exact hP
      · subst hs1
        rw [hcnt]
        simp only [hb]
        omega
    · rw [if_neg hb] at h1
      injection h1 with h1
      subst h1
      rw [hi] at hi1
      injection hi1 with hi1
      subst hi1
      exact ⟨i', s, e0, hfind, hi, ha0, hht, hother, hcnt, fun h => absurd h hb, fun _ => rfl⟩

/-- C15 at a concrete fault: in `demo_state` the counter equals the budget 2 and the fault on
page 8192 evicts exactly page 0 (entry 0, slot of blocks 4..7), then loads page 8192
(entry 2); the counter ends at 2. -/
theorem one_eviction_at_budget_witness :
    demo_state.resident_heap_pages = demo_params.MAXRESHEAP ∧
    (page_fault_handler demo_params demo_oracle demo_state).state.heap_tracker =
      [⟨0, 10, 4, false⟩, ⟨4096, 20, -1, true⟩, ⟨8192, 100, 0, true⟩] ∧
    ∃ (i : Nat) (s1 : State) (e1 : heap_tracker_t),
      find_heap_page (PGROUNDDOWN demo_oracle.stval) demo_state.heap_tracker 0 = (i : Int) ∧
      s1.heap_tracker[i]? = some e1 ∧ e1.addr = PGROUNDDOWN demo_oracle.stval ∧
      (page_fault_handler demo_params demo_oracle demo_state).state.heap_tracker =
        s1.heap_tracker.set i { e1 with last_load_time := demo_oracle.ticks_load, loaded := true } ∧
      (∀ j, j ≠ i →
        (page_fault_handler demo_params demo_oracle demo_state).state.heap_tracker[j]? =
          s1.heap_tracker[j]?) ∧
      (page_fault_handler demo_params demo_oracle demo_state).state.resident_heap_pages =
        s1.resident_heap_pages + 1 ∧
      (demo_state.resident_heap_pages = demo_params.MAXRESHEAP →
        evict_page_to_disk demo_params demo_oracle demo_state = .ok s1 ∧
        (∃ (iv b : Nat) (v : heap_tracker_t),
          demo_state.heap_tracker[iv]? = some v ∧ v.loaded = true ∧
          s1.heap_tracker[iv]? = some { v with startblock := (b : Int), loaded := false } ∧
          (∀ j, j ≠ iv → s1.heap_tracker[j]? = demo_state.heap_tracker[j]?)) ∧
        (∀ (a : Nat) (P : Page), s1.pagetable a = some P → demo_state.pagetable a = some P) ∧
        (page_fault_handler demo_params demo_oracle demo_state).state.resident_heap_pages =
          demo_params.MAXRESHEAP) ∧
      (demo_state.resident_heap_pages ≠ demo_params.MAXRESHEAP → s1 = demo_state) :=
  ⟨rfl, by decide,
    one_eviction_at_budget demo_params demo_oracle demo_state _ (by decide)
      ⟨⟨8192, 5, 0, false⟩, by decide, rfl⟩ rfl⟩

/-! ## Faults on the program image -/

/-- What the program-image branch loads: when the scan stops at a header `ph` (and `uvmalloc`
finds memory), the page mapped at the faulting address `f` receives the file bytes from
offset `ph.off` on, that is, the first bytes of the segment, wherever `f` lies in the segment;
the bytes past `ph.filesz` are zero. -/
theorem image_fault_content (c : Params) (o : Oracle) (s : State) (ip : Inode) (elf : elfhdr)
    (ph : proghdr) (hncow : ¬ (s.cow_enabled = true ∧ o.scause = 15))
    (hnone : ∀ e ∈ s.heap_tracker, e.addr ≠ PGROUNDDOWN o.stval)
    (hn : o.namei = some ip) (he : ip.elf = some elf)
    (hscan : scan_headers ip (PGROUNDDOWN o.stval) elf.phnum 0 o.ph_stack = .reached_uvmalloc ph)
    (hok : o.uvmalloc_ok = true) (hmem : 0 < ph.memsz)
    (hlt : PGROUNDDOWN o.stval + ph.memsz < 2 ^ 64) :
    ∃ (s' : State) (P : Page), page_fault_handler c o s = .ok s' ∧
      s'.pagetable (PGROUNDDOWN o.stval) = some P ∧
      ∀ j < PGSIZE, P j =
        if j < ph.filesz % 2 ^ 32 ∧ ph.off % 2 ^ 32 + j < ip.size then
          ip.data (ph.off % 2 ^ 32 + j)
        else 0 := by
  have hidx : find_heap_page (PGROUNDDOWN o.stval) s.heap_tracker 0 = -1 := by
    rcases find_heap_page_spec (PGROUNDDOWN o.stval) s.heap_tracker 0 with
      h | ⟨k, e, hk, -, ha, -⟩
    · exact h.1
    · exact absurd ha (hnone e (List.getElem?_mem hk))
  have hrun : page_fault_handler c o s = .ok { s with
      pagetable := loadseg (uvmalloc s.pagetable (PGROUNDDOWN o.stval)
        (add64 (PGROUNDDOWN o.stval) ph.memsz) o.uvmalloc_ok).1 (PGROUNDDOWN o.stval) ip
        (ph.off % 2 ^ 32) (ph.filesz % 2 ^ 32) } := by
    simp only [page_fault_handler]
    rw [if_neg hncow, hidx, if_neg (fun h => h rfl)]
    simp only [load_program_page, hn, he, hscan]
  have hadd : add64 (PGROUNDDOWN o.stval) ph.memsz = PGROUNDDOWN o.stval + ph.memsz :=
    Nat.mod_eq_of_lt hlt
  have hmap : (uvmalloc s.pagetable (PGROUNDDOWN o.stval)
      (add64 (PGROUNDDOWN o.stval) ph.memsz) o.uvmalloc_ok).1 (PGROUNDDOWN o.stval)
        = some (fun _ => 0) := by
    rw [hok, hadd]
    unfold uvmalloc
    simp only [if_true]
    rw [if_pos ⟨le_refl _, by omega, PGROUNDDOWN_aligned o.stval⟩]
  refine ⟨_, fun j =>
    if j < PGSIZE ∧ (PGROUNDDOWN o.stval - PGROUNDDOWN o.stval) + j < ph.filesz % 2 ^ 32 ∧
        ph.off % 2 ^ 32 + (PGROUNDDOWN o.stval - PGROUNDDOWN o.stval) + j < ip.size then
      ip.data (ph.off % 2 ^ 32 + (PGROUNDDOWN o.stval - PGROUNDDOWN o.stval) + j)
    else 0, hrun, ?_, ?_⟩
  · show loadseg _ _ _ _ _ _ = _
    unfold loadseg
    simp only [hmap]
    rw [if_pos ⟨le_refl _, by rw [Nat.sub_self]; rfl⟩]
  · intro j hj
    simp only [Nat.sub_self, Nat.zero_add, Nat.add_zero, hj, true_and]

/-- C12, on the code: the fault of `demo_second_page_oracle` is at page 20480, the second
page of the only segment of `demo_two_page_inode` (addresses 16384..24575, file offset 4096),
which passes the three checks. The handler maps the page, but fills it with the file bytes
from offset 4096 on (the first page of the segment, bytes of value 1): the bytes at the
matching offset `4096 + (20480 - 16384)` have value 2. It also maps the page 24576, which
lies outside the segment, with the second page of the segment. -/
theorem image_fault_loads_segment_start :
    PGROUNDDOWN demo_second_page_oracle.stval = 20480 ∧
    ¬ (demo_state.cow_enabled = true ∧ demo_second_page_oracle.scause = 15) ∧
    (∀ e ∈ demo_state.heap_tracker, e.addr ≠ 20480) ∧
    demo_two_page_inode.ph 0 = some ⟨1, 7, 4096, 16384, 8192, 8192⟩ ∧
    ¬ ph_invalid ⟨1, 7, 4096, 16384, 8192, 8192⟩ ∧
    ph_covers ⟨1, 7, 4096, 16384, 8192, 8192⟩ 20480 ∧
    demo_two_page_inode.data (4096 + (20480 - 16384)) = 2 ∧
    demo_two_page_inode.data (4096 + (20480 - 16384) + 4095) = 2 ∧
    ∃ s' P Q, page_fault_handler demo_params demo_second_page_oracle demo_state = .ok s' ∧
      s'.pagetable 20480 = some P ∧ P 0 = 1 ∧ P 4095 = 1 ∧
      s'.pagetable 24576 = some Q ∧ Q 0 = 2 := by
  refine ⟨by decide, by decide, by decide, rfl, by decide, by decide, by decide, by decide,
    _, _, _, rfl, rfl, ?_, ?_, rfl, ?_⟩
  · decide
  · decide
  · decide

/-- The program-image branch on the first page of the segment of `demo_two_page_inode`: the
page 16384 receives the file bytes from offset 4096 on, as the segment prescribes. -/
theorem image_fault_first_page :
    ∃ s' P, page_fault_handler demo_params demo_first_page_oracle demo_state = .ok s' ∧
      s'.pagetable (PGROUNDDOWN demo_first_page_oracle.stval) = some P ∧
      ∀ j < PGSIZE, P j =
        if j < 8192 % 2 ^ 32 ∧ 4096 % 2 ^ 32 + j < demo_two_page_inode.size then
          demo_two_page_inode.data (4096 % 2 ^ 32 + j)
        else 0 :=
  image_fault_content demo_params demo_first_page_oracle demo_state demo_two_page_inode ⟨64, 1⟩
    ⟨1, 7, 4096, 16384, 8192, 8192⟩ (by decide) (by decide) rfl rfl (by decide) rfl (by decide)
    (by decide)

/-! ## Two-phase selection and pure least-recently-used selection -/

/-- The working-set scan with a constant clock `T`, with the position it returns: the
accumulator it started with when no entry of `es` beats it, otherwise the first position among
the loaded entries of `es` outside the window with the least load time. -/
theorem working_set_scan_first (T : Nat) (es : List heap_tracker_t) (i : Nat) (acc : Int × Nat) :
    (working_set_scan (fun _ => T) es i acc = acc ∧
        ∀ e ∈ es, e.loaded = true → sub64 T e.last_load_time > WORKING_SET_WINDOW →
          acc.2 ≤ e.last_load_time) ∨
    (∃ (k : Nat) (e : heap_tracker_t), es[k]? = some e ∧
        working_set_scan (fun _ => T) es i acc = (((i + k : Nat) : Int), e.last_load_time) ∧
        e.loaded = true ∧ sub64 T e.last_load_time > WORKING_SET_WINDOW ∧
        e.last_load_time < acc.2 ∧
        ∀ (j : Nat) (e' : heap_tracker_t), es[j]? = some e' → e'.loaded = true →
          sub64 T e'.last_load_time > WORKING_SET_WINDOW →
          e.last_load_time ≤ e'.last_load_time ∧
            (j < k → e.last_load_time < e'.last_load_time)) := by
  induction es generalizing i acc with
  | nil => left; exact ⟨rfl, fun e he => absurd he (List.not_mem_nil e)⟩
  | cons e es ih =>
    by_cases hsel : e.loaded = true ∧ sub64 T e.last_load_time > WORKING_SET_WINDOW ∧
        e.last_load_time < acc.2
    · obtain ⟨h1, h2, h3⟩ := hsel
      have hstep : working_set_scan (fun _ => T) (e :: es) i acc =
          working_set_scan (fun _ => T) es (i + 1) ((i : Int), e.last_load_time) := by
        simp [working_set_scan, h1, h2, h3]
      rcases ih (i + 1) ((i : Int), e.last_load_time) with
        ⟨hr, hall⟩ | ⟨k, e', hk, hr, hl, ho, hlt, hmin⟩
      · right
        refine ⟨0, e, List.getElem?_cons_zero, by rw [hstep, hr]; rfl, h1, h2, h3, ?_⟩
        intro j e' hj hl' ho'
        refine ⟨?_, fun h => absurd h (Nat.not_lt_zero j)⟩
        cases j with
        | zero =>
          rw [List.getElem?_cons_zero] at hj
          injection hj with hj
          rw [hj]
        | succ j =>
          rw [List.getElem?_cons_succ] at hj
          exact hall e' (List.getElem?_mem hj) hl' ho'
      · right
        refine ⟨k + 1, e', by rw [List.getElem?_cons_succ]; exact hk, ?_, hl, ho,
          lt_trans hlt h3, ?_⟩
        · rw [hstep, hr]
          have : i + 1 + k = i + (k + 1) := by omega
          rw [this]
        · intro j e'' hj hl'' ho''
          cases j with
          | zero =>
            rw [List.getElem?_cons_zero] at hj
            injection hj with hj
            rw [← hj]
            exact ⟨le_of_lt hlt, fun _ => hlt⟩
          | succ j =>
            rw [List.getElem?_cons_succ] at hj
            have := hmin j e'' hj hl'' ho''
            exact ⟨this.1, fun h => this.2 (by omega)⟩
    · have hstep : working_set_scan (fun _ => T) (e :: es) i acc =
          working_set_scan (fun _ => T) es (i + 1) acc := by
        simp only [working_set_scan]
        congr 1
        by_cases h1 : e.loaded = true
        · by_cases h2 : sub64 T e.last_load_time > WORKING_SET_WINDOW
          · have h3 : ¬ e.last_load_time < acc.2 := fun h3 => hsel ⟨h1, h2, h3⟩
            simp [h1, h2, h3]
          · simp [h1, h2]
        · simp [h1]
      have hhead : e.loaded = true → sub64 T e.last_load_time > WORKING_SET_WINDOW →
          acc.2 ≤ e.last_load_time := fun h1 h2 =>
        Nat.le_of_not_lt (fun h3 => hsel ⟨h1, h2, h3⟩)
      rcases ih (i + 1) acc with ⟨hr, hall⟩ | ⟨k, e', hk, hr, hl, ho, hlt, hmin⟩
      · left
        refine ⟨by rw [hstep, hr], ?_⟩
        intro e' he' hl' ho'
        rcases List.mem_cons.mp he' with rfl | hmem
        · exact hhead hl' ho'
        · exact hall e' hmem hl' ho'
      · right
        refine ⟨k + 1, e', by rw [List.getElem?_cons_succ]; exact hk, ?_, hl, ho, hlt, ?_⟩
        · rw [hstep, hr]
          have : i + 1 + k = i + (k + 1) := by omega
          rw [this]
        · intro j e'' hj hl'' ho''
          cases j with
          | zero =>
            rw [List.getElem?_cons_zero] at hj
            injection hj with hj
            subst hj
            have := hhead hl'' ho''
            exact ⟨by omega, fun _ => by omega⟩
          | succ j =>
            rw [List.getElem?_cons_succ] at hj
            have := hmin j e'' hj hl'' ho''
            exact ⟨this.1, fun h => this.2 (by omega)⟩

/-- An entry of `pre ++ [e]` is an entry of `pre` or is `e` at position `pre.length`. -/
theorem getElem?_append_singleton {pre : List heap_tracker_t} {e e' : heap_tracker_t} {j : Nat}
    (h : (pre ++ [e])[j]? = some e') :
    (j < pre.length ∧ pre[j]? = some e') ∨ (j = pre.length ∧ e' = e) := by
  by_cases hj : j < pre.length
  · rw [List.getElem?_append_left hj] at h
    exact Or.inl ⟨hj, h⟩
  · rw [List.getElem?_append_right (Nat.le_of_not_lt hj)] at h
    right
    cases hm : j - pre.length with
    | zero =>
      rw [hm, List.getElem?_cons_zero] at h
      injection h with h
      exact ⟨by omega, h.symm⟩
    | succ m =>
      rw [hm, List.getElem?_cons_succ] at h
      exact Option.noConfusion h

/-- The fallback scan computes the pure least-recently-used choice: it keeps `lru_inv` up to
the end of the tracker. -/
theorem fifo_scan_lru (ht : List heap_tracker_t) (es pre : List heap_tracker_t) (idx : Int)
    (hsplit : ht = pre ++ es) (hinv : lru_inv pre idx) :
    lru_inv ht (fifo_scan ht es pre.length idx) := by
  induction es generalizing pre idx with
  | nil =>
    rw [List.append_nil] at hsplit
    rw [hsplit]
    exact hinv
  | cons e es ih =>
    have hsplit' : ht = (pre ++ [e]) ++ es := by simp [hsplit]
    have hlen : (pre ++ [e]).length = pre.length + 1 := by simp
    have hlast : (pre ++ [e])[pre.length]? = some e := by
      rw [List.getElem?_append_right (le_refl _), Nat.sub_self]
      rfl
    simp only [fifo_scan]
    rw [← hlen]
    apply ih _ _ hsplit'
    by_cases hl : e.loaded = true
    · rcases hinv with ⟨hidx, hnone⟩ | ⟨k, e0, hidx, hk, hl0, hmin⟩
      · right
        refine ⟨pre.length, e, by simp [hl, hidx], hlast, hl, ?_⟩
        intro j e' hj hl'
        rcases getElem?_append_singleton hj with ⟨-, hj'⟩ | ⟨hjl, hje⟩
        · have := hnone e' (List.getElem?_mem hj')
          rw [this] at hl'
          exact absurd hl' (by decide)
        · subst hje
          exact ⟨le_refl _, fun h => by omega⟩
      · have hklt : k < pre.length := by
          by_contra hcon
          rw [List.getElem?_eq_none (by omega)] at hk
          exact Option.noConfusion hk
        have hget : ht.getD idx.toNat default = e0 := by
          subst hidx
          rw [List.getD_eq_getElem?_getD, hsplit]
          simp [List.getElem?_append_left hklt, hk]
        have hne : idx ≠ -1 := by subst hidx; omega
        right
        by_cases hlt : e.last_load_time < e0.last_load_time
        · refine ⟨pre.length, e, ?_, hlast, hl, ?_⟩
          · simp only [hl, if_true, hget]; simp [hlt]
          intro j e' hj hl'
          rcases getElem?_append_singleton hj with ⟨-, hj'⟩ | ⟨hjl, hje⟩
          · have := (hmin j e' hj' hl').1
            exact ⟨by omega, fun _ => by omega⟩
          · subst hje
            exact ⟨le_refl _, fun h => by omega⟩
        · refine ⟨k, e0, ?_, ?_, hl0, ?_⟩
          · simp only [hl, if_true, hget]; simp [hlt, hne, hidx]
          · rw [List.getElem?_append_left hklt]; exact hk
          · intro j e' hj hl'
            rcases getElem?_append_singleton hj with ⟨-, hj'⟩ | ⟨hjl, hje⟩
            · exact hmin j e' hj' hl'
            · subst hje
              exact ⟨Nat.le_of_not_lt hlt, fun h => by omega⟩
    · have hl' : e.loaded = false := by simpa using hl
      simp only [hl', Bool.false_eq_true, if_false]
      rcases hinv with ⟨hidx, hnone⟩ | ⟨k, e0, hidx, hk, hl0, hmin⟩
      · left
        refine ⟨hidx, ?_⟩
        intro e' he'
        rcases List.mem_append.mp he' with hmem | hmem
        · exact hnone e' hmem
        · simp at hmem; subst hmem; exact hl'
      · right
        have hklt : k < pre.length := by
          by_contra hcon
          rw [List.getElem?_eq_none (by omega)] at hk
          exact Option.noConfusion hk
        refine ⟨k, e0, hidx, ?_, hl0, ?_⟩
        · rw [List.getElem?_append_left hklt]; exact hk
        · intro j e' hj hl''
          rcases getElem?_append_singleton hj with ⟨-, hj'⟩ | ⟨hjl, hje⟩
          · exact hmin j e' hj' hl''
          · subst hje
            rw [hl'] at hl''
            exact absurd hl'' (by decide)

/-- With a constant clock `T` below `2^64` and no loaded entry stamped after `T`, the index
chosen by lines 81-109 is the pure least-recently-used choice. -/
theorem select_victim_lru (ht : List heap_tracker_t) (T : Nat) (hT : T < 2 ^ 64)
    (hle : ∀ e ∈ ht, e.loaded = true → e.last_load_time ≤ T) :
    lru_inv ht (select_victim (fun _ => T) ht) := by
  have hsub : ∀ e ∈ ht, e.loaded = true → sub64 T e.last_load_time = T - e.last_load_time :=
    fun e he hl => sub64_of_le (hle e he hl) hT
  rcases working_set_scan_first T ht 0 (-1, 2 ^ 64 - 1) with
    ⟨hr, -⟩ | ⟨k, v, hk, hr, hl, ho, -, hmin⟩
  · have hsel : select_victim (fun _ => T) ht = fifo_scan ht ht 0 (-1) := by
      simp only [select_victim, hr]; simp
    rw [hsel]
    exact fifo_scan_lru ht ht [] (-1) (by simp) (Or.inl ⟨rfl, by simp⟩)
  · have hsel : select_victim (fun _ => T) ht = (k : Int) := by
      have hne : ((0 + k : Nat) : Int) ≠ -1 := by omega
      simp only [select_victim, hr, hne, if_false]
      simp
    have hv : v ∈ ht := List.getElem?_mem hk
    have hov : T - v.last_load_time > 50 := by
      rw [hsub v hv hl] at ho
      simpa [WORKING_SET_WINDOW] using ho
    right
    refine ⟨k, v, hsel, hk, hl, ?_⟩
    intro j e' hj hl'
    have he' : e' ∈ ht := List.getElem?_mem hj
    by_cases hout : T - e'.last_load_time > 50
    · exact hmin j e' hj hl'
        (by rw [hsub e' he' hl']; simpa [WORKING_SET_WINDOW] using hout)
    · have := hle e' he' hl'
      exact ⟨by omega, fun _ => by omega⟩

/-- The entry at a position of the tracker, read with `getD`. -/
theorem getD_of_getElem? {ht : List heap_tracker_t} {j : Nat} {e : heap_tracker_t}
    (h : ht[j]? = some e) : ht.getD j default = e := by
  rw [List.getD_eq_getElem?_getD, h]
  rfl

/-- The entry at a position inside the tracker, read with `getD`. -/
theorem getElem?_getD {ht : List heap_tracker_t} {j : Nat} (h : j < ht.length) :
    ht[j]? = some (ht.getD j default) := by
  rw [List.getD_eq_getElem?_getD, List.getElem?_eq_getElem h]
  rfl

/-- The pure least-recently-used choice is the value of `pure_lru_victim`. -/
theorem pure_lru_victim_of_inv {ht : List heap_tracker_t} {idx : Int} (h : lru_inv ht idx) :
    pure_lru_victim ht = idx := by
  rcases h with ⟨hidx, hnone⟩ | ⟨k, e, hidx, hk, hl, hmin⟩
  · have hfind : (List.range ht.length).find? (fun k => decide (lru_at ht k)) = none := by
      rw [List.find?_eq_none]
      intro k _ hk
      have hk' : lru_at ht k := of_decide_eq_true hk
      have h2 := hk'.2.1
      rw [hnone _ (List.getElem?_mem (getElem?_getD hk'.1))] at h2
      exact absurd h2 (by decide)
    simp only [pure_lru_victim, hfind, hidx]
  · have hklt : k < ht.length := by
      by_contra hcon
      rw [List.getElem?_eq_none (by omega)] at hk
      exact Option.noConfusion hk
    have hke : ht.getD k default = e := getD_of_getElem? hk
    have hat : lru_at ht k := by
      refine ⟨hklt, by rw [hke]; exact hl, ?_⟩
      intro j hj hlj
      rw [hke]
      exact hmin j _ (getElem?_getD hj) hlj
    cases hfind : (List.range ht.length).find? (fun k => decide (lru_at ht k)) with
    | none =>
      rw [List.find?_eq_none] at hfind
      exact absurd (decide_eq_true hat) (hfind k (List.mem_range.mpr hklt))
    | some k' =>
      have hp := List.find?_some hfind
      have hat' : lru_at ht k' := of_decide_eq_true hp
      have hkk : k' = k := by
        have h1 := hat.2.2 k' hat'.1 hat'.2.1
        have h2 := hat'.2.2 k hat.1 hat.2.1
        rcases Nat.lt_trichotomy k' k with hlt | heq | hgt
        · have := h1.2 hlt
          omega
        · exact heq
        · have := h2.2 hgt
          omega
      simp only [pure_lru_victim, hfind, hidx, hkk]

/-- With a constant clock `T` below `2^64` and no loaded entry stamped after `T`, the
two-phase selection of lines 81-109 and pure least-recently-used selection choose the same
index. -/
theorem select_victim_eq_pure_lru (ht : List heap_tracker_t) (T : Nat) (hT : T < 2 ^ 64)
    (hle : ∀ e ∈ ht, e.loaded = true → e.last_load_time ≤ T) :
    select_victim (fun _ => T) ht = pure_lru_victim ht :=
  (pure_lru_victim_of_inv (select_victim_lru ht T hT hle)).symm

/-- The clock `advancing_clock` never goes back. -/
theorem advancing_clock_mono (i j : Nat) (h : i ≤ j) : advancing_clock i ≤ advancing_clock j := by
  unfold advancing_clock
  by_cases hi : i = 0
  · by_cases hj : j = 0
    · rw [if_pos hi, if_pos hj]
    · rw [if_pos hi, if_neg hj]
      decide
  · have hj : j ≠ 0 := by omega
    rw [if_neg hi, if_neg hj]

/-- With the clock reading 60 at the first entry (loaded at time 10, inside the window) and 80
at the second one (loaded at time 20, outside the window), the two-phase selection chooses the
second entry and pure least-recently-used selection the first. -/
theorem two_phase_differs_when_clock_advances :
    select_victim advancing_clock [⟨0, 10, -1, true⟩, ⟨4096, 20, -1, true⟩] = 1 ∧
    pure_lru_victim [⟨0, 10, -1, true⟩, ⟨4096, 20, -1, true⟩] = 0 := by
  decide

/-- C11: two-phase selection is observably different from pure LRU. There are a heap tracker,
a time `T` and a monotonic clock reading `T` when the scan of `evict_page_to_disk` starts,
with every resident timestamp at most `T`, for which the victim index chosen by the two-phase
algorithm of lines 81-109 differs from the one chosen by pure least-recently-used selection
(the lowest-index resident entry with the smallest `last_load_time`). The clock is read for
each loaded entry (line 88): with pages loaded at times 10 and 20 and the clock at 60 for the
first entry and at 80 for the second, the first page is inside the window when it is examined
and the second one outside, so the two-phase algorithm chooses index 1 where pure LRU chooses
index 0. -/
theorem two_phase_differs_from_pure_lru :
    ∃ (ht : List heap_tracker_t) (ticks : Nat → Nat) (T : Nat),
      ticks 0 = T ∧ (∀ i j, i ≤ j → ticks i ≤ ticks j) ∧ (∀ i, ticks i < 2 ^ 64) ∧
      (∀ e ∈ ht, e.loaded = true → e.last_load_time ≤ T) ∧
      select_victim ticks ht ≠ pure_lru_victim ht := by
  refine ⟨[⟨0, 10, -1, true⟩, ⟨4096, 20, -1, true⟩], advancing_clock, 60, rfl,
    advancing_clock_mono, ?_, by decide, by decide⟩
  intro i
  unfold advancing_clock
  split <;> decide

/-! ## Heap faults during which `uvmalloc` finds no memory -/

/-- C5, on the code: from the boot state with a budget of 2, the six faults of
`double_assignment_faults` are heap faults on pages that are not mapped when they occur, and
`page_fault_handler` ends normally for each. During the fourth one (page 0, swapped at blocks
0..3) `uvmalloc` finds no memory: line 270 does not detect it, the blocks 0..3 are freed and
the entry is marked loaded with nothing mapped. The fifth fault, on page 0 again, evicts page
8192 to the blocks 0..3 and frees them once more for page 0; the sixth evicts page 0 to the
blocks 0..3. In the final state the entries of pages 0 and 8192 are both evicted with
`startblock == 0`. -/
theorem swap_slot_assigned_twice :
    fresh boot_state ∧
    faults_on_unmapped demo_params boot_state double_assignment_faults = true ∧
    (∃ s', handle_faults demo_params boot_state double_assignment_faults = .ok s' ∧
      s'.heap_tracker = [⟨0, 5, 0, false⟩, ⟨4096, 6, 4, true⟩, ⟨8192, 3, 0, false⟩]) ∧
    evicted ⟨0, 5, 0, false⟩ ∧ evicted ⟨8192, 3, 0, false⟩ ∧
    ¬ ((0 : Int) + 3 < 0 ∨ (0 : Int) + 3 < 0) := by
  refine ⟨by decide, by decide, ⟨_, rfl, by decide⟩, by decide, by decide, by decide⟩

/-- C3, on the code: `demo_state` satisfies the tracker/bitmap invariants, and page 8192 is
tracked once, not resident, with its content in the blocks 0..3. When `uvmalloc` finds no
memory during the fault on it, line 270 does not detect it and `page_fault_handler` ends
normally: the blocks 0..3 are freed, the entry is marked loaded and nothing is mapped at
8192, so the page has no logical content any more. The next fault on the page, with memory
available, evicts page 4096 (bytes 7) to the blocks 0..3 and reads them back for page 8192:
the byte at offset 1, which was 1, now reads 7. -/
theorem heap_content_lost_without_memory :
    mem_inv demo_state ∧
    tracked_at demo_state.heap_tracker 8192 2 ⟨8192, 5, 0, false⟩ ∧
    demo_state.pagetable 8192 = none ∧
    logical_content demo_params demo_state ⟨8192, 5, 0, false⟩ =
      some (swap_content demo_params demo_state.disk 0) ∧
    swap_content demo_params demo_state.disk 0 1 = 1 ∧
    page_fault_handler demo_params { demo_oracle with uvmalloc_ok := false } demo_state =
      .ok demo_lost ∧
    demo_lost.heap_tracker[2]? = some ⟨8192, 100, 0, true⟩ ∧
    demo_lost.pagetable 8192 = none ∧
    logical_content demo_params demo_lost ⟨8192, 100, 0, true⟩ = none ∧
    group_free demo_lost.psa_tracker 0 ∧
    ¬ content_kept demo_params demo_state demo_lost ∧
    ∃ s'' P, page_fault_handler demo_params (fault_at 8200 101) demo_lost = .ok s'' ∧
      s''.pagetable 8192 = some P ∧ P 1 = 7 := by
  refine ⟨mem_inv_of_check (by decide), tracked_at_intro rfl rfl rfl (by decide), rfl, rfl,
    by decide, rfl, rfl, rfl, rfl, by decide, ?_, _, _, rfl, rfl, by decide⟩
  intro hkept
  obtain ⟨e', P', he', -, hl, -⟩ := hkept 2 ⟨8192, 5, 0, false⟩
    (swap_content demo_params demo_state.disk 0) rfl rfl
  have he : e' = ⟨8192, 100, 0, true⟩ := by
    have h : some (⟨8192, 100, 0, true⟩ : heap_tracker_t) = some e' := he'
    exact (Option.some.inj h).symm
  subst he
  exact Option.noConfusion hl

end Pfault
